import Mathlib

/-!
# UnorderedMap (src/UnorderedMap.h): a separate-chaining hash table

Shallow embedding of the container of `UnorderedMap.h`.

Memory model.  A `HashNode` lives at a heap address (`addr`); a `HashNode *` is
`Option Nat` (`none` is `nullptr`).  A bucket slot owns its chain, so the array
`_buckets` is a list of chains and a chain is the list of the nodes reached by
following `next` from the slot.  A `HashNode *&` (the result of `_find`) is a
`Slot`: the bucket and the number of `next` links followed to reach the link.
Dereferencing a pointer looks the address up in the chains (`deref`); an
operation that dereferences a null or dangling pointer has no defined result
and returns `none`.  Pointers are only ever compared with pointers into the
same container, so two containers may use the same address.

Integers.  `size_type` values (sizes, bucket indices, hash codes) are natural
numbers.  The counter of the bucket loop of `operator++` is declared `int`: it
is an integer here, initialised with `index + 1` converted from `size_t`
(`to_int`) and compared with `_bucket_count` after the conversion back to
`size_t` (`to_size_t`), as in the source, so the loop (`scanBuckets`) does not
reach the buckets from index `2 ^ 31` on.  The `int` loop counters of `clear`
and of the hash functions are natural numbers: for them the model is exact as
long as `_bucket_count` and the string lengths fit in an `int` (beyond that
`i++` overflows, which is undefined).  The number of live nodes fits in a
`size_t`.  The arithmetic of the hash functions wraps at `2 ^ 64`.
`code % _bucket_count` with `_bucket_count = 0` is a division by zero in the
source; every theorem about it assumes `0 < _bucket_count`.

The template parameters `Hash` and `Pred` are the functions `hash` and `equal`.
-/

set_option autoImplicit false

/-- The struct `HashNode`: `val.first` is `key`, `val.second` is `val`; the
`next` link is the list structure of the chain holding the node. -/
structure HashNode (K V : Type) where
  addr : Nat
  key : K
  val : V
deriving DecidableEq, Repr

/-- A pointer to a `HashNode`; `none` is `nullptr`. -/
abbrev Ptr := Option Nat

/-- A reference to a link (`HashNode *&`): the slot `_buckets[bucket]` when
`idx = 0`, else the `next` field of the node number `idx - 1` of that chain. -/
structure Slot where
  bucket : Nat
  idx : Nat
deriving DecidableEq, Repr

/-- The data members of `class UnorderedMap`. -/
structure UnorderedMap (K V : Type) where
  _bucket_count : Nat
  _buckets : List (List (HashNode K V))
  _head : Ptr
  _size : Nat
deriving DecidableEq, Repr

namespace UnorderedMap

variable {K V : Type}

/-- `_range_hash(hash_code, bucket_count)`. -/
def _range_hash (hash_code bucket_count : Nat) : Nat := hash_code % bucket_count

/-- The chain `_buckets[i]`. -/
def chain (m : UnorderedMap K V) (i : Nat) : List (HashNode K V) := m._buckets.getD i []

/-- `_bucket(size_t code)`. -/
def _bucket_code (m : UnorderedMap K V) (code : Nat) : Nat := code % m._bucket_count

/-- `_bucket(const Key & key)`. -/
def _bucket (hash : K → Nat) (m : UnorderedMap K V) (key : K) : Nat :=
  m._bucket_code (hash key)

/-- `_bucket(const value_type & val)`. -/
def _bucket_val (hash : K → Nat) (m : UnorderedMap K V) (val : K × V) : Nat :=
  m._bucket hash val.1

/-- The `while` loop of `_find`: the number of links skipped before the first
node whose key satisfies `_equal(node key, key)`, or the chain length. -/
def chainScan (equal : K → K → Bool) (key : K) : List (HashNode K V) → Nat
  | [] => 0
  | n :: rest => if equal n.key key then 0 else chainScan equal key rest + 1

/-- `_find(code, bucket, key)`. -/
def _find_in (equal : K → K → Bool) (m : UnorderedMap K V) (_code : Nat) (bucket : Nat)
    (key : K) : Slot :=
  ⟨bucket, chainScan equal key (m.chain bucket)⟩

/-- `_find(key)`. -/
def _find (hash : K → Nat) (equal : K → K → Bool) (m : UnorderedMap K V) (key : K) : Slot :=
  m._find_in equal (hash key) (m._bucket hash key) key

/-- Reading a link `*x`: the pointer stored in the slot. -/
def slotGet (m : UnorderedMap K V) (x : Slot) : Ptr :=
  ((m.chain x.bucket).get? x.idx).map (fun n => n.addr)

/-- The nodes of a chain from the one at address `a` on (`[]` if none is). -/
def suffixAt (a : Nat) : List (HashNode K V) → List (HashNode K V)
  | [] => []
  | n :: rest => if n.addr = a then n :: rest else suffixAt a rest

/-- Looks the address `a` up in the chains. -/
def cellAt (a : Nat) : List (List (HashNode K V)) → List (HashNode K V)
  | [] => []
  | c :: cs =>
    match suffixAt a c with
    | [] => cellAt a cs
    | n :: rest => n :: rest

/-- Dereferencing the pointer `a`: `n :: rest` when the live node at `a` is `n`
and `rest` are the nodes reached from `n->next`; `[]` when `a` is dangling. -/
def deref (m : UnorderedMap K V) (a : Nat) : List (HashNode K V) := cellAt a m._buckets

/-- The conversion of a `size_t` value to `int`, as in `int i = index + 1`: the
value modulo `2 ^ 32`, read as a two's complement number. -/
def to_int (n : Nat) : Int :=
  if n % 4294967296 < 2147483648 then ((n % 4294967296 : Nat) : Int)
  else ((n % 4294967296 : Nat) : Int) - 4294967296

/-- The conversion of an `int` to `size_t`, as in the comparison
`i < _map->_bucket_count`: the value modulo `2 ^ 64`. -/
def to_size_t (i : Int) : Nat := (i % 18446744073709551616).toNat

/-- The loop `for(int i = ...; i < _map->_bucket_count; i++)` of `operator++`
from the value `i` of the `int` counter: the head of the first non-empty bucket
from `i` on, or `nullptr`.  The test compares `i` converted to `size_t`, so a
negative `i` counts as at least `2 ^ 64 - 2 ^ 31` and the loop ends.  Where the
source is undefined the loop is taken to end with null as well: when a negative
`i` passes the test (`_bucket_count` above `2 ^ 64 - 2 ^ 31`, more than an
array can have) `_buckets[i]` is a read before the array, and when `fuel`, the
number of values left to the counter up to `INT_MAX`, is used up `i++`
overflows (a counter that wraps to `INT_MIN` fails the test). -/
def scanBuckets (m : UnorderedMap K V) : Int → Nat → Ptr
  | _, 0 => none
  | i, fuel + 1 =>
    if to_size_t i < m._bucket_count then
      if i < 0 then none
      else
        match m.chain i.toNat with
        | n :: _ => some n.addr
        | [] => scanBuckets m (i + 1) fuel
    else none

/-- `basic_iterator::operator++` (both forms), on the iterator's `_ptr`.  The
counter of the bucket loop starts as the `int` that `index + 1` converts to and
has `2 ^ 31 - i` values left up to `INT_MAX`. -/
def increment (hash : K → Nat) (m : UnorderedMap K V) (p : Ptr) : Option Ptr :=
  match p with
  | none => none
  | some a =>
    match m.deref a with
    | [] => none
    | [n] =>
      let index := m._bucket hash n.key
      let i := to_int (index + 1)
      some (m.scanBuckets i (2147483648 - i).toNat)
    | _ :: n2 :: _ => some (some n2.addr)

/-- The allocator: `new HashNode` returns an address no live node has. -/
def fresh (m : UnorderedMap K V) : Nat :=
  (m._buckets.flatten.map (fun n => n.addr)).foldr max 0 + 1

/-- `_insert_into_bucket(bucket, value)`. -/
def _insert_into_bucket (hash : K → Nat) (m : UnorderedMap K V) (bucket : Nat)
    (value : K × V) : Option (UnorderedMap K V × Ptr) :=
  let tmp := m.fresh
  if bucket ≥ m._bucket_count then some (m, none)
  else
    let head1 : Nat := match m._head with
      | none => tmp
      | some h => h
    let headKey : Option K :=
      if head1 = tmp then some value.1 else (m.deref head1).head?.map (fun n => n.key)
    match headKey with
    | none => none
    | some hk =>
      let head_index := m._bucket hash hk
      let head2 := if bucket ≤ head_index then tmp else head1
      some ({ m with
                _head := some head2
                _buckets := m._buckets.set bucket (⟨tmp, value.1, value.2⟩ :: m.chain bucket)
                _size := m._size + 1 }, some tmp)

/-- `insert(value)` (both overloads): the new state, the iterator's `_ptr` and
the flag. -/
def insert (hash : K → Nat) (equal : K → K → Bool) (m : UnorderedMap K V) (value : K × V) :
    Option (UnorderedMap K V × Ptr × Bool) :=
  let index := m._bucket_val hash value
  let x := m._find_in equal 0 index value.1
  match m.slotGet x with
  | some a => some (m, some a, false)
  | none =>
    match m._insert_into_bucket hash index value with
    | none => none
    | some (m1, ptr) => some (m1, ptr, if ptr = none then false else true)

/-- `find(key)`: the iterator's `_ptr`. -/
def find (hash : K → Nat) (equal : K → K → Bool) (m : UnorderedMap K V) (key : K) : Ptr :=
  m.slotGet (m._find hash equal key)

/-- `operator[](key)`: the new state and the address of the node whose mapped
value the returned reference denotes. -/
def index [Inhabited V] (hash : K → Nat) (equal : K → K → Bool) (m : UnorderedMap K V)
    (key : K) : Option (UnorderedMap K V × Nat) :=
  match m.slotGet (m._find hash equal key) with
  | some a => some (m, a)
  | none =>
    match m.insert hash equal (key, default) with
    | some (m1, some a, _) => some (m1, a)
    | _ => none

/-- `end()`. -/
def «end» (_m : UnorderedMap K V) : Ptr := none

/-- `begin()`. -/
def begin (m : UnorderedMap K V) : Ptr := m._head

/-- `size()`. -/
def size (m : UnorderedMap K V) : Nat := m._size

/-- `empty()`. -/
def empty (m : UnorderedMap K V) : Bool := m._size == 0

/-- `bucket_count()`. -/
def bucket_count (m : UnorderedMap K V) : Nat := m._bucket_count

/-- `erase(iterator pos)`: the new state and the returned iterator's `_ptr`. -/
def erase (hash : K → Nat) (equal : K → K → Bool) (m : UnorderedMap K V) (pos : Ptr) :
    Option (UnorderedMap K V × Ptr) :=
  match pos with
  | none => some (m, none)
  | some a =>
    match m.deref a with
    | [] => none
    | n :: _ =>
      let x := m._find hash equal n.key
      match m.slotGet x with
      | none => none
      | some xa =>
        match m.increment hash (some xa) with
        | none => none
        | some newPos =>
          some ({ m with
                    _head := if some xa = m._head then newPos else m._head
                    _buckets := m._buckets.set x.bucket ((m.chain x.bucket).eraseIdx x.idx)
                    _size := m._size - 1 }, newPos)

/-- `erase(const Key & key)`: the new state and the returned count. -/
def erase_key (hash : K → Nat) (equal : K → K → Bool) (m : UnorderedMap K V) (key : K) :
    Option (UnorderedMap K V × Nat) :=
  match m.slotGet (m._find hash equal key) with
  | none => some (m, 0)
  | some _ =>
    match m.erase hash equal (m.find hash equal key) with
    | none => none
    | some (m1, _) => some (m1, 1)

/-- The nodes stored in the container, bucket by bucket in ascending bucket
index, each chain from its head. -/
def nodes (m : UnorderedMap K V) : List (HashNode K V) := m._buckets.flatten

/-- The global traversal `for (it = p; it != end(); ++it)`: the addresses
visited; `none` when `fuel` steps were not enough or a step is undefined. -/
def traverse (hash : K → Nat) (m : UnorderedMap K V) : Nat → Ptr → Option (List Nat)
  | _, none => some []
  | 0, some _ => none
  | fuel + 1, some a =>
    match m.increment hash (some a) with
    | none => none
    | some p => (traverse hash m fuel p).map (fun l => a :: l)

/-- `cbegin()`. -/
def cbegin (m : UnorderedMap K V) : Ptr := m._head

/-- `cend()`. -/
def cend (_m : UnorderedMap K V) : Ptr := none

/-- `operator*` of an iterator: the key/value pair of the node `p` points at;
`none` when `p` is null or dangling. -/
def value_at (m : UnorderedMap K V) (p : Ptr) : Option (K × V) :=
  match p with
  | none => none
  | some a => (m.deref a).head?.map (fun n => (n.key, n.val))

/-- The key/value pairs the global traversal from `begin()` dereferences. -/
def traverse_values (hash : K → Nat) (m : UnorderedMap K V) (fuel : Nat) :
    Option (List (K × V)) :=
  (m.traverse hash fuel m.begin).map (fun l => l.filterMap (fun a => m.value_at (some a)))

/-- The loop of `bucket_size`: a `local_iterator` is advanced along the chain
until it is null, counting the steps. -/
def local_count : List (HashNode K V) → Nat
  | [] => 0
  | _ :: rest => local_count rest + 1

/-- `bucket_size(n)`. -/
def bucket_size (m : UnorderedMap K V) (n : Nat) : Nat := local_count (m.chain n)

/-- `clear()`.  When the container is not empty every node is deleted, `_size`
is set to 0 in the body of the loop over the buckets and `_head` to null; the
slots `_buckets[i]` are not written, so `_buckets` keeps the chains as the
dangling pointers they now are (reading them is a use after free). -/
def clear (m : UnorderedMap K V) : UnorderedMap K V :=
  if m.empty then m
  else { m with
           _size := if m._bucket_count = 0 then m._size else 0
           _head := none }

/-- `_move_content(src, dst)`: the pair of `src` and `dst` afterwards. -/
def _move_content (src : UnorderedMap K V) : UnorderedMap K V × UnorderedMap K V :=
  (⟨src._bucket_count, List.replicate src.bucket_count [], none, 0⟩,
   ⟨src._bucket_count, src._buckets, src._head, src._size⟩)

/-- The move constructor `UnorderedMap(UnorderedMap && other)`: the pair of
`other` afterwards and the constructed container. -/
def move_construct (other : UnorderedMap K V) : UnorderedMap K V × UnorderedMap K V :=
  _move_content other

/-- The loop `while(itr != other.cend()) { insert(*itr); itr++; }` of the copy
constructor and of the copy assignment, on the iterator's `_ptr` and the
container being filled; `other = none` stands for `other` being that container
itself.  `none` when `fuel` steps were not enough or a step is undefined. -/
def copy_loop (hash : K → Nat) (equal : K → K → Bool) (other : Option (UnorderedMap K V)) :
    Nat → Ptr → UnorderedMap K V → Option (UnorderedMap K V)
  | _, none, this => some this
  | 0, some _, _ => none
  | fuel + 1, some a, this =>
    match (other.getD this).deref a with
    | [] => none
    | n :: _ =>
      match this.insert hash equal (n.key, n.val) with
      | none => none
      | some (this1, _, _) =>
        match (other.getD this1).increment hash (some a) with
        | none => none
        | some p => copy_loop hash equal other fuel p this1

/-- The copy constructor `UnorderedMap(const UnorderedMap & other)`. -/
def copy_construct (hash : K → Nat) (equal : K → K → Bool) (other : UnorderedMap K V)
    (fuel : Nat) : Option (UnorderedMap K V) :=
  copy_loop hash equal (some other) fuel other.cbegin
    ⟨other.bucket_count, List.replicate other.bucket_count [], none, 0⟩

/-- The copy assignment `operator=(const UnorderedMap & other)`; `other = none`
stands for the self-assignment `m = m`.  The guard `if(&_head == &other._head)`
only evaluates `*this`, so both cases run the same statements. -/
def copy_assign (hash : K → Nat) (equal : K → K → Bool) (this : UnorderedMap K V)
    (other : Option (UnorderedMap K V)) (fuel : Nat) : Option (UnorderedMap K V) :=
  let this1 := this.clear
  let this2 : UnorderedMap K V :=
    ⟨(other.getD this1).bucket_count, List.replicate (other.getD this1).bucket_count [],
      this1._head, this1._size⟩
  copy_loop hash equal other fuel (other.getD this2).cbegin this2

/-! ## Invariants -/

/-- The state is a memory image the class can have: the array has
`_bucket_count` slots, distinct live nodes have distinct addresses, and `_head`
is null or the address of a live node. -/
def Valid (m : UnorderedMap K V) : Prop :=
  m._buckets.length = m._bucket_count ∧
  (m.nodes.map (fun n => n.addr)).Nodup ∧
  ∀ h ∈ m._head, h ∈ m.nodes.map (fun n => n.addr)

/-- I1: every entry is chained under the bucket its key hashes to. -/
def I1 (hash : K → Nat) (m : UnorderedMap K V) : Prop :=
  ∀ i < m._buckets.length, ∀ n ∈ m.chain i, m._bucket hash n.key = i

/-- I2: `_size` is the number of entries reachable through the chains. -/
def I2 (m : UnorderedMap K V) : Prop := m._size = m.nodes.length

/-- The first entry of the lowest-indexed non-empty bucket, if any. -/
def lowest : List (List (HashNode K V)) → Option (HashNode K V)
  | [] => none
  | [] :: cs => lowest cs
  | (n :: _) :: _ => some n

/-- I3: `_head` is the first entry of the lowest-indexed non-empty bucket, and
null when every bucket is empty. -/
def I3 (m : UnorderedMap K V) : Prop :=
  m._head = (lowest m._buckets).map (fun n => n.addr)

/-- I3 spelled out over the bucket indices: `_head` is null exactly when every
bucket is empty, and otherwise it is the first entry of a non-empty bucket
before which every bucket is empty. -/
def HeadLowest (m : UnorderedMap K V) : Prop :=
  (m._head = none ↔ ∀ i, i < m._bucket_count → m.chain i = []) ∧
  ∀ h, m._head = some h →
    ∃ i, i < m._bucket_count ∧ (m.chain i).head?.map (fun n => n.addr) = some h ∧
      ∀ j, j < i → m.chain j = []

/-- I4: no two stored entries have keys the predicate considers equal. -/
def I4 (equal : K → K → Bool) (m : UnorderedMap K V) : Prop :=
  m.nodes.Pairwise (fun a b => equal a.key b.key = false ∧ equal b.key a.key = false)

/-- Keys that compare equal have equal hash codes. -/
def HashCongr (hash : K → Nat) (equal : K → K → Bool) : Prop :=
  ∀ a b, equal a b = true → hash a = hash b

/-- The predicate is an equivalence relation on keys. -/
structure LawfulPred (equal : K → K → Bool) : Prop where
  refl : ∀ a, equal a a = true
  symm : ∀ a b, equal a b = true → equal b a = true
  trans : ∀ a b c, equal a b = true → equal b c = true → equal a c = true

/-- Every invariant of the data model that does not depend on the predicate:
a valid memory image with at least one bucket that satisfies I1, I2 and I3. -/
def Inv (hash : K → Nat) (m : UnorderedMap K V) : Prop :=
  Valid m ∧ 0 < m._bucket_count ∧ I1 hash m ∧ I2 m ∧ I3 m

/-- The invariants every defined call keeps, whatever the number of buckets: a
valid memory image with at least one bucket that satisfies I1 and I2. -/
def InvBase (hash : K → Nat) (m : UnorderedMap K V) : Prop :=
  Valid m ∧ 0 < m._bucket_count ∧ I1 hash m ∧ I2 m

/-- The constructor `UnorderedMap(bucket_count, hash, equal)`.  The sizing helper
`next_greater_prime` of `primes.h` is a parameter. -/
def construct (next_greater_prime : Nat → Nat) (bucket_count : Nat) : UnorderedMap K V :=
  ⟨next_greater_prime bucket_count, List.replicate (next_greater_prime bucket_count) [],
    none, 0⟩

/-- A call of one of the mutating operations. -/
inductive Call (K V : Type) where
  | insert (value : K × V)
  | index (key : K)
  | erase_key (key : K)
  | erase (pos : Ptr)
deriving DecidableEq, Repr

/-- The state after one call; `none` when the call has no defined result. -/
def step [Inhabited V] (hash : K → Nat) (equal : K → K → Bool) (m : UnorderedMap K V) :
    Call K V → Option (UnorderedMap K V)
  | .insert value => (m.insert hash equal value).map (fun r => r.1)
  | .index key => (m.index hash equal key).map (fun r => r.1)
  | .erase_key key => (m.erase_key hash equal key).map (fun r => r.1)
  | .erase pos => (m.erase hash equal pos).map (fun r => r.1)

/-- The state after a sequence of calls. -/
def run [Inhabited V] (hash : K → Nat) (equal : K → K → Bool) (m : UnorderedMap K V) :
    List (Call K V) → Option (UnorderedMap K V)
  | [] => some m
  | c :: cs =>
    match m.step hash equal c with
    | none => none
    | some m1 => run hash equal m1 cs

instance (m : UnorderedMap K V) : Decidable (Valid m) := by
  unfold Valid
  infer_instance

instance (hash : K → Nat) (m : UnorderedMap K V) : Decidable (I1 hash m) := by
  unfold I1
  infer_instance

instance (m : UnorderedMap K V) : Decidable (I2 m) := by
  unfold I2
  infer_instance

instance (m : UnorderedMap K V) : Decidable (I3 m) := by
  unfold I3
  infer_instance

instance (equal : K → K → Bool) (m : UnorderedMap K V) : Decidable (I4 equal m) := by
  unfold I4
  infer_instance

/-! ## A sample container -/

/-- Modelled from the spec: `primes.h` is not among the sources.  The sizing
helper returns the smallest prime that is at least `n`; this is its search
over at most `fuel` candidates from `n` on. -/
def next_prime_from : Nat → Nat → Nat
  | 0, n => n
  | fuel + 1, n =>
    if 2 ≤ n ∧ ∀ d ∈ List.range' 2 (n - 2), n % d ≠ 0 then n
    else next_prime_from fuel (n + 1)

/-- Modelled from the spec: `primes.h` is not among the sources.  The smallest
prime that is at least `n`, searched among the `n + 2` candidates from `n` on. -/
def next_greater_prime (n : Nat) : Nat := next_prime_from (n + 2) n

/-- The identity hash on numbers. -/
def sampleHash : Nat → Nat := fun k => k

/-- The predicate `std::equal_to` on numbers. -/
def sampleEqual : Nat → Nat → Bool := fun a b => a == b

/-- Five buckets holding the keys 5 and 0 (bucket 0) and 7 (bucket 2). -/
def sampleMap : UnorderedMap Nat Nat :=
  ⟨5, [[⟨2, 5, 50⟩, ⟨1, 0, 10⟩], [], [⟨3, 7, 70⟩], [], []], some 2, 3⟩

/-- A sequence with every kind of call. -/
def sampleCalls : List (Call Nat Nat) :=
  [Call.insert (0, 10), Call.insert (5, 50), Call.index 7, Call.insert (5, 51),
    Call.erase_key 0, Call.erase (some 2)]

/-- The state `sampleCalls` leaves. -/
def sampleFinal : UnorderedMap Nat Nat :=
  ⟨5, [[], [], [⟨3, 7, 0⟩], [], []], some 3, 1⟩

/-! ## A container with more than `INT_MAX` buckets -/

/-- The entry with the key `2 ^ 31 - 1`. -/
def bigFirst : HashNode Nat Nat := ⟨1, 2147483647, 10⟩

/-- The entry with the key `2 ^ 31`. -/
def bigSecond : HashNode Nat Nat := ⟨2, 2147483648, 20⟩

/-- The empty buckets `0` to `2 ^ 31 - 2`. -/
def bigFront : List (List (HashNode Nat Nat)) := List.replicate 2147483647 []

/-- The empty buckets `2 ^ 31 + 1` to `2 ^ 31 + 10`. -/
def bigBack : List (List (HashNode Nat Nat)) := List.replicate 10 []

/-- The empty container with 2147483659 buckets; 2147483659 is the smallest
prime from `2 ^ 31` on. -/
def bigEmpty : UnorderedMap Nat Nat :=
  ⟨2147483659, bigFront ++ [] :: [] :: bigBack, none, 0⟩

/-- That container after `insert((2147483647, 10))`: one entry, in bucket
`2 ^ 31 - 1`. -/
def bigOne : UnorderedMap Nat Nat :=
  ⟨2147483659, bigFront ++ [bigFirst] :: [] :: bigBack, some 1, 1⟩

/-- That container after `insert((2147483648, 20))` as well: one entry in
bucket `2 ^ 31 - 1`, where `_head` is, and one in bucket `2 ^ 31`. -/
def bigMap : UnorderedMap Nat Nat :=
  ⟨2147483659, bigFront ++ [bigFirst] :: [bigSecond] :: bigBack, some 1, 2⟩

/-- The state `erase(begin())` leaves from `bigMap`: `_head` is null and the
entry of bucket `2 ^ 31` is still stored. -/
def bigErased : UnorderedMap Nat Nat :=
  ⟨2147483659, bigFront ++ [] :: [bigSecond] :: bigBack, none, 1⟩

/-- The two insertions that lead to `bigMap`. -/
def bigCalls : List (Call Nat Nat) :=
  [Call.insert (2147483647, 10), Call.insert (2147483648, 20)]

/-! ## The hash functions of `hash_functions.cpp` -/

/-- The conversion of `str[i]`, a `char` holding the byte `c`, to `size_t`: a
byte from 128 on is a negative `char` and is sign-extended. -/
def char_to_size_t (c : Nat) : Nat := if c < 128 then c else 2 ^ 64 - 256 + c

/-- The loop of `polynomial_rolling_hash::operator()` on the rest of the
string, with the values of `hash` and `p`; `size_t` arithmetic wraps at
`2 ^ 64`. -/
def polynomial_loop : List Nat → Nat → Nat → Nat
  | [], hash, _ => hash
  | c :: rest, hash, p =>
    polynomial_loop rest ((hash + (char_to_size_t c * p) % 2 ^ 64) % 2 ^ 64)
      (((p * 19) % 2 ^ 64) % 3298534883309)

/-- `polynomial_rolling_hash::operator()` on the bytes of the string. -/
def polynomial_rolling_hash (str : List Nat) : Nat := polynomial_loop str 0 1

/-- The value of `p` after `i` rounds of the loop. -/
def base_power : Nat → Nat
  | 0 => 1
  | i + 1 => ((base_power i * 19) % 2 ^ 64) % 3298534883309

/-- The polynomial hash as the specification states it: the sum over `i < |s|`
of `s[i] * (19 ^ i mod 3298534883309)`, modulo `2 ^ 64`. -/
def polynomial_sum (s : List Nat) : Nat :=
  ((List.range s.length).map (fun i => s.getD i 0 * (19 ^ i % 3298534883309))).sum % 2 ^ 64

/-- The loop of `fnv1a_hash::operator()` on the rest of the string, with the
value of `hash`. -/
def fnv1a_loop : List Nat → Nat → Nat
  | [], hash => hash
  | c :: rest, hash => fnv1a_loop rest (((hash ^^^ char_to_size_t c) * 0x00000100000001B3) % 2 ^ 64)

/-- `fnv1a_hash::operator()` on the bytes of the string. -/
def fnv1a_hash (str : List Nat) : Nat := fnv1a_loop str 0xCBF29CE484222325

/-- The 64-bit FNV-1a value as the specification states it: the left fold over
the bytes from the basis with the step `(hash XOR byte) * prime mod 2 ^ 64`. -/
def fnv1a_fold (s : List Nat) : Nat :=
  s.foldl (fun hash byte => ((hash ^^^ byte) * 0x100000001B3) % 2 ^ 64) 0xCBF29CE484222325

/-! ## The example scenario -/

/-- A hash under which the keys "a", "f", "k" have the codes 0, 5, 2. -/
def scenarioHash (s : String) : Nat :=
  if s = "f" then 5 else if s = "k" then 2 else 0

/-- The predicate `std::equal_to` on strings. -/
def scenarioEqual : String → String → Bool := fun a b => a == b

/-- The empty container with 5 buckets. -/
def scenarioEmpty {V : Type} : UnorderedMap String V := ⟨5, List.replicate 5 [], none, 0⟩

/-- The scenario: the container after inserting "a", "f", "k", in that order,
into the empty container with 5 buckets. -/
def scenarioMap (hash : String → Nat) (va vf vk : V) : Option (UnorderedMap String V) :=
  match scenarioEmpty.insert hash scenarioEqual ("a", va) with
  | none => none
  | some (m1, _, _) =>
    match m1.insert hash scenarioEqual ("f", vf) with
    | none => none
    | some (m2, _, _) =>
      match m2.insert hash scenarioEqual ("k", vk) with
      | none => none
      | some (m3, _, _) => some m3

/-- The keys the global iteration from `begin()` to `end()` visits in the
scenario. -/
def scenarioKeys (hash : String → Nat) (va vf vk : V) : Option (List String) :=
  match scenarioMap hash va vf vk with
  | none => none
  | some m => (m.traverse_values hash 3).map (fun l => l.map Prod.fst)

/-! ## Lookup -/

theorem chainScan_spec (equal : K → K → Bool) (k : K) (l : List (HashNode K V)) :
    ((∀ n ∈ l, equal n.key k = false) ∧ chainScan equal k l = l.length) ∨
    ∃ pre n post, l = pre ++ n :: post ∧ chainScan equal k l = pre.length ∧
      (∀ x ∈ pre, equal x.key k = false) ∧ equal n.key k = true := by
  induction l with
  | nil => left; simp [chainScan]
  | cons a l ih =>
    by_cases h : equal a.key k = true
    · right
      exact ⟨[], a, l, rfl, by simp [chainScan, h], by simp, h⟩
    · rcases ih with ⟨h1, h2⟩ | ⟨pre, n, post, h1, h2, h3, h4⟩
      · left
        refine ⟨?_, by simp [chainScan, h, h2]⟩
        intro n hn
        rcases List.mem_cons.1 hn with rfl | hn
        · simpa using h
        · exact h1 n hn
      · right
        refine ⟨a :: pre, n, post, by simp [h1], by simp [chainScan, h, h2], ?_, h4⟩
        intro x hx
        rcases List.mem_cons.1 hx with rfl | hx
        · simpa using h
        · exact h3 x hx

theorem get?_append_cons {α : Type} (pre : List α) (n : α) (post : List α) :
    (pre ++ n :: post).get? pre.length = some n := by
  induction pre with
  | nil => rfl
  | cons a pre ih => simpa using ih

theorem chain_eq_getElem (m : UnorderedMap K V) (i : Nat) (hi : i < m._buckets.length) :
    m.chain i = m._buckets[i] := by
  unfold chain
  exact List.getD_eq_getElem _ _ hi

theorem chain_eq_nil_of_le (m : UnorderedMap K V) (i : Nat) (hi : m._buckets.length ≤ i) :
    m.chain i = [] := by
  unfold chain
  exact List.getD_eq_default _ _ hi

theorem mem_nodes_iff (m : UnorderedMap K V) (n : HashNode K V) :
    n ∈ m.nodes ↔ ∃ i, i < m._buckets.length ∧ n ∈ m.chain i := by
  unfold nodes
  rw [List.mem_flatten]
  constructor
  · rintro ⟨c, hc, hn⟩
    obtain ⟨i, hi, rfl⟩ := List.getElem_of_mem hc
    exact ⟨i, hi, by rw [chain_eq_getElem m i hi]; exact hn⟩
  · rintro ⟨i, hi, hn⟩
    rw [chain_eq_getElem m i hi] at hn
    exact ⟨_, List.getElem_mem hi, hn⟩

theorem mem_nodes_of_mem_chain (m : UnorderedMap K V) (i : Nat) (n : HashNode K V)
    (hn : n ∈ m.chain i) : n ∈ m.nodes := by
  rcases Nat.lt_or_ge i m._buckets.length with hi | hi
  · exact (mem_nodes_iff m n).2 ⟨i, hi, hn⟩
  · rw [chain_eq_nil_of_le m i hi] at hn
    cases hn

/-- Under I1 and hash congruence an entry whose key equals `k` lies in the
bucket `k` hashes to. -/
theorem mem_chain_of_equal (hash : K → Nat) (equal : K → K → Bool) (m : UnorderedMap K V)
    (hI1 : I1 hash m) (hc : HashCongr hash equal) (k : K) (n : HashNode K V)
    (hn : n ∈ m.nodes) (he : equal n.key k = true) : n ∈ m.chain (m._bucket hash k) := by
  obtain ⟨i, hi, hni⟩ := (mem_nodes_iff m n).1 hn
  have h1 := hI1 i hi n hni
  have h2 : m._bucket hash n.key = m._bucket hash k := by
    unfold _bucket
    rw [hc _ _ he]
  rw [← h2, h1]
  exact hni

/-- What `find` returns, in terms of the chain of the probed bucket. -/
theorem find_cases (hash : K → Nat) (equal : K → K → Bool) (m : UnorderedMap K V) (k : K) :
    ((∀ n ∈ m.chain (m._bucket hash k), equal n.key k = false) ∧
        (m._find hash equal k).idx = (m.chain (m._bucket hash k)).length ∧
        m.find hash equal k = none) ∨
    ∃ pre n post, m.chain (m._bucket hash k) = pre ++ n :: post ∧
      (m._find hash equal k).idx = pre.length ∧
      (∀ x ∈ pre, equal x.key k = false) ∧ equal n.key k = true ∧
      m.find hash equal k = some n.addr := by
  rcases chainScan_spec equal k (m.chain (m._bucket hash k)) with
    ⟨h1, h2⟩ | ⟨pre, n, post, h1, h2, h3, h4⟩
  · left
    refine ⟨h1, h2, ?_⟩
    simp [find, _find, _find_in, slotGet, h2]
  · right
    refine ⟨pre, n, post, h1, h2, h3, h4, ?_⟩
    simp only [find, _find, _find_in, slotGet, h2]
    rw [h1, get?_append_cons]
    rfl

/-- C1: in a container where every entry is chained under the bucket its key
hashes to, with a positive bucket count and a hash that agrees on keys that
compare equal, `find(k)` is the end marker exactly when no stored entry has a
key equal to `k`, and otherwise it is the first entry of the bucket
`hash(k) mod bucket_count` whose key equals `k`. -/
theorem find_correct (hash : K → Nat) (equal : K → K → Bool) (m : UnorderedMap K V) (k : K)
    (hI1 : I1 hash m) (_hbc : 0 < m._bucket_count) (hc : HashCongr hash equal) :
    (m.find hash equal k = m.end ↔ ∀ n ∈ m.nodes, equal n.key k = false) ∧
    (∀ a, m.find hash equal k = some a →
      ∃ pre n post, m.chain (hash k % m._bucket_count) = pre ++ n :: post ∧
        (∀ x ∈ pre, equal x.key k = false) ∧ equal n.key k = true ∧ n.addr = a) := by
  have hb : m._bucket hash k = hash k % m._bucket_count := rfl
  rcases find_cases hash equal m k with ⟨h1, _, h3⟩ | ⟨pre, n, post, h1, _, h3, h4, h5⟩
  · refine ⟨?_, ?_⟩
    · refine ⟨fun _ n hn => ?_, fun _ => h3⟩
      cases hq : equal n.key k with
      | false => rfl
      | true =>
        have := h1 n (mem_chain_of_equal hash equal m hI1 hc k n hn hq)
        rw [hq] at this
        cases this
    · intro a ha
      rw [h3] at ha
      cases ha
  · refine ⟨?_, ?_⟩
    · constructor
      · intro h
        rw [h5] at h
        cases h
      · intro h
        have hn : n ∈ m.chain (m._bucket hash k) := by rw [h1]; simp
        have := h n (mem_nodes_of_mem_chain m _ n hn)
        rw [h4] at this
        cases this
    · intro a ha
      rw [h5] at ha
      cases ha
      exact ⟨pre, n, post, hb ▸ h1, h3, h4, rfl⟩

/-! ## Pointers into the chains -/

theorem suffixAt_eq_nil (a : Nat) (c : List (HashNode K V)) (h : ∀ x ∈ c, x.addr ≠ a) :
    suffixAt a c = [] := by
  induction c with
  | nil => rfl
  | cons x c ih =>
    have hx : x.addr ≠ a := h x (by simp)
    simp only [suffixAt, hx, if_false]
    exact ih (fun y hy => h y (List.mem_cons_of_mem _ hy))

theorem suffixAt_append_cons (cpre : List (HashNode K V)) (n : HashNode K V)
    (cpost : List (HashNode K V)) (h : ∀ x ∈ cpre, x.addr ≠ n.addr) :
    suffixAt n.addr (cpre ++ n :: cpost) = n :: cpost := by
  induction cpre with
  | nil => simp [suffixAt]
  | cons x c ih =>
    have hx : x.addr ≠ n.addr := h x (by simp)
    simp only [List.cons_append, suffixAt, hx, if_false]
    exact ih (fun y hy => h y (List.mem_cons_of_mem _ hy))

theorem cellAt_append (a : Nat) (bpre rest : List (List (HashNode K V)))
    (h : ∀ c ∈ bpre, ∀ x ∈ c, x.addr ≠ a) : cellAt a (bpre ++ rest) = cellAt a rest := by
  induction bpre with
  | nil => rfl
  | cons c bpre ih =>
    have hc : suffixAt a c = [] := suffixAt_eq_nil a c (h c (by simp))
    simp only [List.cons_append, cellAt, hc]
    exact ih (fun c' hc' => h c' (List.mem_cons_of_mem _ hc'))

/-- The buckets around one node: `bpre` are the buckets before its bucket,
`cpre` and `cpost` the nodes before and after it in its chain. -/
theorem deref_of_split (m : UnorderedMap K V) (bpre bpost : List (List (HashNode K V)))
    (cpre cpost : List (HashNode K V)) (n : HashNode K V)
    (hb : m._buckets = bpre ++ (cpre ++ n :: cpost) :: bpost)
    (hnd : (m.nodes.map (fun x => x.addr)).Nodup) : m.deref n.addr = n :: cpost := by
  unfold nodes at hnd
  rw [hb] at hnd
  simp only [List.flatten_append, List.flatten_cons, List.map_append, List.map_cons,
    List.append_assoc] at hnd
  rw [List.nodup_append] at hnd
  obtain ⟨_, h2, h3⟩ := hnd
  rw [List.nodup_append] at h2
  obtain ⟨_, _, h5⟩ := h2
  have hpre : ∀ c ∈ bpre, ∀ x ∈ c, x.addr ≠ n.addr := by
    intro c hc x hx he
    have h1 : x.addr ∈ List.map (fun x => x.addr) bpre.flatten :=
      List.mem_map.2 ⟨x, List.mem_flatten.2 ⟨c, hc, hx⟩, rfl⟩
    exact h3 h1 (by simp [he])
  have hcpre : ∀ x ∈ cpre, x.addr ≠ n.addr := by
    intro x hx he
    have h1 : x.addr ∈ List.map (fun x => x.addr) cpre := List.mem_map.2 ⟨x, hx, rfl⟩
    exact h5 h1 (by simp [he])
  unfold deref
  rw [hb, cellAt_append _ _ _ hpre]
  simp only [cellAt, suffixAt_append_cons cpre n cpost hcpre]

theorem lowest_eq_head (l : List (List (HashNode K V))) : lowest l = l.flatten.head? := by
  induction l with
  | nil => rfl
  | cons c l ih =>
    cases c with
    | nil => simpa [lowest] using ih
    | cons n c => simp [lowest]

theorem I3_iff (m : UnorderedMap K V) :
    I3 m ↔ m._head = m.nodes.head?.map (fun n => n.addr) := by
  unfold I3 nodes
  rw [lowest_eq_head]

theorem chain_of_split (m : UnorderedMap K V) (A B : List (List (HashNode K V)))
    (c : List (HashNode K V)) (hb : m._buckets = A ++ c :: B) : m.chain A.length = c := by
  unfold chain
  rw [hb, List.getD_eq_getElem?_getD, ← List.get?_eq_getElem?, get?_append_cons]
  rfl

theorem to_int_small (n : Nat) (h : n < 2147483648) : to_int n = (n : Int) := by
  unfold to_int
  have h1 : n % 4294967296 = n := Nat.mod_eq_of_lt (by omega)
  rw [h1, if_pos h]

theorem to_size_t_nat (n : Nat) (h : n < 18446744073709551616) : to_size_t (n : Int) = n := by
  unfold to_size_t
  omega

/-- From a negative counter the bucket loop yields null. -/
theorem scanBuckets_neg (m : UnorderedMap K V) (i : Int) (hi : i < 0) (fuel : Nat) :
    m.scanBuckets i fuel = none := by
  cases fuel with
  | zero => rfl
  | succ f =>
    by_cases h : to_size_t i < m._bucket_count
    · rw [scanBuckets, if_pos h, if_pos hi]
    · rw [scanBuckets, if_neg h]

/-- With at most `INT_MAX` buckets, from a counter that is a bucket index, with
fuel for the buckets left, the bucket loop finds the first entry of the lowest
non-empty bucket left. -/
theorem scanBuckets_spec (m : UnorderedMap K V) (hlen : m._buckets.length = m._bucket_count)
    (hbound : m._bucket_count ≤ 2147483647) (B : List (List (HashNode K V))) :
    ∀ (A : List (List (HashNode K V))) (fuel : Nat), m._buckets = A ++ B → B.length ≤ fuel →
      m.scanBuckets (A.length : Int) fuel = (lowest B).map (fun n => n.addr) := by
  induction B with
  | nil =>
    intro A fuel hA _
    cases fuel with
    | zero => rfl
    | succ f =>
      have hAl : A.length = m._bucket_count := by
        rw [← hlen, hA]
        simp
      have h : ¬ (to_size_t (A.length : Int) < m._bucket_count) := by
        rw [to_size_t_nat _ (by omega)]
        omega
      rw [scanBuckets, if_neg h]
      rfl
  | cons c B ih =>
    intro A fuel hA hf
    have hc : m.chain A.length = c := chain_of_split m A B c hA
    cases fuel with
    | zero => simp at hf
    | succ f =>
      have hAl : A.length < m._bucket_count := by
        rw [← hlen, hA]
        simp
      have h : to_size_t (A.length : Int) < m._bucket_count := by
        rw [to_size_t_nat _ (by omega)]
        exact hAl
      have h0 : ¬ ((A.length : Int) < 0) := by omega
      rw [scanBuckets, if_pos h, if_neg h0, Int.toNat_ofNat, hc]
      cases c with
      | nil =>
        have h2 := ih (A ++ [[]]) f (by simp [hA]) (by simpa using hf)
        rw [List.length_append, List.length_singleton, Nat.cast_add, Nat.cast_one] at h2
        simpa [lowest] using h2
      | cons n c => simp [lowest]

/-- What the bucket loop returns is null or the first entry of a bucket whose
index is one of the values the counter takes. -/
theorem scanBuckets_cases (m : UnorderedMap K V) : ∀ (fuel : Nat) (i : Int),
    m.scanBuckets i fuel = none ∨
    ∃ (j : Nat) (x : HashNode K V) (rest : List (HashNode K V)),
      0 ≤ i ∧ i ≤ (j : Int) ∧ (j : Int) < i + fuel ∧
      m.chain j = x :: rest ∧ m.scanBuckets i fuel = some x.addr := by
  intro fuel
  induction fuel with
  | zero => intro i; exact Or.inl rfl
  | succ f ih =>
    intro i
    by_cases h : to_size_t i < m._bucket_count
    · by_cases h0 : i < 0
      · rw [scanBuckets, if_pos h, if_pos h0]
        exact Or.inl rfl
      · rw [scanBuckets, if_pos h, if_neg h0]
        cases hc : m.chain i.toNat with
        | nil =>
          rcases ih (i + 1) with h1 | ⟨j, x, rest, _, h1, h2, h4, h5⟩
          · exact Or.inl h1
          · refine Or.inr ⟨j, x, rest, by omega, by omega, ?_, h4, h5⟩
            push_cast
            omega
        | cons x rest =>
          refine Or.inr ⟨i.toNat, x, rest, by omega, by omega, ?_, hc, rfl⟩
          push_cast
          omega
    · rw [scanBuckets, if_neg h]
      exact Or.inl rfl

theorem eq_of_addr_eq (l : List (HashNode K V)) (hnd : (l.map (fun n => n.addr)).Nodup)
    (x y : HashNode K V) (hx : x ∈ l) (hy : y ∈ l) (h : x.addr = y.addr) : x = y :=
  List.inj_on_of_nodup_map hnd hx hy h

theorem flatten_split (L : List (List (HashNode K V))) :
    ∀ (pre : List (HashNode K V)) (n : HashNode K V) (post : List (HashNode K V)),
      L.flatten = pre ++ n :: post →
      ∃ bpre cpre cpost bpost, L = bpre ++ (cpre ++ n :: cpost) :: bpost ∧
        pre = bpre.flatten ++ cpre ∧ post = cpost ++ bpost.flatten := by
  induction L with
  | nil => intro pre n post h; simp at h
  | cons c L ih =>
    intro pre n post h
    rw [List.flatten_cons, List.append_eq_append_iff] at h
    rcases h with ⟨a', h1, h2⟩ | ⟨c', h1, h2⟩
    · -- pre = c ++ a'
      obtain ⟨bpre, cpre, cpost, bpost, e1, e2, e3⟩ := ih a' n post h2
      exact ⟨c :: bpre, cpre, cpost, bpost, by simp [e1], by simp [h1, e2], e3⟩
    · -- c = pre ++ c'
      cases c' with
      | nil =>
        simp only [List.append_nil] at h1
        obtain ⟨bpre, cpre, cpost, bpost, e1, e2, e3⟩ := ih [] n post (by simpa using h2.symm)
        refine ⟨c :: bpre, cpre, cpost, bpost, by simp [e1], ?_, e3⟩
        have : bpre.flatten ++ cpre = [] := e2.symm
        simp [h1, this]
      | cons x c' =>
        simp only [List.cons_append, List.cons.injEq] at h2
        obtain ⟨rfl, rfl⟩ := h2
        exact ⟨[], pre, c', L, by simp [h1], by simp, rfl⟩

/-- With at most `INT_MAX` buckets `operator++` moves to the next node of the
global order. -/
theorem increment_spec (hash : K → Nat) (m : UnorderedMap K V) (hv : Valid m) (hI1 : I1 hash m)
    (hb : m._bucket_count ≤ 2147483647)
    (pre : List (HashNode K V)) (n : HashNode K V) (post : List (HashNode K V))
    (hn : m.nodes = pre ++ n :: post) :
    m.increment hash (some n.addr) = some (post.head?.map (fun x => x.addr)) := by
  obtain ⟨bpre, cpre, cpost, bpost, e1, _, e3⟩ := flatten_split m._buckets pre n post hn
  have hd := deref_of_split m bpre bpost cpre cpost n e1 hv.2.1
  cases cpost with
  | cons n2 cpost =>
    simp [increment, hd, e3]
  | nil =>
    have hlen : bpre.length < m._buckets.length := by rw [e1]; simp
    have hch : m.chain bpre.length = cpre ++ [n] := chain_of_split m bpre bpost _ e1
    have hidx : m._bucket hash n.key = bpre.length :=
      hI1 bpre.length hlen n (by rw [hch]; simp)
    have hcount : bpre.length + 1 + bpost.length = m._bucket_count := by
      rw [← hv.1, e1]
      simp only [List.length_append, List.length_cons]
      omega
    have hi : to_int (bpre.length + 1) = ((bpre.length + 1 : Nat) : Int) :=
      to_int_small _ (by omega)
    have hs := scanBuckets_spec m hv.1 hb bpost (bpre ++ [cpre ++ [n]])
      (2147483648 - ((bpre.length + 1 : Nat) : Int)).toNat (by simp [e1]) (by omega)
    rw [List.length_append, List.length_singleton] at hs
    simp only [increment, hd, hidx, hi]
    rw [hs, lowest_eq_head, e3]
    simp

/-- Whatever the number of buckets, `operator++` on a live node is defined and
yields null or a live node other than the one it started from. -/
theorem increment_live (hash : K → Nat) (m : UnorderedMap K V) (hv : Valid m) (hI1 : I1 hash m)
    (A B : List (List (HashNode K V))) (cpre cpost : List (HashNode K V)) (n : HashNode K V)
    (e1 : m._buckets = A ++ (cpre ++ n :: cpost) :: B) :
    ∃ r, m.increment hash (some n.addr) = some r ∧
      ∀ h, r = some h → h ∈ m.nodes.map (fun x => x.addr) ∧ h ≠ n.addr := by
  have hd := deref_of_split m A B cpre cpost n e1 hv.2.1
  have hnodes : m.nodes = (A.flatten ++ cpre) ++ n :: (cpost ++ B.flatten) := by
    unfold nodes
    rw [e1]
    simp
  have hnmem : n ∈ m.nodes := by rw [hnodes]; simp
  cases cpost with
  | cons n2 cpost =>
    refine ⟨some n2.addr, by simp [increment, hd], ?_⟩
    intro h hh
    cases hh
    have h2mem : n2 ∈ m.nodes := by rw [hnodes]; simp
    refine ⟨List.mem_map.2 ⟨n2, h2mem, rfl⟩, ?_⟩
    intro he
    have hnd := hv.2.1
    rw [hnodes] at hnd
    simp only [List.map_append, List.map_cons, List.cons_append] at hnd
    rw [List.nodup_append] at hnd
    have h3 := hnd.2.1
    rw [List.nodup_cons] at h3
    exact h3.1 (by simp [he])
  | nil =>
    have hlen : A.length < m._buckets.length := by rw [e1]; simp
    have hch : m.chain A.length = cpre ++ [n] := chain_of_split m A B _ e1
    have hidx : m._bucket hash n.key = A.length :=
      hI1 A.length hlen n (by rw [hch]; simp)
    refine ⟨m.scanBuckets (to_int (A.length + 1)) (2147483648 - to_int (A.length + 1)).toNat,
      by simp only [increment, hd, hidx], ?_⟩
    intro h hh
    rcases scanBuckets_cases m (2147483648 - to_int (A.length + 1)).toNat
      (to_int (A.length + 1)) with h1 | ⟨j, x, rest, h0, h1, h2, h4, h5⟩
    · rw [h1] at hh
      cases hh
    · rw [h5] at hh
      cases hh
      have hjlen : j < m._buckets.length := by
        rcases Nat.lt_or_ge j m._buckets.length with hlt | hge
        · exact hlt
        · rw [chain_eq_nil_of_le m j hge] at h4
          cases h4
      have hxmem : x ∈ m.nodes := mem_nodes_of_mem_chain m j x (by rw [h4]; simp)
      refine ⟨List.mem_map.2 ⟨x, hxmem, rfl⟩, ?_⟩
      intro he
      have hxn : x = n := eq_of_addr_eq m.nodes hv.2.1 x n hxmem hnmem he
      have hj : m._bucket hash n.key = j := hI1 j hjlen n (by rw [h4, hxn]; simp)
      have hjA : j = A.length := by rw [← hj, hidx]
      unfold to_int at h0 h1 h2
      split at h0 <;> omega

/-! ## Insertion -/

theorem le_foldr_max (l : List Nat) : ∀ x ∈ l, x ≤ l.foldr max 0 := by
  induction l with
  | nil => intro x hx; cases hx
  | cons a l ih =>
    intro x hx
    rcases List.mem_cons.1 hx with rfl | hx
    · exact le_max_left _ _
    · exact le_trans (ih x hx) (le_max_right _ _)

theorem addr_lt_fresh (m : UnorderedMap K V) (n : HashNode K V) (hn : n ∈ m.nodes) :
    n.addr < m.fresh := by
  unfold fresh
  exact Nat.lt_succ_of_le (le_foldr_max _ _ (List.mem_map.2 ⟨n, hn, rfl⟩))

theorem suffixAt_live (a : Nat) (c : List (HashNode K V)) (h : ∃ x ∈ c, x.addr = a) :
    ∃ n rest, suffixAt a c = n :: rest ∧ n.addr = a ∧ n ∈ c := by
  induction c with
  | nil => obtain ⟨x, hx, _⟩ := h; cases hx
  | cons y c ih =>
    by_cases hy : y.addr = a
    · exact ⟨y, c, by simp [suffixAt, hy], hy, by simp⟩
    · obtain ⟨x, hx, hxa⟩ := h
      rcases List.mem_cons.1 hx with rfl | hx
      · exact absurd hxa hy
      · obtain ⟨n, rest, h1, h2, h3⟩ := ih ⟨x, hx, hxa⟩
        exact ⟨n, rest, by simp [suffixAt, hy, h1], h2, List.mem_cons_of_mem _ h3⟩

theorem cellAt_live (a : Nat) (L : List (List (HashNode K V)))
    (h : ∃ x ∈ L.flatten, x.addr = a) :
    ∃ n rest, cellAt a L = n :: rest ∧ n.addr = a ∧ n ∈ L.flatten := by
  induction L with
  | nil => obtain ⟨x, hx, _⟩ := h; simp at hx
  | cons c L ih =>
    by_cases hc : ∃ x ∈ c, x.addr = a
    · obtain ⟨n, rest, h1, h2, h3⟩ := suffixAt_live a c hc
      exact ⟨n, rest, by simp [cellAt, h1], h2, by simp [h3]⟩
    · have hnil : suffixAt a c = [] :=
        suffixAt_eq_nil a c (fun x hx he => hc ⟨x, hx, he⟩)
      obtain ⟨x, hx, hxa⟩ := h
      rw [List.flatten_cons, List.mem_append] at hx
      rcases hx with hx | hx
      · exact absurd ⟨x, hx, hxa⟩ hc
      · obtain ⟨n, rest, h1, h2, h3⟩ := ih ⟨x, hx, hxa⟩
        exact ⟨n, rest, by simp [cellAt, hnil, h1], h2, by simp [h3]⟩

/-- A live pointer dereferences to the node at its address. -/
theorem deref_live (m : UnorderedMap K V) (a : Nat)
    (h : a ∈ m.nodes.map (fun n => n.addr)) :
    ∃ n rest, m.deref a = n :: rest ∧ n.addr = a ∧ n ∈ m.nodes := by
  obtain ⟨x, hx, hxa⟩ := List.mem_map.1 h
  exact cellAt_live a m._buckets ⟨x, hx, hxa⟩

theorem set_of_split {α : Type} (A : List α) (c c' : α) (B : List α) :
    (A ++ c :: B).set A.length c' = A ++ c' :: B := by
  induction A with
  | nil => rfl
  | cons a A ih => simp [ih]

theorem buckets_split (m : UnorderedMap K V) (b : Nat) (hb : b < m._buckets.length) :
    ∃ A B, m._buckets = A ++ m.chain b :: B ∧ A.length = b := by
  refine ⟨m._buckets.take b, m._buckets.drop (b + 1), ?_, ?_⟩
  · rw [chain_eq_getElem m b hb]
    have : m._buckets[b] :: m._buckets.drop (b + 1) = m._buckets.drop b := by
      simp
    rw [this, List.take_append_drop]
  · simp [Nat.le_of_lt hb]

/-- The state `_insert_into_bucket` builds and the pointers `insert` returns when
the probed chain holds no equal key. -/
theorem insert_miss (hash : K → Nat) (equal : K → K → Bool) (m : UnorderedMap K V) (k : K)
    (v : V) (hv : Valid m) (hbc : 0 < m._bucket_count)
    (hmiss : ∀ n ∈ m.chain (m._bucket hash k), equal n.key k = false) :
    ∃ h2, m.insert hash equal (k, v) =
        some (⟨m._bucket_count,
               m._buckets.set (m._bucket hash k)
                 (⟨m.fresh, k, v⟩ :: m.chain (m._bucket hash k)),
               some h2, m._size + 1⟩, some m.fresh, true) ∧
      (m._head = none → h2 = m.fresh) ∧
      (∀ h n0 rest, m._head = some h → m.deref h = n0 :: rest →
        h2 = if m._bucket hash k ≤ m._bucket hash n0.key then m.fresh else h) := by
  have hb : m._bucket hash k < m._bucket_count := Nat.mod_lt _ hbc
  have hnb : ¬ (m._bucket hash k ≥ m._bucket_count) := Nat.not_le.2 hb
  have hslot : m.slotGet (m._find_in equal 0 (m._bucket hash k) k) = none := by
    rcases chainScan_spec equal k (m.chain (m._bucket hash k)) with
      ⟨_, h2⟩ | ⟨pre, n, post, h1, _, _, h4⟩
    · simp [_find_in, slotGet, h2]
    · have := hmiss n (by rw [h1]; simp)
      rw [h4] at this
      cases this
  cases hh : m._head with
  | none =>
    refine ⟨m.fresh, ?_, fun _ => rfl, (fun h n0 rest hc => by cases hc)⟩
    simp [insert, _bucket_val, hslot, _insert_into_bucket, hnb, hh]
  | some h =>
    have hlive : h ∈ m.nodes.map (fun n => n.addr) := hv.2.2 h (by simp [hh])
    obtain ⟨n0, rest, hd, hn0, hmem⟩ := deref_live m h hlive
    have hne : h ≠ m.fresh := by
      have := addr_lt_fresh m n0 hmem
      omega
    refine ⟨if m._bucket hash k ≤ m._bucket hash n0.key then m.fresh else h, ?_,
      (fun hc => by cases hc), ?_⟩
    · simp [insert, _bucket_val, hslot, _insert_into_bucket, hnb, hh, hne, hd]
    · intro h' n0' rest' e1 e2
      cases e1
      rw [hd] at e2
      cases e2
      rfl

theorem getD_set {α : Type} (l : List α) (b j : Nat) (c d : α) :
    (l.set b c).getD j d = if b = j ∧ b < l.length then c else l.getD j d := by
  simp only [List.getD_eq_getElem?_getD, List.getElem?_set]
  by_cases h : b = j
  · subst h
    by_cases h2 : b < l.length
    · simp [h2]
    · simp [h2, List.getElem?_eq_none (Nat.le_of_not_lt h2)]
  · simp [h]

theorem cellAt_append_eq (a : Nat) (A X : List (List (HashNode K V))) :
    cellAt a (A ++ X) = if (cellAt a A).isEmpty then cellAt a X else cellAt a A := by
  induction A with
  | nil => simp [cellAt]
  | cons c A ih =>
    cases hc : suffixAt a c with
    | nil =>
      simp only [List.cons_append, cellAt, hc]
      exact ih
    | cons n rest => simp [cellAt, hc]

/-- The chains after linking a new node at the front of bucket `b`. -/
theorem chain_push (m : UnorderedMap K V) (b : Nat) (hb : b < m._buckets.length)
    (new : HashNode K V) (h : Ptr) (sz : Nat) (j : Nat) :
    (UnorderedMap.mk m._bucket_count (m._buckets.set b (new :: m.chain b)) h sz).chain j =
      if j = b then new :: m.chain b else m.chain j := by
  unfold chain
  simp only [getD_set]
  by_cases hj : j = b
  · subst hj
    simp [hb]
  · have : ¬ b = j := fun e => hj e.symm
    simp [hj, this]

/-- Dereferencing after linking a new node: old pointers see what they saw,
the new address sees the new node followed by the old chain. -/
theorem deref_push (m : UnorderedMap K V) (b : Nat) (hb : b < m._buckets.length)
    (new : HashNode K V) (hnew : ∀ n ∈ m.nodes, n.addr ≠ new.addr) (h : Ptr) (sz : Nat) :
    (UnorderedMap.mk m._bucket_count (m._buckets.set b (new :: m.chain b)) h sz).deref
        new.addr = new :: m.chain b ∧
    ∀ a, a ≠ new.addr →
      (UnorderedMap.mk m._bucket_count (m._buckets.set b (new :: m.chain b)) h sz).deref a =
        m.deref a := by
  obtain ⟨A, B, hAB, hA⟩ := buckets_split m b hb
  have hset : m._buckets.set b (new :: m.chain b) = A ++ (new :: m.chain b) :: B := by
    rw [← hA]
    conv_lhs => rw [hAB]
    exact set_of_split A _ _ B
  constructor
  · unfold deref
    simp only [hset]
    rw [cellAt_append]
    · simp [cellAt, suffixAt]
    · intro c hc x hx
      apply hnew
      unfold nodes
      rw [hAB]
      simp only [List.flatten_append, List.mem_append]
      exact Or.inl (List.mem_flatten.2 ⟨c, hc, hx⟩)
  · intro a ha
    unfold deref
    simp only [hset]
    conv_rhs => rw [hAB]
    rw [cellAt_append_eq, cellAt_append_eq a A]
    have hne : ¬ new.addr = a := fun e => ha e.symm
    simp [cellAt, suffixAt, hne]

/-- The state built by linking a new node `(k, v)` at the front of the bucket of
`k`: `find(k)` is the new node, which holds `(k, v)` and heads its chain, and
every key `k'` that `k` does not equal is found where it was, at a node that
dereferences as before. -/
theorem insert_miss_facts (hash : K → Nat) (equal : K → K → Bool) (m : UnorderedMap K V)
    (k : K) (v : V) (h : Ptr) (hb : m._bucket hash k < m._buckets.length)
    (hrefl : equal k k = true) (m1 : UnorderedMap K V)
    (hm1 : m1 = ⟨m._bucket_count,
               m._buckets.set (m._bucket hash k)
                 (⟨m.fresh, k, v⟩ :: m.chain (m._bucket hash k)),
               h, m._size + 1⟩) :
    m1.find hash equal k = some m.fresh ∧
    (m1.deref m.fresh).head? = some ⟨m.fresh, k, v⟩ ∧
    m1.chain (m._bucket hash k) = ⟨m.fresh, k, v⟩ :: m.chain (m._bucket hash k) ∧
    ∀ k2, equal k k2 = false →
      m1.find hash equal k2 = m.find hash equal k2 ∧
      ∀ a2, m.find hash equal k2 = some a2 → m1.deref a2 = m.deref a2 := by
  have hfresh : ∀ n ∈ m.nodes, n.addr ≠ (HashNode.mk m.fresh k v).addr := by
    intro n hn
    have := addr_lt_fresh m n hn
    simp only
    omega
  have hch := chain_push m (m._bucket hash k) hb ⟨m.fresh, k, v⟩ h (m._size + 1)
  have hde := deref_push m (m._bucket hash k) hb ⟨m.fresh, k, v⟩ hfresh h (m._size + 1)
  have hbk : ∀ k2, m1._bucket hash k2 = m._bucket hash k2 := by
    intro k2
    rw [hm1]
    rfl
  rw [← hm1] at hch hde
  refine ⟨?_, ?_, ?_, ?_⟩
  · simp only [find, _find, _find_in, slotGet]
    rw [hbk, hch]
    simp [chainScan, hrefl]
  · rw [hde.1]
    rfl
  · rw [hch]
    simp
  · intro k2 hk2
    constructor
    · simp only [find, _find, _find_in, slotGet]
      rw [hbk, hch]
      by_cases hj : m._bucket hash k2 = m._bucket hash k
      · simp [hj, chainScan, hk2]
      · simp [hj]
    · intro a2 ha2
      apply hde.2
      rcases find_cases hash equal m k2 with ⟨_, _, h3⟩ | ⟨pre, n, post, h1, _, _, _, h5⟩
      · rw [h3] at ha2
        cases ha2
      · rw [h5] at ha2
        cases ha2
        exact hfresh n (mem_nodes_of_mem_chain m _ n (by rw [h1]; simp))

/-- C2: inserting `(k, v)` into a well-formed container in which no stored key
equals `k` reports `true` with the new entry, adds exactly 1 to the size, makes
`find(k)` the new entry, which holds `(k, v)` and is the first entry of bucket
`hash(k) mod bucket_count`, and every key `k'` that `k` does not equal is found
at the same entry, holding the same pair, as before. -/
theorem insert_new_key (hash : K → Nat) (equal : K → K → Bool) (m : UnorderedMap K V) (k : K)
    (v : V) (hv : Valid m) (hbc : 0 < m._bucket_count) (hrefl : equal k k = true)
    (habs : ∀ n ∈ m.nodes, equal n.key k = false) :
    ∃ m1 a, m.insert hash equal (k, v) = some (m1, some a, true) ∧
      m1.size = m.size + 1 ∧
      m1.find hash equal k = some a ∧
      (m1.deref a).head? = some ⟨a, k, v⟩ ∧
      m1.chain (hash k % m._bucket_count) = ⟨a, k, v⟩ :: m.chain (hash k % m._bucket_count) ∧
      m1.bucket_count = m.bucket_count ∧
      ∀ k2, equal k k2 = false →
        m1.find hash equal k2 = m.find hash equal k2 ∧
        ∀ a2, m.find hash equal k2 = some a2 → m1.deref a2 = m.deref a2 := by
  have hmiss : ∀ n ∈ m.chain (m._bucket hash k), equal n.key k = false :=
    fun n hn => habs n (mem_nodes_of_mem_chain m _ n hn)
  obtain ⟨h2, hins, _, _⟩ := insert_miss hash equal m k v hv hbc hmiss
  have hb : m._bucket hash k < m._buckets.length := by
    rw [hv.1]
    exact Nat.mod_lt _ hbc
  obtain ⟨f1, f2, f3, f4⟩ :=
    insert_miss_facts hash equal m k v (some h2) hb hrefl _ rfl
  exact ⟨_, m.fresh, hins, rfl, f1, f2, f3, rfl, f4⟩

/-- C3: inserting `(k, v)` into a well-formed container that holds an entry
with a key equal to `k` reports `false` with that entry (the one `find(k)`
returns) and leaves the whole state, hence size, head, every chain and the
stored value, unchanged. -/
theorem insert_equal_key (hash : K → Nat) (equal : K → K → Bool) (m : UnorderedMap K V)
    (k : K) (v : V) (hI1 : I1 hash m) (_hbc : 0 < m._bucket_count) (hc : HashCongr hash equal)
    (hex : ∃ n ∈ m.nodes, equal n.key k = true) :
    ∃ n ∈ m.nodes, equal n.key k = true ∧
      m.insert hash equal (k, v) = some (m, some n.addr, false) ∧
      m.find hash equal k = some n.addr := by
  obtain ⟨n0, hn0, he0⟩ := hex
  rcases find_cases hash equal m k with ⟨h1, _, _⟩ | ⟨pre, n, post, h1, h2, _, h4, h5⟩
  · have := h1 n0 (mem_chain_of_equal hash equal m hI1 hc k n0 hn0 he0)
    rw [he0] at this
    cases this
  · refine ⟨n, mem_nodes_of_mem_chain m _ n (by rw [h1]; simp), h4, ?_, h5⟩
    have hs : m.slotGet (m._find_in equal 0 (m._bucket_val hash (k, v)) k) = some n.addr := h5
    simp only [insert, hs]

/-- C5: erasing a key that no stored key equals returns 0 and leaves the state
unchanged. -/
theorem erase_key_absent (hash : K → Nat) (equal : K → K → Bool) (m : UnorderedMap K V)
    (k : K) (habs : ∀ n ∈ m.nodes, equal n.key k = false) :
    m.erase_key hash equal k = some (m, 0) := by
  rcases find_cases hash equal m k with ⟨_, _, h3⟩ | ⟨pre, n, post, h1, _, _, h4, _⟩
  · have hs : m.slotGet (m._find hash equal k) = none := h3
    simp only [erase_key, hs]
  · have := habs n (mem_nodes_of_mem_chain m _ n (by rw [h1]; simp))
    rw [h4] at this
    cases this

/-! ## Erasure -/

theorem chainScan_append_cons (equal : K → K → Bool) (k : K) (pre : List (HashNode K V))
    (n : HashNode K V) (post : List (HashNode K V))
    (hpre : ∀ x ∈ pre, equal x.key k = false) (hn : equal n.key k = true) :
    chainScan equal k (pre ++ n :: post) = pre.length := by
  induction pre with
  | nil => simp [chainScan, hn]
  | cons x pre ih =>
    have hx : equal x.key k = false := hpre x (by simp)
    simp only [List.cons_append, chainScan, hx, List.length_cons]
    simp [ih (fun y hy => hpre y (List.mem_cons_of_mem _ hy))]

theorem eraseIdx_append_cons {α : Type} (pre : List α) (n : α) (post : List α) :
    (pre ++ n :: post).eraseIdx pre.length = pre ++ post := by
  induction pre with
  | nil => rfl
  | cons x pre ih => simp [ih]

/-- The nodes of a container whose buckets are split around one node. -/
theorem nodes_of_split (m : UnorderedMap K V) (A B : List (List (HashNode K V)))
    (cpre cpost : List (HashNode K V)) (n : HashNode K V)
    (hb : m._buckets = A ++ (cpre ++ n :: cpost) :: B) :
    m.nodes = (A.flatten ++ cpre) ++ n :: (cpost ++ B.flatten) := by
  unfold nodes
  rw [hb]
  simp

/-- I4 around one node: no other node of its chain prefix has an equal key. -/
theorem I4_around (equal : K → K → Bool) (m : UnorderedMap K V) (hI4 : I4 equal m)
    (pre : List (HashNode K V)) (n : HashNode K V) (post : List (HashNode K V))
    (hn : m.nodes = pre ++ n :: post) :
    (∀ x ∈ pre, equal x.key n.key = false ∧ equal n.key x.key = false) ∧
    (∀ x ∈ post, equal x.key n.key = false ∧ equal n.key x.key = false) := by
  unfold I4 at hI4
  rw [hn, List.pairwise_append] at hI4
  obtain ⟨_, h2, h3⟩ := hI4
  rw [List.pairwise_cons] at h2
  constructor
  · intro x hx
    exact h3 x hx n (by simp)
  · intro x hx
    have := h2.1 x hx
    exact ⟨this.2, this.1⟩

/-- What `erase(pos)` does at a live node `n`, with the buckets split around
`n`: it unlinks `n`, returns the position `r` that `operator++` gives at `n` and
moves `_head` there if `_head` was `n`; `r` is null or another live node. -/
theorem erase_live (hash : K → Nat) (equal : K → K → Bool) (m : UnorderedMap K V)
    (hv : Valid m) (hI1 : I1 hash m) (hI4 : I4 equal m) (hrefl : ∀ a, equal a a = true)
    (A B : List (List (HashNode K V))) (cpre cpost : List (HashNode K V)) (n : HashNode K V)
    (hb : m._buckets = A ++ (cpre ++ n :: cpost) :: B) :
    ∃ r, m.increment hash (some n.addr) = some r ∧
      (∀ h, r = some h → h ∈ m.nodes.map (fun x => x.addr) ∧ h ≠ n.addr) ∧
      m.erase hash equal (some n.addr) =
        some (⟨m._bucket_count, A ++ (cpre ++ cpost) :: B,
               if some n.addr = m._head then r else m._head, m._size - 1⟩, r) ∧
      m._find hash equal n.key = ⟨A.length, cpre.length⟩ := by
  have hnodes := nodes_of_split m A B cpre cpost n hb
  have hd := deref_of_split m A B cpre cpost n hb hv.2.1
  obtain ⟨r, hinc, hr⟩ := increment_live hash m hv hI1 A B cpre cpost n hb
  have hlen : A.length < m._buckets.length := by rw [hb]; simp
  have hch : m.chain A.length = cpre ++ n :: cpost := chain_of_split m A B _ hb
  have hidx : m._bucket hash n.key = A.length :=
    hI1 A.length hlen n (by rw [hch]; simp)
  have hcpre : ∀ x ∈ cpre, equal x.key n.key = false := by
    intro x hx
    exact ((I4_around equal m hI4 _ n _ hnodes).1 x (List.mem_append_right _ hx)).1
  have hscan : chainScan equal n.key (cpre ++ n :: cpost) = cpre.length :=
    chainScan_append_cons equal n.key cpre n cpost hcpre (hrefl _)
  have hfind : m._find hash equal n.key = ⟨A.length, cpre.length⟩ := by
    simp only [_find, _find_in, hidx, hch, hscan]
  have hslot : m.slotGet ⟨A.length, cpre.length⟩ = some n.addr := by
    simp only [slotGet, hch, get?_append_cons]
    rfl
  refine ⟨r, hinc, hr, ?_, hfind⟩
  simp only [erase, hd, hfind, hslot, hinc, hch, eraseIdx_append_cons]
  have hset : m._buckets.set A.length (cpre ++ cpost) = A ++ (cpre ++ cpost) :: B := by
    conv_lhs => rw [hb]
    exact set_of_split A _ _ B
  rw [hset]

/-- A live address splits the buckets around its node. -/
theorem split_of_live (m : UnorderedMap K V) (a : Nat)
    (h : a ∈ m.nodes.map (fun n => n.addr)) :
    ∃ A B cpre cpost n, m._buckets = A ++ (cpre ++ n :: cpost) :: B ∧ n.addr = a := by
  obtain ⟨x, hx, hxa⟩ := List.mem_map.1 h
  obtain ⟨pre, post, hsplit⟩ := List.append_of_mem hx
  obtain ⟨A, cpre, cpost, B, e1, _, _⟩ := flatten_split m._buckets pre x post hsplit
  exact ⟨A, B, cpre, cpost, x, e1, hxa⟩

theorem sublist_middle {α : Type} (pre : List α) (n : α) (post : List α) :
    (pre ++ post).Sublist (pre ++ n :: post) :=
  List.Sublist.append (List.Sublist.refl pre) (List.sublist_cons_self n post)

theorem nodup_middle_ne (pre : List (HashNode K V)) (n : HashNode K V)
    (post : List (HashNode K V))
    (hnd : ((pre ++ n :: post).map (fun x => x.addr)).Nodup) :
    ∀ x ∈ pre ++ post, x.addr ≠ n.addr := by
  intro x hx e
  have hperm : (n :: (pre ++ post)).Perm (pre ++ n :: post) := List.perm_middle.symm
  have hnd2 := (hperm.map (fun x => x.addr)).nodup_iff.2 hnd
  rw [List.map_cons, List.nodup_cons] at hnd2
  exact hnd2.1 (List.mem_map.2 ⟨x, hx, e⟩)

/-- A live address other than that of `n` is live after `n` is unlinked. -/
theorem live_after_unlink (pre post : List (HashNode K V)) (n : HashNode K V) (h : Nat)
    (hl : h ∈ (pre ++ n :: post).map (fun x => x.addr)) (hne : h ≠ n.addr) :
    h ∈ (pre ++ post).map (fun x => x.addr) := by
  obtain ⟨x, hx, hxa⟩ := List.mem_map.1 hl
  refine List.mem_map.2 ⟨x, ?_, hxa⟩
  rcases List.mem_append.1 hx with hx | hx
  · exact List.mem_append_left _ hx
  · rcases List.mem_cons.1 hx with hx | hx
    · rw [hx] at hxa
      exact absurd hxa.symm hne
    · exact List.mem_append_right _ hx

/-- The state left by unlinking the node `n` and moving `_head`, if it was `n`,
to a position `r` that is null or another live node: a valid memory image that
satisfies I1 and I2. -/
theorem erase_state_base (hash : K → Nat) (m : UnorderedMap K V)
    (hv : Valid m) (hI1 : I1 hash m) (hI2 : I2 m)
    (A B : List (List (HashNode K V))) (cpre cpost : List (HashNode K V)) (n : HashNode K V)
    (hb : m._buckets = A ++ (cpre ++ n :: cpost) :: B) (r : Ptr)
    (hr : ∀ h, r = some h → h ∈ m.nodes.map (fun x => x.addr) ∧ h ≠ n.addr)
    (m1 : UnorderedMap K V)
    (hm1 : m1 = ⟨m._bucket_count, A ++ (cpre ++ cpost) :: B,
             if some n.addr = m._head then r else m._head, m._size - 1⟩) :
    Valid m1 ∧ I1 hash m1 ∧ I2 m1 ∧
      m1.nodes = (A.flatten ++ cpre) ++ (cpost ++ B.flatten) := by
  have hnodes := nodes_of_split m A B cpre cpost n hb
  have hnodes1 : m1.nodes = (A.flatten ++ cpre) ++ (cpost ++ B.flatten) := by
    rw [hm1]
    simp [nodes]
  have hsub : m1.nodes.Sublist m.nodes := by
    rw [hnodes, hnodes1]
    exact sublist_middle _ _ _
  have hnd := hv.2.1
  have hnd1 : (m1.nodes.map (fun x => x.addr)).Nodup := hnd.sublist (hsub.map _)
  refine ⟨⟨?_, hnd1, ?_⟩, ?_, ?_, hnodes1⟩
  · rw [hm1, ← hv.1, hb]
    simp
  · intro h hh
    have hlive : h ∈ m.nodes.map (fun x => x.addr) ∧ h ≠ n.addr := by
      rw [hm1] at hh
      simp only [Option.mem_def] at hh
      by_cases hc : some n.addr = m._head
      · rw [if_pos hc] at hh
        exact hr h hh
      · rw [if_neg hc] at hh
        refine ⟨hv.2.2 h hh, ?_⟩
        intro e
        rw [hh, e] at hc
        exact hc rfl
    rw [hnodes1]
    rw [hnodes] at hlive
    exact live_after_unlink _ _ n h hlive.1 hlive.2
  · have hset : m1._buckets = m._buckets.set A.length (cpre ++ cpost) := by
      rw [hm1]
      simp only
      conv_rhs => rw [hb]
      exact (set_of_split A _ _ B).symm
    have hlen : m1._buckets.length = m._buckets.length := by rw [hset]; simp
    have hch : m.chain A.length = cpre ++ n :: cpost := chain_of_split m A B _ hb
    intro i hi x hx
    have hbk : m1._bucket hash x.key = m._bucket hash x.key := by rw [hm1]; rfl
    rw [hbk]
    rw [hlen] at hi
    apply hI1 i hi x
    unfold chain at hx
    rw [hset, getD_set] at hx
    by_cases hc : A.length = i ∧ A.length < m._buckets.length
    · rw [if_pos hc] at hx
      rw [← hc.1, hch]
      rcases List.mem_append.1 hx with hx | hx
      · exact List.mem_append_left _ hx
      · exact List.mem_append_right _ (List.mem_cons_of_mem _ hx)
    · rw [if_neg hc] at hx
      exact hx
  · unfold I2 at hI2 ⊢
    rw [hnodes1, hm1]
    simp only
    rw [hI2, hnodes]
    simp only [List.length_append, List.length_cons]
    omega

/-- The state left by unlinking the node `n` and moving `_head`, if it was `n`,
to the next node of the global order satisfies every invariant the state before
satisfied. -/
theorem erase_state_inv (hash : K → Nat) (m : UnorderedMap K V)
    (hv : Valid m) (hI1 : I1 hash m) (hI2 : I2 m) (hI3 : I3 m)
    (A B : List (List (HashNode K V))) (cpre cpost : List (HashNode K V)) (n : HashNode K V)
    (hb : m._buckets = A ++ (cpre ++ n :: cpost) :: B) (m1 : UnorderedMap K V)
    (hm1 : m1 = ⟨m._bucket_count, A ++ (cpre ++ cpost) :: B,
             if some n.addr = m._head then (cpost ++ B.flatten).head?.map (fun x => x.addr)
             else m._head,
             m._size - 1⟩) :
    Valid m1 ∧ I1 hash m1 ∧ I2 m1 ∧ I3 m1 ∧
      m1.nodes = (A.flatten ++ cpre) ++ (cpost ++ B.flatten) := by
  have hnodes := nodes_of_split m A B cpre cpost n hb
  have hnd := hv.2.1
  have hhead := (I3_iff m).1 hI3
  have hr : ∀ h, (cpost ++ B.flatten).head?.map (fun x => x.addr) = some h →
      h ∈ m.nodes.map (fun x => x.addr) ∧ h ≠ n.addr := by
    intro h hh
    simp only [Option.map_eq_some'] at hh
    obtain ⟨x, hx, rfl⟩ := hh
    have hxm : x ∈ cpost ++ B.flatten := List.mem_of_mem_head? hx
    refine ⟨List.mem_map.2 ⟨x, by
      rw [hnodes]
      exact List.mem_append_right _ (List.mem_cons_of_mem _ hxm), rfl⟩, ?_⟩
    rw [hnodes] at hnd
    exact nodup_middle_ne _ n _ hnd x (List.mem_append_right _ hxm)
  obtain ⟨h1, h2, h3, hnodes1⟩ :=
    erase_state_base hash m hv hI1 hI2 A B cpre cpost n hb _ hr m1 hm1
  have hI3' : m1._head = m1.nodes.head?.map (fun x => x.addr) := by
    rw [hnodes1, hm1]
    simp only
    rw [hhead, hnodes]
    cases hpre : A.flatten ++ cpre with
    | nil => simp
    | cons p pre =>
      have hne : n.addr ≠ p.addr := by
        intro e
        rw [hnodes, hpre] at hnd
        simp only [List.cons_append, List.map_cons, List.nodup_cons, List.map_append,
          List.mem_append, List.mem_cons, List.mem_map] at hnd
        exact hnd.1 (Or.inr (Or.inl e.symm))
      simp [hne]
  exact ⟨h1, h2, h3, (I3_iff m1).2 hI3', hnodes1⟩

theorem suffixAt_head (a : Nat) (c : List (HashNode K V)) :
    (suffixAt a c).head? = c.find? (fun x => x.addr == a) := by
  induction c with
  | nil => rfl
  | cons x c ih =>
    by_cases hx : x.addr = a
    · simp [suffixAt, hx]
    · simp [suffixAt, hx, ih]

theorem cellAt_head (a : Nat) (L : List (List (HashNode K V))) :
    (cellAt a L).head? = L.flatten.find? (fun x => x.addr == a) := by
  induction L with
  | nil => rfl
  | cons c L ih =>
    have hs := suffixAt_head a c
    cases hc : suffixAt a c with
    | nil =>
      rw [hc] at hs
      simp only [cellAt, hc, List.flatten_cons, List.find?_append, ← hs, ih]
      rfl
    | cons n rest =>
      rw [hc] at hs
      simp only [cellAt, hc, List.flatten_cons, List.find?_append, ← hs]
      rfl

/-- The node a pointer dereferences to is the stored node with that address. -/
theorem deref_head (m : UnorderedMap K V) (a : Nat) :
    (m.deref a).head? = m.nodes.find? (fun x => x.addr == a) :=
  cellAt_head a m._buckets

theorem chainScan_find? (equal : K → K → Bool) (k : K) (l : List (HashNode K V)) :
    l.get? (chainScan equal k l) = l.find? (fun n => equal n.key k) := by
  induction l with
  | nil => rfl
  | cons x l ih =>
    by_cases hx : equal x.key k = true
    · simp [chainScan, hx]
    · rw [List.get?_eq_getElem?] at ih
      simp [chainScan, hx, ih]

/-- The entry `find` returns is the first one of the probed chain whose key
equals the key. -/
theorem find_eq_find? (hash : K → Nat) (equal : K → K → Bool) (m : UnorderedMap K V) (k : K) :
    m.find hash equal k =
      ((m.chain (m._bucket hash k)).find? (fun n => equal n.key k)).map (fun n => n.addr) := by
  simp only [find, _find, _find_in, slotGet, chainScan_find?]

theorem filter_middle (pre : List (HashNode K V)) (n : HashNode K V)
    (post : List (HashNode K V)) (h : ∀ x ∈ pre ++ post, x.addr ≠ n.addr) :
    (pre ++ n :: post).filter (fun x => x.addr != n.addr) = pre ++ post := by
  have h1 : pre.filter (fun x => x.addr != n.addr) = pre :=
    List.filter_eq_self.2 (fun x hx => by simpa using h x (List.mem_append_left _ hx))
  have h2 : post.filter (fun x => x.addr != n.addr) = post :=
    List.filter_eq_self.2 (fun x hx => by simpa using h x (List.mem_append_right _ hx))
  simp [List.filter_append, List.filter_cons, h1, h2]

/-- Unlinking `n` keeps every chain in order and drops exactly the node at
the address of `n`. -/
theorem buckets_filter (m : UnorderedMap K V) (hv : Valid m)
    (A B : List (List (HashNode K V))) (cpre cpost : List (HashNode K V)) (n : HashNode K V)
    (hb : m._buckets = A ++ (cpre ++ n :: cpost) :: B) :
    A ++ (cpre ++ cpost) :: B =
      m._buckets.map (fun c => c.filter (fun x => x.addr != n.addr)) := by
  have hnodes := nodes_of_split m A B cpre cpost n hb
  have hnd := hv.2.1
  rw [hnodes] at hnd
  have hne := nodup_middle_ne _ n _ hnd
  have hA : A.map (fun c => c.filter (fun x => x.addr != n.addr)) = A := by
    conv_rhs => rw [← List.map_id A]
    apply List.map_congr_left
    intro c hc
    apply List.filter_eq_self.2
    intro x hx
    have := hne x (List.mem_append_left _ (List.mem_append_left _
      (List.mem_flatten.2 ⟨c, hc, hx⟩)))
    simpa using this
  have hB : B.map (fun c => c.filter (fun x => x.addr != n.addr)) = B := by
    conv_rhs => rw [← List.map_id B]
    apply List.map_congr_left
    intro c hc
    apply List.filter_eq_self.2
    intro x hx
    have := hne x (List.mem_append_right _ (List.mem_append_right _
      (List.mem_flatten.2 ⟨c, hc, hx⟩)))
    simpa using this
  have hc : (cpre ++ n :: cpost).filter (fun x => x.addr != n.addr) = cpre ++ cpost := by
    apply filter_middle
    intro x hx
    rcases List.mem_append.1 hx with hx | hx
    · exact hne x (List.mem_append_left _ (List.mem_append_right _ hx))
    · exact hne x (List.mem_append_right _ (List.mem_append_left _ hx))
  rw [hb, List.map_append, List.map_cons, hA, hB, hc]

/-- With at most `INT_MAX` buckets, `erase(pos)` at a live position of a
well-formed container removes exactly the entry at `pos` (every chain keeps its
other nodes in order), returns the position `++` gives at `pos` before the
erase, which is the next node of the global order or the end marker when `pos`
was the last one, and leaves a well-formed container. -/
theorem erase_pos_bounded (hash : K → Nat) (equal : K → K → Bool) (m : UnorderedMap K V)
    (a : Nat) (hv : Valid m) (hI1 : I1 hash m) (hI2 : I2 m) (hI3 : I3 m) (hI4 : I4 equal m)
    (hbound : m._bucket_count ≤ 2147483647)
    (hrefl : ∀ x, equal x x = true) (ha : a ∈ m.nodes.map (fun n => n.addr)) :
    ∃ m1 r pre n post,
      m.erase hash equal (some a) = some (m1, r) ∧
      m.increment hash (some a) = some r ∧
      m.nodes = pre ++ n :: post ∧ n.addr = a ∧
      m1.nodes = pre ++ post ∧
      r = post.head?.map (fun x => x.addr) ∧
      m1._buckets = m._buckets.map (fun c => c.filter (fun x => x.addr != a)) ∧
      m1.size + 1 = m.size ∧ m1.bucket_count = m.bucket_count ∧
      Valid m1 ∧ I1 hash m1 ∧ I2 m1 ∧ I3 m1 ∧ I4 equal m1 := by
  obtain ⟨A, B, cpre, cpost, n, hb, rfl⟩ := split_of_live m a ha
  have hnodes := nodes_of_split m A B cpre cpost n hb
  have hinc := increment_spec hash m hv hI1 hbound _ n _ hnodes
  obtain ⟨r, hinc2, _, he, _⟩ := erase_live hash equal m hv hI1 hI4 hrefl A B cpre cpost n hb
  have hr : r = (cpost ++ B.flatten).head?.map (fun x => x.addr) := by
    rw [hinc] at hinc2
    exact (Option.some.inj hinc2).symm
  subst hr
  obtain ⟨h1, h2, h3, h4, h6⟩ :=
    erase_state_inv hash m hv hI1 hI2 hI3 A B cpre cpost n hb _ rfl
  have h5 : I4 equal (UnorderedMap.mk m._bucket_count (A ++ (cpre ++ cpost) :: B)
      (if some n.addr = m._head then (cpost ++ B.flatten).head?.map (fun x => x.addr)
        else m._head) (m._size - 1)) := by
    unfold I4 at hI4 ⊢
    rw [h6]
    rw [hnodes] at hI4
    exact hI4.sublist (sublist_middle _ _ _)
  refine ⟨_, _, _, n, _, he, hinc, hnodes, rfl, h6, rfl,
    buckets_filter m hv A B cpre cpost n hb, ?_, rfl, h1, h2, h3, h4, h5⟩
  unfold I2 at hI2
  simp only [size]
  rw [hI2, hnodes]
  simp only [List.length_append, List.length_cons]
  omega

theorem find?_middle {α : Type} (p : α → Bool) (pre : List α) (n : α) (post : List α)
    (hn : p n = false) : (pre ++ n :: post).find? p = (pre ++ post).find? p := by
  simp [List.find?_append, List.find?_cons, hn]

/-- A key equal to the key of the erased node `n` is equal to no other stored
key; a key that `k` does not equal is not equal to the key of `n`. -/
theorem equal_transfer (equal : K → K → Bool) (hp : LawfulPred equal) (k : K) (nk : K)
    (hn : equal nk k = true) :
    (∀ x, equal x nk = false → equal x k = false) ∧
    (∀ k2, equal k k2 = false → equal nk k2 = false) := by
  constructor
  · intro x hx
    cases hq : equal x k with
    | false => rfl
    | true =>
      have := hp.trans x k nk hq (hp.symm _ _ hn)
      rw [hx] at this
      cases this
  · intro k2 hk2
    cases hq : equal nk k2 with
    | false => rfl
    | true =>
      have := hp.trans k nk k2 (hp.symm _ _ hn) hq
      rw [hk2] at this
      cases this

/-- C4: erasing a stored key from a well-formed container returns 1, takes 1
off the size, makes `find(k)` the end marker, unlinks exactly the entry
`find(k)` pointed at (every chain keeps its other nodes in order), and every
key `k'` that `k` does not equal is found at the same entry, holding the same
pair, as before. -/
theorem erase_key_present (hash : K → Nat) (equal : K → K → Bool) (m : UnorderedMap K V)
    (k : K) (hv : Valid m) (hI1 : I1 hash m) (hI2 : I2 m) (hI4 : I4 equal m)
    (hc : HashCongr hash equal) (hp : LawfulPred equal)
    (hex : ∃ n ∈ m.nodes, equal n.key k = true) :
    ∃ m1 a, m.find hash equal k = some a ∧
      m.erase_key hash equal k = some (m1, 1) ∧
      m1.size + 1 = m.size ∧
      m1.find hash equal k = m1.end ∧
      m1._buckets = m._buckets.map (fun c => c.filter (fun x => x.addr != a)) ∧
      ∀ k2, equal k k2 = false →
        m1.find hash equal k2 = m.find hash equal k2 ∧
        ∀ a2, m.find hash equal k2 = some a2 →
          (m1.deref a2).head? = (m.deref a2).head? := by
  obtain ⟨n0, hn0, he0⟩ := hex
  rcases find_cases hash equal m k with ⟨h1, _, _⟩ | ⟨pre, n, post, h1, _, h3, h4, h5⟩
  · have := h1 n0 (mem_chain_of_equal hash equal m hI1 hc k n0 hn0 he0)
    rw [he0] at this
    cases this
  have hblt : m._bucket hash k < m._buckets.length := by
    rcases Nat.lt_or_ge (m._bucket hash k) m._buckets.length with h | h
    · exact h
    · rw [chain_eq_nil_of_le m _ h] at h1
      simp at h1
  obtain ⟨A, B, hAB, hA⟩ := buckets_split m _ hblt
  rw [h1] at hAB
  obtain ⟨r, _, _, he, _⟩ := erase_live hash equal m hv hI1 hI4 hp.refl A B pre post n hAB
  have hnodes := nodes_of_split m A B pre post n hAB
  have hI4n := I4_around equal m hI4 _ n _ hnodes
  have htr := equal_transfer equal hp k n.key h4
  have hnd := hv.2.1
  rw [hnodes] at hnd
  have hne := nodup_middle_ne _ n _ hnd
  have hch1 : ∀ j, (UnorderedMap.mk m._bucket_count (A ++ (pre ++ post) :: B)
      (if some n.addr = m._head then r else m._head) (m._size - 1)).chain j =
      if j = m._bucket hash k then pre ++ post else m.chain j := by
    intro j
    have hset : A ++ (pre ++ post) :: B = m._buckets.set (m._bucket hash k) (pre ++ post) := by
      rw [← hA]
      conv_rhs => rw [hAB]
      exact (set_of_split A _ _ B).symm
    unfold chain
    simp only [hset, getD_set]
    by_cases hj : j = m._bucket hash k
    · subst hj
      simp [hblt]
    · have : ¬ m._bucket hash k = j := fun e => hj e.symm
      simp [hj, this]
  refine ⟨UnorderedMap.mk m._bucket_count (A ++ (pre ++ post) :: B)
      (if some n.addr = m._head then r else m._head) (m._size - 1), n.addr, h5, ?_, ?_, ?_,
      buckets_filter m hv A B pre post n hAB, ?_⟩
  · have hs : m.slotGet (m._find hash equal k) = some n.addr := h5
    simp only [erase_key, hs, h5, he]
  · unfold I2 at hI2
    simp only [size]
    rw [hI2, hnodes]
    simp only [List.length_append, List.length_cons]
    omega
  · rw [find_eq_find?]
    have e : _bucket hash (UnorderedMap.mk m._bucket_count (A ++ (pre ++ post) :: B)
      (if some n.addr = m._head then r else m._head) (m._size - 1)) k = m._bucket hash k := rfl
    rw [e, hch1, if_pos rfl]
    have : (pre ++ post).find? (fun x => equal x.key k) = none := by
      rw [List.find?_eq_none]
      intro x hx
      rcases List.mem_append.1 hx with hx | hx
      · simp [h3 x hx]
      · have := htr.1 x.key (hI4n.2 x (List.mem_append_left _ hx)).1
        simp [this]
    rw [this]
    rfl
  · intro k2 hk2
    have hnk2 : equal n.key k2 = false := htr.2 k2 hk2
    have hfind : (UnorderedMap.mk m._bucket_count (A ++ (pre ++ post) :: B)
      (if some n.addr = m._head then r else m._head) (m._size - 1)).find hash equal k2 = m.find hash equal k2 := by
      rw [find_eq_find?, find_eq_find?]
      have e : _bucket hash (UnorderedMap.mk m._bucket_count (A ++ (pre ++ post) :: B)
        (if some n.addr = m._head then r else m._head) (m._size - 1)) k2 = m._bucket hash k2 := rfl
      rw [e, hch1]
      by_cases hj : m._bucket hash k2 = m._bucket hash k
      · rw [if_pos hj, hj, h1, find?_middle _ pre n post hnk2]
      · rw [if_neg hj]
    refine ⟨hfind, ?_⟩
    intro a2 ha2
    rw [deref_head, deref_head, hnodes]
    have hn1 : (UnorderedMap.mk m._bucket_count (A ++ (pre ++ post) :: B)
      (if some n.addr = m._head then r else m._head) (m._size - 1)).nodes = (A.flatten ++ pre) ++ (post ++ B.flatten) := by
      simp [nodes]
    rw [hn1]
    symm
    apply find?_middle
    -- the entry found for `k2` is not the erased node
    rw [find_eq_find?] at ha2
    simp only [Option.map_eq_some'] at ha2
    obtain ⟨n2, hf, rfl⟩ := ha2
    have hmem : n2 ∈ m.nodes := mem_nodes_of_mem_chain m _ n2 (List.mem_of_find?_eq_some hf)
    have hkey : equal n2.key k2 = true := by simpa using List.find?_some hf
    have hne2 : n2 ≠ n := by
      intro e
      rw [e, hnk2] at hkey
      cases hkey
    rw [hnodes] at hmem
    have hmem2 : n2 ∈ (A.flatten ++ pre) ++ (post ++ B.flatten) := by
      rcases List.mem_append.1 hmem with h | h
      · exact List.mem_append_left _ h
      · rcases List.mem_cons.1 h with h | h
        · exact absurd h hne2
        · exact List.mem_append_right _ h
    have := hne n2 hmem2
    simp only [beq_eq_false_iff_ne, ne_eq]
    exact fun e => this e.symm

/-! ## Invariants kept by insertion -/

/-- Under I1 the nodes of the buckets before index `A.length` hash below it and
the nodes of the other buckets do not. -/
theorem bucket_of_mem_split (hash : K → Nat) (m : UnorderedMap K V) (hI1 : I1 hash m)
    (A R : List (List (HashNode K V))) (hb : m._buckets = A ++ R) :
    (∀ x ∈ A.flatten, m._bucket hash x.key < A.length) ∧
    (∀ x ∈ R.flatten, A.length ≤ m._bucket hash x.key) := by
  constructor
  · intro x hx
    obtain ⟨c, hc, hxc⟩ := List.mem_flatten.1 hx
    obtain ⟨i, hi, rfl⟩ := List.getElem_of_mem hc
    have hlt : i < m._buckets.length := by rw [hb]; simp; omega
    have hch : m.chain i = A[i] := by
      rw [chain_eq_getElem m i hlt]
      simp only [hb]
      exact List.getElem_append_left hi
    have := hI1 i hlt x (by rw [hch]; exact hxc)
    omega
  · intro x hx
    obtain ⟨c, hc, hxc⟩ := List.mem_flatten.1 hx
    obtain ⟨i, hi, rfl⟩ := List.getElem_of_mem hc
    have hlt : A.length + i < m._buckets.length := by rw [hb]; simp; omega
    have hch : m.chain (A.length + i) = R[i] := by
      rw [chain_eq_getElem m _ hlt]
      simp only [hb]
      rw [List.getElem_append_right (by omega)]
      simp
    have := hI1 _ hlt x (by rw [hch]; exact hxc)
    omega

/-- The state `_insert_into_bucket` builds is a valid memory image that
satisfies I1 and I2 when the state before was. -/
theorem insert_state_base (hash : K → Nat) (m : UnorderedMap K V) (k : K) (v : V) (h2 : Nat)
    (hv : Valid m) (hbc : 0 < m._bucket_count) (hI1 : I1 hash m) (hI2 : I2 m)
    (hh1 : m._head = none → h2 = m.fresh)
    (hh2 : ∀ h n0 rest, m._head = some h → m.deref h = n0 :: rest →
        h2 = if m._bucket hash k ≤ m._bucket hash n0.key then m.fresh else h)
    (m1 : UnorderedMap K V)
    (hm1 : m1 = ⟨m._bucket_count,
               m._buckets.set (m._bucket hash k)
                 (⟨m.fresh, k, v⟩ :: m.chain (m._bucket hash k)),
               some h2, m._size + 1⟩) :
    Valid m1 ∧ I1 hash m1 ∧ I2 m1 ∧
      ∃ P Q, m.nodes = P ++ Q ∧ m1.nodes = P ++ ⟨m.fresh, k, v⟩ :: Q := by
  have hb : m._bucket hash k < m._buckets.length := by
    rw [hv.1]
    exact Nat.mod_lt _ hbc
  obtain ⟨A, B, hAB, hA⟩ := buckets_split m _ hb
  have hset : m._buckets.set (m._bucket hash k)
      (⟨m.fresh, k, v⟩ :: m.chain (m._bucket hash k)) =
      A ++ (⟨m.fresh, k, v⟩ :: m.chain (m._bucket hash k)) :: B := by
    rw [← hA]
    conv_lhs => rw [hAB]
    exact set_of_split A _ _ B
  have hnodes : m.nodes = A.flatten ++ (m.chain (m._bucket hash k) ++ B.flatten) := by
    unfold nodes
    conv_lhs => rw [hAB]
    simp
  have hnodes1 : m1.nodes =
      A.flatten ++ ⟨m.fresh, k, v⟩ :: (m.chain (m._bucket hash k) ++ B.flatten) := by
    rw [hm1]
    simp [nodes, hset]
  have hfresh : ∀ n ∈ m.nodes, n.addr ≠ m.fresh := by
    intro n hn
    have := addr_lt_fresh m n hn
    omega
  have hnd1 : (m1.nodes.map (fun x => x.addr)).Nodup := by
    rw [hnodes1]
    have hperm : (HashNode.mk m.fresh k v :: m.nodes).Perm
        (A.flatten ++ ⟨m.fresh, k, v⟩ :: (m.chain (m._bucket hash k) ++ B.flatten)) := by
      rw [hnodes]
      exact List.perm_middle.symm
    rw [← (hperm.map (fun x => x.addr)).nodup_iff, List.map_cons, List.nodup_cons]
    refine ⟨?_, hv.2.1⟩
    intro hmem
    obtain ⟨x, hx, hxa⟩ := List.mem_map.1 hmem
    exact hfresh x hx hxa
  have hnew : m.fresh ∈ m1.nodes.map (fun x => x.addr) := by
    rw [hnodes1]
    exact List.mem_map.2 ⟨⟨m.fresh, k, v⟩, by simp, rfl⟩
  have hold : ∀ h, h ∈ m.nodes.map (fun x => x.addr) → h ∈ m1.nodes.map (fun x => x.addr) := by
    intro h hh
    obtain ⟨x, hx, hxa⟩ := List.mem_map.1 hh
    refine List.mem_map.2 ⟨x, ?_, hxa⟩
    rw [hnodes] at hx
    rw [hnodes1]
    rcases List.mem_append.1 hx with hx | hx
    · exact List.mem_append_left _ hx
    · exact List.mem_append_right _ (List.mem_cons_of_mem _ hx)
  refine ⟨⟨?_, hnd1, ?_⟩, ?_, ?_, _, _, hnodes, hnodes1⟩
  · rw [hm1, ← hv.1]
    simp
  · intro h hh
    have hh2' : h2 = h := by
      rw [hm1] at hh
      simpa using hh
    rw [← hh2']
    cases hm : m._head with
    | none =>
      rw [hh1 hm]
      exact hnew
    | some h0 =>
      have hl : h0 ∈ m.nodes.map (fun x => x.addr) := hv.2.2 h0 (by simp [hm])
      obtain ⟨n0, rest, hd, _, _⟩ := deref_live m h0 hl
      rw [hh2 h0 n0 rest hm hd]
      by_cases hc : m._bucket hash k ≤ m._bucket hash n0.key
      · rw [if_pos hc]
        exact hnew
      · rw [if_neg hc]
        exact hold h0 hl
  · have hlen : m1._buckets.length = m._buckets.length := by rw [hm1]; simp
    intro i hi x hx
    have hbk : m1._bucket hash x.key = m._bucket hash x.key := by rw [hm1]; rfl
    rw [hbk]
    rw [hlen] at hi
    rw [hm1, chain_push m _ hb] at hx
    by_cases hc : i = m._bucket hash k
    · rw [if_pos hc] at hx
      rcases List.mem_cons.1 hx with rfl | hx
      · exact hc.symm
      · exact hI1 i hi x (hc ▸ hx)
    · rw [if_neg hc] at hx
      exact hI1 i hi x hx
  · unfold I2 at hI2 ⊢
    rw [hnodes1, hm1]
    simp only
    rw [hI2, hnodes]
    simp only [List.length_append, List.length_cons]
    omega

/-- The state `_insert_into_bucket` builds satisfies I1, I2 and I3 and is a
valid memory image when the state before did. -/
theorem insert_state_inv (hash : K → Nat) (m : UnorderedMap K V) (k : K) (v : V) (h2 : Nat)
    (hv : Valid m) (hbc : 0 < m._bucket_count) (hI1 : I1 hash m) (hI2 : I2 m) (hI3 : I3 m)
    (hh1 : m._head = none → h2 = m.fresh)
    (hh2 : ∀ h n0 rest, m._head = some h → m.deref h = n0 :: rest →
        h2 = if m._bucket hash k ≤ m._bucket hash n0.key then m.fresh else h)
    (m1 : UnorderedMap K V)
    (hm1 : m1 = ⟨m._bucket_count,
               m._buckets.set (m._bucket hash k)
                 (⟨m.fresh, k, v⟩ :: m.chain (m._bucket hash k)),
               some h2, m._size + 1⟩) :
    Valid m1 ∧ I1 hash m1 ∧ I2 m1 ∧ I3 m1 ∧
      ∃ P Q, m.nodes = P ++ Q ∧ m1.nodes = P ++ ⟨m.fresh, k, v⟩ :: Q := by
  have hb : m._bucket hash k < m._buckets.length := by
    rw [hv.1]
    exact Nat.mod_lt _ hbc
  obtain ⟨A, B, hAB, hA⟩ := buckets_split m _ hb
  have hset : m._buckets.set (m._bucket hash k)
      (⟨m.fresh, k, v⟩ :: m.chain (m._bucket hash k)) =
      A ++ (⟨m.fresh, k, v⟩ :: m.chain (m._bucket hash k)) :: B := by
    rw [← hA]
    conv_lhs => rw [hAB]
    exact set_of_split A _ _ B
  have hnodes : m.nodes = A.flatten ++ (m.chain (m._bucket hash k) ++ B.flatten) := by
    unfold nodes
    conv_lhs => rw [hAB]
    simp
  have hnodes1 : m1.nodes =
      A.flatten ++ ⟨m.fresh, k, v⟩ :: (m.chain (m._bucket hash k) ++ B.flatten) := by
    rw [hm1]
    simp [nodes, hset]
  have hfresh : ∀ n ∈ m.nodes, n.addr ≠ m.fresh := by
    intro n hn
    have := addr_lt_fresh m n hn
    omega
  have hnd1 : (m1.nodes.map (fun x => x.addr)).Nodup := by
    rw [hnodes1]
    have hperm : (HashNode.mk m.fresh k v :: m.nodes).Perm
        (A.flatten ++ ⟨m.fresh, k, v⟩ :: (m.chain (m._bucket hash k) ++ B.flatten)) := by
      rw [hnodes]
      exact List.perm_middle.symm
    rw [← (hperm.map (fun x => x.addr)).nodup_iff, List.map_cons, List.nodup_cons]
    refine ⟨?_, hv.2.1⟩
    intro hmem
    obtain ⟨x, hx, hxa⟩ := List.mem_map.1 hmem
    exact hfresh x hx hxa
  have hsplit := bucket_of_mem_split hash m hI1 A _ hAB
  have hI3' : m1._head = m1.nodes.head?.map (fun x => x.addr) := by
    have hhead := (I3_iff m).1 hI3
    rw [hnodes1, hm1]
    simp only
    cases hm : m._head with
    | none =>
      rw [hh1 hm]
      rw [hm, hnodes] at hhead
      cases hAf : A.flatten with
      | nil => simp
      | cons p A1 => rw [hAf] at hhead; simp at hhead
    | some h =>
      rw [hm] at hhead
      cases hnl : m.nodes with
      | nil => rw [hnl] at hhead; simp at hhead
      | cons n0 rest0 =>
        rw [hnl] at hhead
        simp only [List.head?_cons, Option.map_some', Option.some.injEq] at hhead
        have hdh : (m.deref h).head? = some n0 := by
          rw [deref_head, hnl]
          simp [hhead]
        obtain ⟨n0', rest, hd, _, _⟩ := deref_live m h (hv.2.2 h (by simp [hm]))
        rw [hd] at hdh
        simp only [List.head?_cons, Option.some.injEq] at hdh
        subst hdh
        rw [hh2 h n0' rest hm hd]
        cases hAf : A.flatten with
        | nil =>
          have hmem : n0' ∈ (m.chain (m._bucket hash k) :: B).flatten := by
            have : n0' ∈ m.nodes := by rw [hnl]; simp
            rw [hnodes, hAf] at this
            simpa using this
          have := hsplit.2 n0' hmem
          rw [hA] at this
          simp [this]
        | cons p A1 =>
          have hp : p = n0' := by
            rw [hnodes, hAf] at hnl
            simp only [List.cons_append, List.cons.injEq] at hnl
            exact hnl.1
          have hmem : n0' ∈ A.flatten := by rw [hAf, hp]; simp
          have := hsplit.1 n0' hmem
          rw [hA] at this
          have hnle : ¬ (m._bucket hash k ≤ m._bucket hash n0'.key) := by omega
          simp [hnle, hp, hhead]
  refine ⟨⟨?_, hnd1, ?_⟩, ?_, ?_, (I3_iff m1).2 hI3', _, _, hnodes, hnodes1⟩
  · rw [hm1, ← hv.1]
    simp
  · intro h hh
    rw [hI3'] at hh
    simp only [Option.mem_def, Option.map_eq_some'] at hh
    obtain ⟨x, hx, rfl⟩ := hh
    exact List.mem_map.2 ⟨x, List.mem_of_mem_head? hx, rfl⟩
  · have hlen : m1._buckets.length = m._buckets.length := by rw [hm1]; simp
    intro i hi x hx
    have hbk : m1._bucket hash x.key = m._bucket hash x.key := by rw [hm1]; rfl
    rw [hbk]
    rw [hlen] at hi
    rw [hm1, chain_push m _ hb] at hx
    by_cases hc : i = m._bucket hash k
    · rw [if_pos hc] at hx
      rcases List.mem_cons.1 hx with rfl | hx
      · exact hc.symm
      · exact hI1 i hi x (hc ▸ hx)
    · rw [if_neg hc] at hx
      exact hI1 i hi x hx
  · unfold I2 at hI2 ⊢
    rw [hnodes1, hm1]
    simp only
    rw [hI2, hnodes]
    simp only [List.length_append, List.length_cons]
    omega

/-! ## Invariants kept by every call -/

/-- What `erase(pos)` does when the key of the node at `pos` is found at the node
`n1`, with the buckets split around `n1`, and `operator++` gives `r` at `n1`. -/
theorem erase_at (hash : K → Nat) (equal : K → K → Bool) (m : UnorderedMap K V)
    (a : Nat) (n : HashNode K V) (rest : List (HashNode K V))
    (hd : m.deref a = n :: rest)
    (A B : List (List (HashNode K V))) (cpre cpost : List (HashNode K V)) (n1 : HashNode K V)
    (hb : m._buckets = A ++ (cpre ++ n1 :: cpost) :: B)
    (hf : m._find hash equal n.key = ⟨A.length, cpre.length⟩)
    (r : Ptr) (hinc : m.increment hash (some n1.addr) = some r) :
    m.erase hash equal (some a) =
      some (⟨m._bucket_count, A ++ (cpre ++ cpost) :: B,
             if some n1.addr = m._head then r else m._head, m._size - 1⟩, r) := by
  have hch : m.chain A.length = cpre ++ n1 :: cpost := chain_of_split m A B _ hb
  have hslot : m.slotGet ⟨A.length, cpre.length⟩ = some n1.addr := by
    simp only [slotGet, hch, get?_append_cons]
    rfl
  simp only [erase, hd, hf, hslot, hinc, hch, eraseIdx_append_cons]
  have hset : m._buckets.set A.length (cpre ++ cpost) = A ++ (cpre ++ cpost) :: B := by
    conv_lhs => rw [hb]
    exact set_of_split A _ _ B
  rw [hset]

/-- A defined `erase(pos)` at a non-end position found a node to unlink. -/
theorem erase_some_cases (hash : K → Nat) (equal : K → K → Bool) (m : UnorderedMap K V)
    (a : Nat) (m1 : UnorderedMap K V) (r : Ptr)
    (he : m.erase hash equal (some a) = some (m1, r)) :
    ∃ n rest A B cpre cpost n1, m.deref a = n :: rest ∧
      m._buckets = A ++ (cpre ++ n1 :: cpost) :: B ∧
      m._find hash equal n.key = ⟨A.length, cpre.length⟩ := by
  cases hd : m.deref a with
  | nil => simp [erase, hd] at he
  | cons n rest =>
    rcases find_cases hash equal m n.key with ⟨_, _, h3⟩ | ⟨pre, n1, post, h1, h2, _, _, _⟩
    · have hs : m.slotGet (m._find hash equal n.key) = none := h3
      simp [erase, hd, hs] at he
    · have hblt : m._bucket hash n.key < m._buckets.length := by
        rcases Nat.lt_or_ge (m._bucket hash n.key) m._buckets.length with h | h
        · exact h
        · rw [chain_eq_nil_of_le m _ h] at h1
          simp at h1
      obtain ⟨A, B, hAB, hA⟩ := buckets_split m _ hblt
      rw [h1] at hAB
      refine ⟨n, rest, A, B, pre, post, n1, rfl, hAB, ?_⟩
      have : m._find hash equal n.key =
          ⟨m._bucket hash n.key, (m._find hash equal n.key).idx⟩ := rfl
      rw [this, h2, hA]

/-- Whatever the number of buckets, a defined `erase(pos)` leaves a valid
memory image with I1 and I2 and only removes nodes. -/
theorem erase_base (hash : K → Nat) (equal : K → K → Bool) (m : UnorderedMap K V)
    (hinv : InvBase hash m) (pos : Ptr) (m1 : UnorderedMap K V) (r : Ptr)
    (he : m.erase hash equal pos = some (m1, r)) :
    InvBase hash m1 ∧ m1.nodes.Sublist m.nodes ∧ m1._bucket_count = m._bucket_count := by
  obtain ⟨hv, hbc, hI1, hI2⟩ := hinv
  cases pos with
  | none =>
    simp only [erase, Option.some.injEq, Prod.mk.injEq] at he
    rw [← he.1]
    exact ⟨⟨hv, hbc, hI1, hI2⟩, List.Sublist.refl _, rfl⟩
  | some a =>
    obtain ⟨n, rest, A, B, cpre, cpost, n1, hd, hb, hf⟩ :=
      erase_some_cases hash equal m a m1 r he
    obtain ⟨r1, hinc, hr1⟩ := increment_live hash m hv hI1 A B cpre cpost n1 hb
    have hat := erase_at hash equal m a n rest hd A B cpre cpost n1 hb hf r1 hinc
    rw [hat] at he
    simp only [Option.some.injEq, Prod.mk.injEq] at he
    obtain ⟨h1, h2, h3, h6⟩ :=
      erase_state_base hash m hv hI1 hI2 A B cpre cpost n1 hb r1 hr1 m1 he.1.symm
    refine ⟨⟨h1, ?_, h2, h3⟩, ?_, ?_⟩
    · rw [← he.1]
      exact hbc
    · rw [h6, nodes_of_split m A B cpre cpost n1 hb]
      exact sublist_middle _ _ _
    · rw [← he.1]

/-- With at most `INT_MAX` buckets `erase(pos)` keeps the invariants, I3
included, and only removes nodes. -/
theorem erase_inv (hash : K → Nat) (equal : K → K → Bool) (m : UnorderedMap K V)
    (hinv : Inv hash m) (hbound : m._bucket_count ≤ 2147483647) (pos : Ptr)
    (m1 : UnorderedMap K V) (r : Ptr)
    (he : m.erase hash equal pos = some (m1, r)) :
    Inv hash m1 ∧ m1.nodes.Sublist m.nodes ∧ m1._bucket_count = m._bucket_count := by
  obtain ⟨hv, hbc, hI1, hI2, hI3⟩ := hinv
  cases pos with
  | none =>
    simp only [erase, Option.some.injEq, Prod.mk.injEq] at he
    rw [← he.1]
    exact ⟨⟨hv, hbc, hI1, hI2, hI3⟩, List.Sublist.refl _, rfl⟩
  | some a =>
    obtain ⟨n, rest, A, B, cpre, cpost, n1, hd, hb, hf⟩ :=
      erase_some_cases hash equal m a m1 r he
    have hinc := increment_spec hash m hv hI1 hbound _ n1 _
      (nodes_of_split m A B cpre cpost n1 hb)
    have hat := erase_at hash equal m a n rest hd A B cpre cpost n1 hb hf _ hinc
    rw [hat] at he
    simp only [Option.some.injEq, Prod.mk.injEq] at he
    obtain ⟨h1, h2, h3, h4, h6⟩ :=
      erase_state_inv hash m hv hI1 hI2 hI3 A B cpre cpost n1 hb m1 he.1.symm
    refine ⟨⟨h1, ?_, h2, h3, h4⟩, ?_, ?_⟩
    · rw [← he.1]
      exact hbc
    · rw [h6, nodes_of_split m A B cpre cpost n1 hb]
      exact sublist_middle _ _ _
    · rw [← he.1]

/-- `insert(value)` keeps a valid memory image with I1 and I2; it either changes
nothing or adds one node whose key no node of the probed chain equals. -/
theorem insert_base (hash : K → Nat) (equal : K → K → Bool) (m : UnorderedMap K V)
    (hinv : InvBase hash m) (k : K) (v : V) (m1 : UnorderedMap K V) (p : Ptr) (b : Bool)
    (hi : m.insert hash equal (k, v) = some (m1, p, b)) :
    InvBase hash m1 ∧ m1._bucket_count = m._bucket_count ∧
    (m1 = m ∨ ((∀ n ∈ m.chain (m._bucket hash k), equal n.key k = false) ∧
      p = some m.fresh ∧
      ∃ P Q, m.nodes = P ++ Q ∧ m1.nodes = P ++ ⟨m.fresh, k, v⟩ :: Q)) := by
  obtain ⟨hv, hbc, hI1, hI2⟩ := hinv
  rcases find_cases hash equal m k with ⟨h1, _, _⟩ | ⟨pre, n, post, _, _, _, _, h5⟩
  · obtain ⟨h2, hins, hh1, hh2⟩ := insert_miss hash equal m k v hv hbc h1
    rw [hins] at hi
    simp only [Option.some.injEq, Prod.mk.injEq] at hi
    obtain ⟨g1, g2, g3, g5⟩ :=
      insert_state_base hash m k v h2 hv hbc hI1 hI2 hh1 hh2 m1 hi.1.symm
    refine ⟨⟨g1, ?_, g2, g3⟩, ?_, Or.inr ⟨h1, hi.2.1.symm, g5⟩⟩
    · rw [← hi.1]
      exact hbc
    · rw [← hi.1]
  · have hs : m.slotGet (m._find_in equal 0 (m._bucket_val hash (k, v)) k) = some n.addr := h5
    simp only [insert, hs, Option.some.injEq, Prod.mk.injEq] at hi
    rw [← hi.1]
    exact ⟨⟨hv, hbc, hI1, hI2⟩, rfl, Or.inl rfl⟩

/-- `insert(value)` keeps the invariants; it either changes nothing or adds one
node whose key no node of the probed chain equals. -/
theorem insert_inv (hash : K → Nat) (equal : K → K → Bool) (m : UnorderedMap K V)
    (hinv : Inv hash m) (k : K) (v : V) (m1 : UnorderedMap K V) (p : Ptr) (b : Bool)
    (hi : m.insert hash equal (k, v) = some (m1, p, b)) :
    Inv hash m1 ∧ m1._bucket_count = m._bucket_count ∧
    (m1 = m ∨ ((∀ n ∈ m.chain (m._bucket hash k), equal n.key k = false) ∧
      p = some m.fresh ∧
      ∃ P Q, m.nodes = P ++ Q ∧ m1.nodes = P ++ ⟨m.fresh, k, v⟩ :: Q)) := by
  obtain ⟨hv, hbc, hI1, hI2, hI3⟩ := hinv
  rcases find_cases hash equal m k with ⟨h1, _, _⟩ | ⟨pre, n, post, _, _, _, _, h5⟩
  · obtain ⟨h2, hins, hh1, hh2⟩ := insert_miss hash equal m k v hv hbc h1
    rw [hins] at hi
    simp only [Option.some.injEq, Prod.mk.injEq] at hi
    obtain ⟨g1, g2, g3, g4, g5⟩ :=
      insert_state_inv hash m k v h2 hv hbc hI1 hI2 hI3 hh1 hh2 m1 hi.1.symm
    refine ⟨⟨g1, ?_, g2, g3, g4⟩, ?_, Or.inr ⟨h1, hi.2.1.symm, g5⟩⟩
    · rw [← hi.1]
      exact hbc
    · rw [← hi.1]
  · have hs : m.slotGet (m._find_in equal 0 (m._bucket_val hash (k, v)) k) = some n.addr := h5
    simp only [insert, hs, Option.some.injEq, Prod.mk.injEq] at hi
    rw [← hi.1]
    exact ⟨⟨hv, hbc, hI1, hI2, hI3⟩, rfl, Or.inl rfl⟩

/-! ## Global traversal -/

/-- With at most `INT_MAX` buckets, from any node on, the traversal visits the
rest of the global order. -/
theorem traverse_suffix (hash : K → Nat) (m : UnorderedMap K V) (hv : Valid m)
    (hI1 : I1 hash m) (hbound : m._bucket_count ≤ 2147483647) (post : List (HashNode K V)) :
    ∀ (pre : List (HashNode K V)) (fuel : Nat), m.nodes = pre ++ post → post.length ≤ fuel →
      m.traverse hash fuel (post.head?.map (fun x => x.addr)) =
        some (post.map (fun x => x.addr)) := by
  induction post with
  | nil =>
    intro pre fuel _ _
    cases fuel <;> rfl
  | cons n post ih =>
    intro pre fuel hn hf
    cases fuel with
    | zero => simp at hf
    | succ fuel =>
      have hinc := increment_spec hash m hv hI1 hbound pre n post hn
      have := ih (pre ++ [n]) fuel (by simp [hn]) (by simpa using hf)
      simp only [List.head?_cons, Option.map_some', traverse, hinc, this, Option.map_some',
        List.map_cons]

/-- Under I1 the bucket indices along the global order never decrease. -/
theorem nodes_bucket_sorted (hash : K → Nat) (m : UnorderedMap K V) (hI1 : I1 hash m)
    (R : List (List (HashNode K V))) :
    ∀ A : List (List (HashNode K V)), m._buckets = A ++ R →
      R.flatten.Pairwise (fun x y => m._bucket hash x.key ≤ m._bucket hash y.key) := by
  induction R with
  | nil => intro A _; simp
  | cons c R ih =>
    intro A hA
    have hlen : A.length < m._buckets.length := by rw [hA]; simp
    have hch : m.chain A.length = c := chain_of_split m A R c hA
    have hc : ∀ x ∈ c, m._bucket hash x.key = A.length :=
      fun x hx => hI1 A.length hlen x (by rw [hch]; exact hx)
    have hR := (bucket_of_mem_split hash m hI1 (A ++ [c]) R (by simp [hA])).2
    rw [List.flatten_cons, List.pairwise_append]
    refine ⟨?_, ih (A ++ [c]) (by simp [hA]), ?_⟩
    · rw [List.pairwise_iff_forall_sublist]
      intro x y hxy
      have hx := hc x (hxy.subset (by simp))
      have hy := hc y (hxy.subset (by simp))
      omega
    · intro x hx y hy
      have h1 := hc x hx
      have h2 := hR y hy
      simp only [List.length_append, List.length_singleton] at h2
      omega

/-- In a container with I1, I3 and at most `INT_MAX` buckets the traversal from
`begin()` by `++` reaches the end marker (any fuel from the number of nodes on
is enough) and visits exactly the concatenation of the chains in ascending
bucket index: each stored entry once, bucket indices never decreasing, the
first one at the head of the lowest-indexed non-empty bucket. -/
theorem traversal_bounded (hash : K → Nat) (m : UnorderedMap K V) (hv : Valid m)
    (hI1 : I1 hash m) (hI3 : I3 m) (hbound : m._bucket_count ≤ 2147483647) :
    (∀ fuel, m.nodes.length ≤ fuel →
      m.traverse hash fuel m.begin = some (m._buckets.flatten.map (fun x => x.addr))) ∧
    (m._buckets.flatten.map (fun x => x.addr)).Nodup ∧
    m._buckets.flatten.Pairwise (fun x y => m._bucket hash x.key ≤ m._bucket hash y.key) ∧
    (∀ n, m._buckets.flatten.head? = some n →
      ∃ i, i < m._bucket_count ∧ (m.chain i).head? = some n ∧ m._bucket hash n.key = i ∧
        ∀ j, j < i → m.chain j = []) := by
  refine ⟨?_, hv.2.1, nodes_bucket_sorted hash m hI1 m._buckets [] rfl, ?_⟩
  · intro fuel hf
    have := traverse_suffix hash m hv hI1 hbound m.nodes [] fuel rfl hf
    rw [← (I3_iff m).1 hI3] at this
    exact this
  · intro n hn
    have hsplit : m._buckets.flatten = [] ++ n :: m._buckets.flatten.tail := by
      cases hl : m._buckets.flatten with
      | nil => rw [hl] at hn; cases hn
      | cons x l =>
        rw [hl] at hn
        cases hn
        rfl
    obtain ⟨A, cpre, cpost, B, e1, e2, _⟩ := flatten_split m._buckets [] n _ hsplit
    have hnil := List.append_eq_nil.1 e2.symm
    rw [hnil.2] at e1
    have hlen : A.length < m._buckets.length := by rw [e1]; simp
    have hch : m.chain A.length = n :: cpost := chain_of_split m A B _ e1
    refine ⟨A.length, hv.1 ▸ hlen, by rw [hch]; rfl,
      hI1 A.length hlen n (by rw [hch]; simp), ?_⟩
    intro j hj
    have hjl : j < m._buckets.length := Nat.lt_trans hj hlen
    rw [chain_eq_getElem m j hjl]
    have hA : ∀ c ∈ A, c = [] := List.flatten_eq_nil_iff.1 hnil.1
    apply hA
    have : m._buckets[j] = A[j] := by
      simp only [e1]
      exact List.getElem_append_left hj
    rw [this]
    exact List.getElem_mem hj

/-! ## Sequences of calls -/

/-- A defined call changes nothing, or is a defined `insert`, or is a defined
`erase(pos)`. -/
theorem step_cases [Inhabited V] (hash : K → Nat) (equal : K → K → Bool)
    (m : UnorderedMap K V) (c : Call K V) (m1 : UnorderedMap K V)
    (hs : m.step hash equal c = some m1) :
    m1 = m ∨ (∃ k v p b, m.insert hash equal (k, v) = some (m1, p, b)) ∨
      ∃ pos r, m.erase hash equal pos = some (m1, r) := by
  cases c with
  | insert value =>
    obtain ⟨k, v⟩ := value
    simp only [step, Option.map_eq_some'] at hs
    obtain ⟨⟨m2, p, b⟩, hi, rfl⟩ := hs
    exact Or.inr (Or.inl ⟨k, v, p, b, hi⟩)
  | index key =>
    simp only [step, Option.map_eq_some'] at hs
    obtain ⟨⟨m2, a⟩, hi, rfl⟩ := hs
    unfold index at hi
    split at hi
    · simp only [Option.some.injEq, Prod.mk.injEq] at hi
      exact Or.inl hi.1.symm
    · split at hi
      · rename_i m3 a3 b3 hins3
        simp only [Option.some.injEq, Prod.mk.injEq] at hi
        rw [hi.1] at hins3
        exact Or.inr (Or.inl ⟨key, default, _, _, hins3⟩)
      · cases hi
  | erase_key key =>
    simp only [step, Option.map_eq_some'] at hs
    obtain ⟨⟨m2, cnt⟩, hi, rfl⟩ := hs
    unfold erase_key at hi
    split at hi
    · simp only [Option.some.injEq, Prod.mk.injEq] at hi
      exact Or.inl hi.1.symm
    · split at hi
      · cases hi
      · rename_i m3 r3 he3
        simp only [Option.some.injEq, Prod.mk.injEq] at hi
        rw [hi.1] at he3
        exact Or.inr (Or.inr ⟨_, _, he3⟩)
  | erase pos =>
    simp only [step, Option.map_eq_some'] at hs
    obtain ⟨⟨m2, r⟩, hi, rfl⟩ := hs
    exact Or.inr (Or.inr ⟨pos, r, hi⟩)

/-- Whatever the number of buckets, one defined call keeps a valid memory image
with I1 and I2 and the bucket count; it only removes nodes, or adds one node
whose key no node of the probed chain equals. -/
theorem step_base [Inhabited V] (hash : K → Nat) (equal : K → K → Bool) (m : UnorderedMap K V)
    (hinv : InvBase hash m) (c : Call K V) (m1 : UnorderedMap K V)
    (hs : m.step hash equal c = some m1) :
    InvBase hash m1 ∧ m1._bucket_count = m._bucket_count ∧
    (m1.nodes.Sublist m.nodes ∨
      ∃ k v P Q, (∀ n ∈ m.chain (m._bucket hash k), equal n.key k = false) ∧
        m.nodes = P ++ Q ∧ m1.nodes = P ++ ⟨m.fresh, k, v⟩ :: Q) := by
  rcases step_cases hash equal m c m1 hs with rfl | ⟨k, v, p, b, hi⟩ | ⟨pos, r, he⟩
  · exact ⟨hinv, rfl, Or.inl (List.Sublist.refl _)⟩
  · obtain ⟨g1, g2, g3⟩ := insert_base hash equal m hinv k v m1 p b hi
    refine ⟨g1, g2, ?_⟩
    rcases g3 with rfl | ⟨h1, _, P, Q, h2, h3⟩
    · exact Or.inl (List.Sublist.refl _)
    · exact Or.inr ⟨k, v, P, Q, h1, h2, h3⟩
  · obtain ⟨g1, g2, g3⟩ := erase_base hash equal m hinv pos m1 r he
    exact ⟨g1, g3, Or.inl g2⟩

/-- A defined sequence of calls keeps a valid memory image with I1 and I2 and
the bucket count, whatever the number of buckets. -/
theorem run_base [Inhabited V] (hash : K → Nat) (equal : K → K → Bool)
    (calls : List (Call K V)) :
    ∀ (m m1 : UnorderedMap K V), InvBase hash m → m.run hash equal calls = some m1 →
      InvBase hash m1 ∧ m1._bucket_count = m._bucket_count := by
  induction calls with
  | nil =>
    intro m m1 hinv hr
    simp only [run, Option.some.injEq] at hr
    rw [← hr]
    exact ⟨hinv, rfl⟩
  | cons c cs ih =>
    intro m m1 hinv hr
    simp only [run] at hr
    split at hr
    · cases hr
    · rename_i m2 hs
      obtain ⟨g1, g2, _⟩ := step_base hash equal m hinv c m2 hs
      obtain ⟨g3, g4⟩ := ih m2 m1 g1 hr
      exact ⟨g3, g4.trans g2⟩

theorem inv_base (hash : K → Nat) (m : UnorderedMap K V) (hinv : Inv hash m) :
    InvBase hash m :=
  ⟨hinv.1, hinv.2.1, hinv.2.2.1, hinv.2.2.2.1⟩

/-- With at most `INT_MAX` buckets one defined call keeps the invariants, I3
included, and the bucket count. -/
theorem step_inv [Inhabited V] (hash : K → Nat) (equal : K → K → Bool) (m : UnorderedMap K V)
    (hinv : Inv hash m) (hbound : m._bucket_count ≤ 2147483647) (c : Call K V)
    (m1 : UnorderedMap K V) (hs : m.step hash equal c = some m1) :
    Inv hash m1 ∧ m1._bucket_count = m._bucket_count := by
  rcases step_cases hash equal m c m1 hs with rfl | ⟨k, v, p, b, hi⟩ | ⟨pos, r, he⟩
  · exact ⟨hinv, rfl⟩
  · obtain ⟨g1, g2, _⟩ := insert_inv hash equal m hinv k v m1 p b hi
    exact ⟨g1, g2⟩
  · obtain ⟨g1, _, g3⟩ := erase_inv hash equal m hinv hbound pos m1 r he
    exact ⟨g1, g3⟩

/-- With at most `INT_MAX` buckets a defined sequence of calls keeps the
invariants, I3 included, and the bucket count. -/
theorem run_inv [Inhabited V] (hash : K → Nat) (equal : K → K → Bool)
    (calls : List (Call K V)) :
    ∀ (m m1 : UnorderedMap K V), Inv hash m → m._bucket_count ≤ 2147483647 →
      m.run hash equal calls = some m1 →
      Inv hash m1 ∧ m1._bucket_count = m._bucket_count := by
  induction calls with
  | nil =>
    intro m m1 hinv _ hr
    simp only [run, Option.some.injEq] at hr
    rw [← hr]
    exact ⟨hinv, rfl⟩
  | cons c cs ih =>
    intro m m1 hinv hbound hr
    simp only [run] at hr
    split at hr
    · cases hr
    · rename_i m2 hs
      obtain ⟨g1, g2⟩ := step_inv hash equal m hinv hbound c m2 hs
      obtain ⟨g3, g4⟩ := ih m2 m1 g1 (by rw [g2]; exact hbound) hr
      exact ⟨g3, g4.trans g2⟩

theorem flatten_replicate_nil {α : Type} (n : Nat) :
    (List.replicate n ([] : List α)).flatten = [] := by
  induction n with
  | zero => rfl
  | succ n ih => simp [List.replicate_succ]

/-- A freshly constructed container satisfies every invariant. -/
theorem construct_inv (hash : K → Nat) (equal : K → K → Bool)
    (next_greater_prime : Nat → Nat) (bucket_count : Nat)
    (hpos : 0 < next_greater_prime bucket_count) :
    Inv hash (construct next_greater_prime bucket_count : UnorderedMap K V) ∧
    I4 equal (construct next_greater_prime bucket_count : UnorderedMap K V) := by
  have hn : (construct next_greater_prime bucket_count : UnorderedMap K V).nodes = [] :=
    flatten_replicate_nil _
  refine ⟨⟨⟨?_, ?_, ?_⟩, hpos, ?_, ?_, ?_⟩, ?_⟩
  · simp [construct]
  · rw [hn]
    exact List.nodup_nil
  · intro h hh
    cases hh
  · intro i hi n hmem
    have := mem_nodes_of_mem_chain _ i n hmem
    rw [hn] at this
    cases this
  · unfold I2
    rw [hn]
    rfl
  · rw [I3_iff, hn]
    rfl
  · unfold I4
    rw [hn]
    exact List.Pairwise.nil

/-- With at most `INT_MAX` buckets: after any defined sequence of `insert`,
`operator[]`, `erase(key)` and `erase(iterator)` calls on a freshly constructed
container, the traversal from `begin()` to `end()` produces `size()` entries,
which are the entries reachable through the chains, and `empty()` holds exactly
when there are none. -/
theorem size_consistent_bounded [Inhabited V] (hash : K → Nat) (equal : K → K → Bool)
    (next_greater_prime : Nat → Nat) (bucket_count : Nat)
    (hpos : 0 < next_greater_prime bucket_count)
    (hbound : next_greater_prime bucket_count ≤ 2147483647) (calls : List (Call K V))
    (m1 : UnorderedMap K V)
    (hrun : (construct next_greater_prime bucket_count).run hash equal calls = some m1) :
    ∃ visited, m1.traverse hash m1.size m1.begin = some visited ∧
      m1.size = visited.length ∧
      visited = m1._buckets.flatten.map (fun n => n.addr) ∧
      m1.size = m1._buckets.flatten.length ∧
      (m1.empty = true ↔ visited.length = 0) := by
  obtain ⟨⟨hv, _, hI1, hI2, hI3⟩, hbc⟩ :=
    run_inv hash equal calls _ m1 (construct_inv hash equal _ _ hpos).1 hbound hrun
  have hb1 : m1._bucket_count ≤ 2147483647 := by
    rw [hbc]
    exact hbound
  have hsz : m1.size = m1.nodes.length := hI2
  have htr : m1.traverse hash m1.size m1.begin =
      some (m1._buckets.flatten.map (fun x => x.addr)) := by
    have := traverse_suffix hash m1 hv hI1 hb1 m1.nodes [] m1.size rfl (by rw [hsz])
    rw [← (I3_iff m1).1 hI3] at this
    exact this
  have hlen : m1.size = (m1._buckets.flatten.map (fun n => n.addr)).length := by
    rw [List.length_map]
    exact hsz
  refine ⟨_, htr, hlen, rfl, hsz, ?_⟩
  rw [← hlen]
  simp [empty, size]

/-- The invariant I4 is kept by every defined call when the predicate is
symmetric and the hash agrees on keys that compare equal. -/
theorem step_I4 [Inhabited V] (hash : K → Nat) (equal : K → K → Bool) (m : UnorderedMap K V)
    (hinv : InvBase hash m) (hI4 : I4 equal m) (hc : HashCongr hash equal)
    (hsymm : ∀ a b, equal a b = true → equal b a = true) (c : Call K V)
    (m1 : UnorderedMap K V) (hs : m.step hash equal c = some m1) : I4 equal m1 := by
  obtain ⟨_, _, h | ⟨k, v, P, Q, hmiss, hn, hn1⟩⟩ := step_base hash equal m hinv c m1 hs
  · exact hI4.sublist h
  · unfold I4 at hI4 ⊢
    have habs : ∀ x ∈ m.nodes, equal x.key k = false := by
      intro x hx
      cases hq : equal x.key k with
      | false => rfl
      | true =>
        have := hmiss x (mem_chain_of_equal hash equal m hinv.2.2.1 hc k x hx hq)
        rw [hq] at this
        cases this
    have hsym : Symmetric (fun (a b : HashNode K V) =>
        equal a.key b.key = false ∧ equal b.key a.key = false) := fun a b h => ⟨h.2, h.1⟩
    rw [hn1, List.pairwise_middle (fun {a b} h => hsym h), List.pairwise_cons]
    rw [hn] at hI4 habs
    refine ⟨?_, hI4⟩
    intro x hx
    have h1 := habs x hx
    refine ⟨?_, h1⟩
    cases hq : equal k x.key with
    | false => rfl
    | true =>
      have := hsymm _ _ hq
      rw [h1] at this
      cases this

/-- C10: with a symmetric predicate and a hash that agrees on keys that
compare equal, after any defined sequence of `insert`, `operator[]` and `erase`
calls on a freshly constructed container no two stored entries have keys that
compare equal. -/
theorem no_equal_keys [Inhabited V] (hash : K → Nat) (equal : K → K → Bool)
    (next_greater_prime : Nat → Nat) (bucket_count : Nat)
    (hpos : 0 < next_greater_prime bucket_count) (hc : HashCongr hash equal)
    (hsymm : ∀ a b, equal a b = true → equal b a = true) (calls : List (Call K V)) :
    ∀ m1 : UnorderedMap K V,
      (construct next_greater_prime bucket_count).run hash equal calls = some m1 →
      m1._buckets.flatten.Pairwise
        (fun a b => equal a.key b.key = false ∧ equal b.key a.key = false) := by
  have key : ∀ (cs : List (Call K V)) (m m1 : UnorderedMap K V), InvBase hash m → I4 equal m →
      m.run hash equal cs = some m1 → I4 equal m1 := by
    intro cs
    induction cs with
    | nil =>
      intro m m1 _ hI4 hr
      simp only [run, Option.some.injEq] at hr
      rw [← hr]
      exact hI4
    | cons c cs ih =>
      intro m m1 hinv hI4 hr
      simp only [run] at hr
      split at hr
      · cases hr
      · rename_i m2 hs
        exact ih m2 m1 (step_base hash equal m hinv c m2 hs).1
          (step_I4 hash equal m hinv hI4 hc hsymm c m2 hs) hr
  intro m1 hrun
  have h0 := construct_inv (V := V) hash equal next_greater_prime bucket_count hpos
  exact key calls _ m1 (inv_base hash _ h0.1) h0.2 hrun

/-! ## Subscript access -/

/-- The pointer to a stored node dereferences to that node. -/
theorem deref_of_mem (m : UnorderedMap K V) (hv : Valid m) (n : HashNode K V)
    (hn : n ∈ m.nodes) : (m.deref n.addr).head? = some n := by
  obtain ⟨pre, post, hsplit⟩ := List.append_of_mem hn
  obtain ⟨A, cpre, cpost, B, e1, _, _⟩ := flatten_split m._buckets pre n post hsplit
  rw [deref_of_split m A B cpre cpost n e1 hv.2.1]
  rfl

/-- C6: `operator[](k)` leaves the state `insert((k, T{}))` leaves and returns
a reference into the entry `find(k)` then yields.  When no stored key equals
`k` that entry is new, holds `(k, T{})` and the size grew by 1; when one does,
the state is unchanged and the entry is a stored one with a key equal to
`k`. -/
theorem index_correct [Inhabited V] (hash : K → Nat) (equal : K → K → Bool)
    (m : UnorderedMap K V) (k : K) (hv : Valid m) (hbc : 0 < m._bucket_count)
    (hI1 : I1 hash m) (hc : HashCongr hash equal) (hrefl : equal k k = true) :
    ∃ m1 a b, m.index hash equal k = some (m1, a) ∧
      m.insert hash equal (k, default) = some (m1, some a, b) ∧
      m1.find hash equal k = some a ∧
      ((∀ n ∈ m.nodes, equal n.key k = false) →
        m.find hash equal k = m.end ∧ m1.size = m.size + 1 ∧
        (m1.deref a).head? = some ⟨a, k, default⟩) ∧
      ((∃ n ∈ m.nodes, equal n.key k = true) →
        m1 = m ∧ ∃ n ∈ m.nodes, n.addr = a ∧ equal n.key k = true ∧
          (m.deref a).head? = some n) := by
  rcases find_cases hash equal m k with ⟨h1, _, h3⟩ | ⟨pre, n, post, h1, _, _, h4, h5⟩
  · -- the probed chain holds no equal key: a node is allocated
    obtain ⟨h2, hins, _, _⟩ := insert_miss hash equal m k default hv hbc h1
    have hb : m._bucket hash k < m._buckets.length := by
      rw [hv.1]
      exact Nat.mod_lt _ hbc
    obtain ⟨f1, f2, _, _⟩ :=
      insert_miss_facts hash equal m k default (some h2) hb hrefl _ rfl
    refine ⟨_, m.fresh, true, ?_, hins, f1, ?_, ?_⟩
    · have hs : m.slotGet (m._find hash equal k) = none := h3
      simp only [index, hs, hins]
    · intro _
      exact ⟨h3, rfl, f2⟩
    · rintro ⟨n, hn, he⟩
      have := h1 n (mem_chain_of_equal hash equal m hI1 hc k n hn he)
      rw [he] at this
      cases this
  · -- the probed chain holds an equal key at the node `n`
    have hn : n ∈ m.nodes := mem_nodes_of_mem_chain m _ n (by rw [h1]; simp)
    have hs : m.slotGet (m._find hash equal k) = some n.addr := h5
    have hs2 : m.slotGet (m._find_in equal 0 (m._bucket_val hash (k, default)) k) =
        some n.addr := h5
    refine ⟨m, n.addr, false, ?_, ?_, h5, ?_, ?_⟩
    · simp only [index, hs]
    · simp only [insert, hs2]
    · intro habs
      have := habs n hn
      rw [h4] at this
      cases this
    · intro _
      exact ⟨rfl, n, hn, rfl, h4, deref_of_mem m hv n hn⟩

/-! ## Which calls are defined -/

/-- With a reflexive predicate `erase(pos)` is defined at every live position. -/
theorem erase_defined (hash : K → Nat) (equal : K → K → Bool) (m : UnorderedMap K V)
    (hinv : InvBase hash m) (hrefl : ∀ x, equal x x = true) (a : Nat)
    (ha : a ∈ m.nodes.map (fun n => n.addr)) :
    ∃ m1 r, m.erase hash equal (some a) = some (m1, r) := by
  obtain ⟨hv, _, hI1, _⟩ := hinv
  obtain ⟨n, rest, hd, _, hn⟩ := deref_live m a ha
  obtain ⟨i, hi, hni⟩ := (mem_nodes_iff m n).1 hn
  have hbi := hI1 i hi n hni
  rcases find_cases hash equal m n.key with ⟨h1, _, _⟩ | ⟨pre, n1, post, h1, h2, _, _, _⟩
  · have := h1 n (by rw [hbi]; exact hni)
    rw [hrefl] at this
    cases this
  · rw [hbi] at h1
    obtain ⟨A, B, hAB, hA⟩ := buckets_split m i hi
    rw [h1] at hAB
    have hf : m._find hash equal n.key = ⟨A.length, pre.length⟩ := by
      have : m._find hash equal n.key =
          ⟨m._bucket hash n.key, (m._find hash equal n.key).idx⟩ := rfl
      rw [this, h2, hbi, hA]
    obtain ⟨r, hinc, _⟩ := increment_live hash m hv hI1 A B pre post n1 hAB
    exact ⟨_, _, erase_at hash equal m a n rest hd A B pre post n1 hAB hf r hinc⟩

/-- With a reflexive predicate every call is defined, except `erase(pos)` at a
position that is neither the end marker nor a node of the container. -/
theorem step_defined [Inhabited V] (hash : K → Nat) (equal : K → K → Bool)
    (m : UnorderedMap K V) (hinv : InvBase hash m) (hrefl : ∀ x, equal x x = true)
    (c : Call K V)
    (hpos : ∀ a, c = Call.erase (some a) → a ∈ m.nodes.map (fun n => n.addr)) :
    ∃ m1, m.step hash equal c = some m1 := by
  have hins : ∀ (k : K) (v : V),
      ∃ m1 a b, m.insert hash equal (k, v) = some (m1, some a, b) := by
    intro k v
    rcases find_cases hash equal m k with ⟨h1, _, _⟩ | ⟨pre, n, post, _, _, _, _, h5⟩
    · obtain ⟨h2, hi, _, _⟩ := insert_miss hash equal m k v hinv.1 hinv.2.1 h1
      exact ⟨_, _, _, hi⟩
    · have hs : m.slotGet (m._find_in equal 0 (m._bucket_val hash (k, v)) k) = some n.addr := h5
      exact ⟨m, n.addr, false, by simp only [insert, hs]⟩
  cases c with
  | insert value =>
    obtain ⟨m1, a, b, hi⟩ := hins value.1 value.2
    exact ⟨m1, by simp only [step, hi, Option.map_some']⟩
  | index key =>
    cases hs : m.slotGet (m._find hash equal key) with
    | some a => exact ⟨m, by simp only [step, index, hs, Option.map_some']⟩
    | none =>
      obtain ⟨m1, a, b, hi⟩ := hins key default
      exact ⟨m1, by simp only [step, index, hs, hi, Option.map_some']⟩
  | erase_key key =>
    rcases find_cases hash equal m key with ⟨_, _, h3⟩ | ⟨pre, n, post, h1, _, _, _, h5⟩
    · have hs : m.slotGet (m._find hash equal key) = none := h3
      exact ⟨m, by simp only [step, erase_key, hs, Option.map_some']⟩
    · have hs : m.slotGet (m._find hash equal key) = some n.addr := h5
      have hlive : n.addr ∈ m.nodes.map (fun n => n.addr) :=
        List.mem_map.2 ⟨n, mem_nodes_of_mem_chain m _ n (by rw [h1]; simp), rfl⟩
      obtain ⟨m1, r, he⟩ := erase_defined hash equal m hinv hrefl n.addr hlive
      exact ⟨m1, by simp only [step, erase_key, hs, h5, he, Option.map_some']⟩
  | erase pos =>
    cases pos with
    | none => exact ⟨m, by simp only [step, erase, Option.map_some']⟩
    | some a =>
      obtain ⟨m1, r, he⟩ := erase_defined hash equal m hinv hrefl a (hpos a rfl)
      exact ⟨m1, by simp only [step, he, Option.map_some']⟩

/-! ## The contracts on the sample container -/

theorem sampleHash_congr : HashCongr sampleHash sampleEqual := by
  intro a b h
  simpa [sampleHash, sampleEqual] using h

theorem sampleEqual_refl : ∀ x, sampleEqual x x = true := by
  intro x
  simp [sampleEqual]

theorem sampleEqual_symm : ∀ a b, sampleEqual a b = true → sampleEqual b a = true := by
  intro a b h
  simp only [sampleEqual, beq_iff_eq] at h ⊢
  exact h.symm

theorem sampleEqual_lawful : LawfulPred sampleEqual where
  refl := sampleEqual_refl
  symm := sampleEqual_symm
  trans := by
    intro a b c h1 h2
    simp only [sampleEqual, beq_iff_eq] at h1 h2 ⊢
    exact h1.trans h2

theorem find_correct_witness :
    I1 sampleHash sampleMap ∧ 0 < sampleMap._bucket_count ∧ HashCongr sampleHash sampleEqual ∧
    ((sampleMap.find sampleHash sampleEqual 0 = sampleMap.end ↔
        ∀ n ∈ sampleMap.nodes, sampleEqual n.key 0 = false) ∧
      (∀ a, sampleMap.find sampleHash sampleEqual 0 = some a →
        ∃ pre n post, sampleMap.chain (sampleHash 0 % sampleMap._bucket_count) =
            pre ++ n :: post ∧
          (∀ x ∈ pre, sampleEqual x.key 0 = false) ∧ sampleEqual n.key 0 = true ∧
          n.addr = a)) :=
  ⟨by decide, by decide, sampleHash_congr,
    find_correct sampleHash sampleEqual sampleMap 0 (by decide) (by decide) sampleHash_congr⟩

theorem insert_new_key_witness :
    Valid sampleMap ∧ 0 < sampleMap._bucket_count ∧ sampleEqual 3 3 = true ∧
    (∀ n ∈ sampleMap.nodes, sampleEqual n.key 3 = false) ∧
    ∃ m1 a, sampleMap.insert sampleHash sampleEqual (3, 30) = some (m1, some a, true) ∧
      m1.size = sampleMap.size + 1 ∧
      m1.find sampleHash sampleEqual 3 = some a ∧
      (m1.deref a).head? = some ⟨a, 3, 30⟩ ∧
      m1.chain (sampleHash 3 % sampleMap._bucket_count) =
        ⟨a, 3, 30⟩ :: sampleMap.chain (sampleHash 3 % sampleMap._bucket_count) ∧
      m1.bucket_count = sampleMap.bucket_count ∧
      ∀ k2, sampleEqual 3 k2 = false →
        m1.find sampleHash sampleEqual k2 = sampleMap.find sampleHash sampleEqual k2 ∧
        ∀ a2, sampleMap.find sampleHash sampleEqual k2 = some a2 →
          m1.deref a2 = sampleMap.deref a2 :=
  ⟨by decide, by decide, by decide, by decide,
    insert_new_key sampleHash sampleEqual sampleMap 3 30 (by decide) (by decide) (by decide)
      (by decide)⟩

theorem insert_equal_key_witness :
    I1 sampleHash sampleMap ∧ 0 < sampleMap._bucket_count ∧ HashCongr sampleHash sampleEqual ∧
    (∃ n ∈ sampleMap.nodes, sampleEqual n.key 7 = true) ∧
    ∃ n ∈ sampleMap.nodes, sampleEqual n.key 7 = true ∧
      sampleMap.insert sampleHash sampleEqual (7, 71) = some (sampleMap, some n.addr, false) ∧
      sampleMap.find sampleHash sampleEqual 7 = some n.addr :=
  ⟨by decide, by decide, sampleHash_congr, by decide,
    insert_equal_key sampleHash sampleEqual sampleMap 7 71 (by decide) (by decide)
      sampleHash_congr (by decide)⟩

theorem traversal_bounded_witness :
    Valid sampleMap ∧ I1 sampleHash sampleMap ∧ I3 sampleMap ∧
    sampleMap._bucket_count ≤ 2147483647 ∧
    sampleMap.traverse sampleHash 3 sampleMap.begin = some [2, 1, 3] :=
  ⟨by decide, by decide, by decide, by decide,
    (traversal_bounded sampleHash sampleMap (by decide) (by decide) (by decide)
      (by decide)).1 3 (by decide)⟩

theorem erase_key_absent_witness :
    (∀ n ∈ sampleMap.nodes, sampleEqual n.key 3 = false) ∧
    sampleMap.erase_key sampleHash sampleEqual 3 = some (sampleMap, 0) :=
  ⟨by decide, erase_key_absent sampleHash sampleEqual sampleMap 3 (by decide)⟩

theorem erase_key_present_witness :
    Valid sampleMap ∧ I1 sampleHash sampleMap ∧ I2 sampleMap ∧ I4 sampleEqual sampleMap ∧
    HashCongr sampleHash sampleEqual ∧ LawfulPred sampleEqual ∧
    (∃ n ∈ sampleMap.nodes, sampleEqual n.key 0 = true) ∧
    ∃ m1 a, sampleMap.find sampleHash sampleEqual 0 = some a ∧
      sampleMap.erase_key sampleHash sampleEqual 0 = some (m1, 1) ∧
      m1.size + 1 = sampleMap.size ∧
      m1.find sampleHash sampleEqual 0 = m1.end ∧
      m1._buckets = sampleMap._buckets.map (fun c => c.filter (fun x => x.addr != a)) ∧
      ∀ k2, sampleEqual 0 k2 = false →
        m1.find sampleHash sampleEqual k2 = sampleMap.find sampleHash sampleEqual k2 ∧
        ∀ a2, sampleMap.find sampleHash sampleEqual k2 = some a2 →
          (m1.deref a2).head? = (sampleMap.deref a2).head? :=
  ⟨by decide, by decide, by decide, by decide, sampleHash_congr, sampleEqual_lawful, by decide,
    erase_key_present sampleHash sampleEqual sampleMap 0 (by decide) (by decide) (by decide)
      (by decide) sampleHash_congr sampleEqual_lawful (by decide)⟩

theorem erase_pos_bounded_witness :
    Valid sampleMap ∧ I1 sampleHash sampleMap ∧ I2 sampleMap ∧ I3 sampleMap ∧
    I4 sampleEqual sampleMap ∧ sampleMap._bucket_count ≤ 2147483647 ∧
    (∀ x, sampleEqual x x = true) ∧
    2 ∈ sampleMap.nodes.map (fun n => n.addr) ∧
    ∃ m1 r pre n post,
      sampleMap.erase sampleHash sampleEqual (some 2) = some (m1, r) ∧
      sampleMap.increment sampleHash (some 2) = some r ∧
      sampleMap.nodes = pre ++ n :: post ∧ n.addr = 2 ∧
      m1.nodes = pre ++ post ∧
      r = post.head?.map (fun x => x.addr) ∧
      m1._buckets = sampleMap._buckets.map (fun c => c.filter (fun x => x.addr != 2)) ∧
      m1.size + 1 = sampleMap.size ∧ m1.bucket_count = sampleMap.bucket_count ∧
      Valid m1 ∧ I1 sampleHash m1 ∧ I2 m1 ∧ I3 m1 ∧ I4 sampleEqual m1 :=
  ⟨by decide, by decide, by decide, by decide, by decide, by decide, sampleEqual_refl,
    by decide,
    erase_pos_bounded sampleHash sampleEqual sampleMap 2 (by decide) (by decide) (by decide)
      (by decide) (by decide) (by decide) sampleEqual_refl (by decide)⟩

theorem index_correct_witness :
    Valid sampleMap ∧ 0 < sampleMap._bucket_count ∧ I1 sampleHash sampleMap ∧
    HashCongr sampleHash sampleEqual ∧ sampleEqual 3 3 = true ∧
    ∃ m1 a b, sampleMap.index sampleHash sampleEqual 3 = some (m1, a) ∧
      sampleMap.insert sampleHash sampleEqual (3, default) = some (m1, some a, b) ∧
      m1.find sampleHash sampleEqual 3 = some a ∧
      ((∀ n ∈ sampleMap.nodes, sampleEqual n.key 3 = false) →
        sampleMap.find sampleHash sampleEqual 3 = sampleMap.end ∧
        m1.size = sampleMap.size + 1 ∧
        (m1.deref a).head? = some ⟨a, 3, default⟩) ∧
      ((∃ n ∈ sampleMap.nodes, sampleEqual n.key 3 = true) →
        m1 = sampleMap ∧ ∃ n ∈ sampleMap.nodes, n.addr = a ∧ sampleEqual n.key 3 = true ∧
          (sampleMap.deref a).head? = some n) :=
  ⟨by decide, by decide, by decide, sampleHash_congr, by decide,
    index_correct sampleHash sampleEqual sampleMap 3 (by decide) (by decide) (by decide)
      sampleHash_congr (by decide)⟩

theorem size_consistent_bounded_witness :
    0 < next_greater_prime 4 ∧ next_greater_prime 4 ≤ 2147483647 ∧
    (construct next_greater_prime 4).run sampleHash sampleEqual sampleCalls = some sampleFinal ∧
    ∃ visited, sampleFinal.traverse sampleHash sampleFinal.size sampleFinal.begin =
        some visited ∧
      sampleFinal.size = visited.length ∧
      visited = sampleFinal._buckets.flatten.map (fun n => n.addr) ∧
      sampleFinal.size = sampleFinal._buckets.flatten.length ∧
      (sampleFinal.empty = true ↔ visited.length = 0) :=
  ⟨by decide, by decide, by decide,
    size_consistent_bounded sampleHash sampleEqual next_greater_prime 4 (by decide) (by decide)
      sampleCalls sampleFinal (by decide)⟩

theorem no_equal_keys_witness :
    0 < next_greater_prime 4 ∧ HashCongr sampleHash sampleEqual ∧
    (∀ a b, sampleEqual a b = true → sampleEqual b a = true) ∧
    (construct next_greater_prime 4).run sampleHash sampleEqual (sampleCalls.take 4) =
      some ⟨5, [[⟨2, 5, 50⟩, ⟨1, 0, 10⟩], [], [⟨3, 7, 0⟩], [], []], some 2, 3⟩ ∧
    ([[⟨2, 5, 50⟩, ⟨1, 0, 10⟩], [], [⟨3, 7, 0⟩], [], []] :
        List (List (HashNode Nat Nat))).flatten.Pairwise
      (fun a b => sampleEqual a.key b.key = false ∧ sampleEqual b.key a.key = false) :=
  ⟨by decide, sampleHash_congr, sampleEqual_symm, by decide,
    no_equal_keys sampleHash sampleEqual next_greater_prime 4 (by decide) sampleHash_congr
      sampleEqual_symm (sampleCalls.take 4)
      ⟨5, [[⟨2, 5, 50⟩, ⟨1, 0, 10⟩], [], [⟨3, 7, 0⟩], [], []], some 2, 3⟩
      (by decide)⟩

/-! ## The head cursor and the bucket placement along call sequences -/

/-- The first entry of the lowest-indexed non-empty bucket among the buckets
from index `A.length` on, in terms of the bucket indices. -/
theorem lowest_spec (m : UnorderedMap K V) (B : List (List (HashNode K V))) :
    ∀ A : List (List (HashNode K V)), m._buckets = A ++ B →
      (lowest B = none → ∀ j, A.length ≤ j → m.chain j = []) ∧
      (∀ x, lowest B = some x →
        ∃ i, A.length ≤ i ∧ i < m._buckets.length ∧ (m.chain i).head? = some x ∧
          ∀ j, A.length ≤ j → j < i → m.chain j = []) := by
  induction B with
  | nil =>
    intro A hA
    refine ⟨fun _ j hj => ?_, fun x hx => by cases hx⟩
    apply chain_eq_nil_of_le
    rw [hA]
    simpa using hj
  | cons c B ih =>
    intro A hA
    have hc : m.chain A.length = c := chain_of_split m A B c hA
    have hlen : A.length < m._buckets.length := by rw [hA]; simp
    obtain ⟨ih1, ih2⟩ := ih (A ++ [c]) (by simp [hA])
    simp only [List.length_append, List.length_singleton] at ih1 ih2
    cases c with
    | nil =>
      simp only [lowest]
      constructor
      · intro h j hj
        rcases Nat.eq_or_lt_of_le hj with e | e
        · rw [← e]; exact hc
        · exact ih1 h j e
      · intro x hx
        obtain ⟨i, h1, h2, h3, h4⟩ := ih2 x hx
        refine ⟨i, by omega, h2, h3, ?_⟩
        intro j hj hji
        rcases Nat.eq_or_lt_of_le hj with e | e
        · rw [← e]; exact hc
        · exact h4 j e hji
    | cons n c =>
      simp only [lowest]
      constructor
      · intro h; cases h
      · intro x hx
        cases hx
        exact ⟨A.length, le_refl _, hlen, by rw [hc]; rfl, fun j h1 h2 => by omega⟩

/-- I3 gives its spelled-out form when the array has `_bucket_count` slots. -/
theorem headLowest_of_I3 (m : UnorderedMap K V) (hlen : m._buckets.length = m._bucket_count)
    (hI3 : I3 m) : HeadLowest m := by
  obtain ⟨h1, h2⟩ := lowest_spec m m._buckets [] rfl
  unfold I3 at hI3
  constructor
  · constructor
    · intro hn i _
      rw [hn] at hI3
      cases hl : lowest m._buckets with
      | none => exact h1 hl i (Nat.zero_le _)
      | some x => rw [hl] at hI3; cases hI3
    · intro hall
      cases hl : lowest m._buckets with
      | none => rw [hI3, hl]; rfl
      | some x =>
        obtain ⟨i, _, hi, hx, _⟩ := h2 x hl
        rw [hall i (hlen ▸ hi)] at hx
        cases hx
  · intro h hh
    rw [hh] at hI3
    cases hl : lowest m._buckets with
    | none => rw [hl] at hI3; cases hI3
    | some x =>
      rw [hl] at hI3
      simp only [Option.map_some', Option.some.injEq] at hI3
      obtain ⟨i, _, hi, hx, hj⟩ := h2 x hl
      exact ⟨i, hlen ▸ hi, by rw [hx, hI3]; rfl, fun j hji => hj j (Nat.zero_le _) hji⟩

/-- With at most `INT_MAX` buckets, erasing the head entry when it has no chain
successor: `_head` becomes the returned position, which is the first entry of
the next non-empty bucket, or null when no bucket after the one of the erased
entry holds an entry. -/
theorem erase_head_last (hash : K → Nat) (equal : K → K → Bool) (m : UnorderedMap K V)
    (hinv : Inv hash m) (hbound : m._bucket_count ≤ 2147483647)
    (hrefl : ∀ x, equal x x = true) (a : Nat) (n : HashNode K V)
    (hh : m._head = some a) (hd : m.deref a = [n]) :
    ∃ m1 r, m.erase hash equal (some a) = some (m1, r) ∧ m1._head = r ∧ HeadLowest m1 ∧
      m1._buckets = m._buckets.map (fun c => c.filter (fun x => x.addr != a)) ∧
      (r = none → ∀ j, m._bucket hash n.key < j → m.chain j = []) ∧
      (∀ h, r = some h →
        ∃ i, m._bucket hash n.key < i ∧ i < m._bucket_count ∧
          (m.chain i).head?.map (fun x => x.addr) = some h ∧
          ∀ j, m._bucket hash n.key < j → j < i → m.chain j = []) := by
  obtain ⟨hv, _, hI1, hI2, hI3⟩ := hinv
  have hhead := (I3_iff m).1 hI3
  rw [hh] at hhead
  cases hnl : m.nodes with
  | nil => rw [hnl] at hhead; cases hhead
  | cons n0 rest0 =>
    rw [hnl] at hhead
    simp only [List.head?_cons, Option.map_some', Option.some.injEq] at hhead
    obtain ⟨A, cpre, cpost, B, e1, e2, _⟩ := flatten_split m._buckets [] n0 rest0 hnl
    have hnil := List.append_eq_nil.1 e2.symm
    rw [hnil.2] at e1
    have hd0 := deref_of_split m A B [] cpost n0 e1 hv.2.1
    rw [← hhead, hd] at hd0
    simp only [List.cons.injEq] at hd0
    obtain ⟨rfl, hcp⟩ := hd0
    subst hcp
    have hlen : A.length < m._buckets.length := by rw [e1]; simp
    have hch : m.chain A.length = [] ++ [n] := chain_of_split m A B _ e1
    have hidx : m._bucket hash n.key = A.length :=
      hI1 A.length hlen n (by rw [hch]; simp)
    have hf : m._find hash equal n.key = ⟨A.length, ([] : List (HashNode K V)).length⟩ := by
      simp only [_find, _find_in, hidx, hch]
      simp [chainScan, hrefl]
    have hat := erase_at hash equal m a n [] hd A B [] [] n e1 hf _
      (increment_spec hash m hv hI1 hbound _ n _ (nodes_of_split m A B [] [] n e1))
    obtain ⟨g1, _, _, g4, _⟩ := erase_state_inv hash m hv hI1 hI2 hI3 A B [] [] n e1 _ rfl
    have hfil := buckets_filter m hv A B [] [] n e1
    have hr : (([] : List (HashNode K V)) ++ B.flatten).head?.map (fun x => x.addr) =
        (lowest B).map (fun x => x.addr) := by
      rw [lowest_eq_head]
      rfl
    obtain ⟨l1, l2⟩ := lowest_spec m B (A ++ [[] ++ [n]]) (by simp [e1])
    simp only [List.length_append, List.length_singleton] at l1 l2
    refine ⟨_, _, hat, ?_, headLowest_of_I3 _ g1.1 g4, ?_, ?_, ?_⟩
    · simp [hh, hhead]
    · rw [hhead]
      exact hfil
    · intro hnone j hj
      rw [hr] at hnone
      cases hl : lowest B with
      | none => exact l1 hl j (by omega)
      | some x => rw [hl] at hnone; cases hnone
    · intro h hsome
      rw [hr] at hsome
      cases hl : lowest B with
      | none => rw [hl] at hsome; cases hsome
      | some x =>
        rw [hl] at hsome
        simp only [Option.map_some', Option.some.injEq] at hsome
        obtain ⟨i, h1, h2, h3, h4⟩ := l2 x hl
        refine ⟨i, by omega, hv.1 ▸ h2, by rw [h3, ← hsome]; rfl, ?_⟩
        intro j hj hji
        exact h4 j (by omega) hji

/-- With at most `INT_MAX` buckets: after any defined sequence of `insert`,
`operator[]`, `erase(key)` and `erase(iterator)` calls on a freshly constructed
container, `_head` is null exactly when every bucket is empty and otherwise is
the first entry of the lowest-indexed non-empty bucket.  With a reflexive
predicate, erasing the head entry when it has no chain successor moves `_head`
to the first entry of the next non-empty bucket, or to null when no later
bucket holds an entry, and the invariant holds again. -/
theorem head_cursor_bounded [Inhabited V] (hash : K → Nat) (equal : K → K → Bool)
    (next_greater_prime : Nat → Nat) (bucket_count : Nat)
    (hpos : 0 < next_greater_prime bucket_count)
    (hbound : next_greater_prime bucket_count ≤ 2147483647) (calls : List (Call K V))
    (m : UnorderedMap K V)
    (hrun : (construct next_greater_prime bucket_count).run hash equal calls = some m) :
    HeadLowest m ∧
    ((∀ x, equal x x = true) → ∀ a n, m._head = some a → m.deref a = [n] →
      ∃ m1 r, m.erase hash equal (some a) = some (m1, r) ∧ m1._head = r ∧ HeadLowest m1 ∧
        m1._buckets = m._buckets.map (fun c => c.filter (fun x => x.addr != a)) ∧
        (r = none → ∀ j, m._bucket hash n.key < j → m.chain j = []) ∧
        (∀ h, r = some h →
          ∃ i, m._bucket hash n.key < i ∧ i < m._bucket_count ∧
            (m.chain i).head?.map (fun x => x.addr) = some h ∧
            ∀ j, m._bucket hash n.key < j → j < i → m.chain j = [])) := by
  obtain ⟨hinv, hbc⟩ :=
    run_inv hash equal calls _ m (construct_inv hash equal _ _ hpos).1 hbound hrun
  refine ⟨headLowest_of_I3 m hinv.1.1 hinv.2.2.2.2, ?_⟩
  intro hrefl a n hh hd
  exact erase_head_last hash equal m hinv (by rw [hbc]; exact hbound) hrefl a n hh hd

/-- C18: after any defined sequence of `insert`, `operator[]`, `erase(key)` and
`erase(iterator)` calls on a freshly constructed container, every entry
reachable from the bucket slot `i` has `hash(key) mod bucket_count = i`, and the
bucket count is the one the constructor set. -/
theorem bucket_placement_kept [Inhabited V] (hash : K → Nat) (equal : K → K → Bool)
    (next_greater_prime : Nat → Nat) (bucket_count : Nat)
    (hpos : 0 < next_greater_prime bucket_count) (calls : List (Call K V))
    (m : UnorderedMap K V)
    (hrun : (construct next_greater_prime bucket_count).run hash equal calls = some m) :
    (∀ i, i < m.bucket_count → ∀ n ∈ m.chain i, hash n.key % m.bucket_count = i) ∧
    m.bucket_count = next_greater_prime bucket_count ∧
    m._buckets.length = m.bucket_count := by
  obtain ⟨hinv, hbc⟩ :=
    run_base hash equal calls _ m
      (inv_base hash _ (construct_inv hash equal _ _ hpos).1) hrun
  refine ⟨?_, hbc, hinv.1.1⟩
  intro i hi n hn
  have hlen : m._buckets.length = m._bucket_count := hinv.1.1
  exact hinv.2.2.1 i (by rw [hlen]; exact hi) n hn

/-! ## Move, clear and self-assignment -/

theorem getD_replicate_nil {α : Type} (n i : Nat) :
    (List.replicate n ([] : List α)).getD i [] = [] := by
  induction n generalizing i with
  | zero => rfl
  | succ n ih =>
    cases i with
    | zero => rfl
    | succ i => simp [List.replicate_succ]

/-- The source of a move is left with no node: every chain is empty. -/
theorem chain_moved_from (src : UnorderedMap K V) (i : Nat) :
    (_move_content src).1.chain i = [] :=
  getD_replicate_nil _ i

/-- C11: move-constructing `B` from `A` gives `B` the size, bucket count,
chains and head `A` had, hence the same traversal, and leaves `A` a valid empty
container with size 0, null head, the same bucket count and every bucket
empty; an `insert((k, v))` into it then reports `true` and `find(k)` yields
`(k, v)`. -/
theorem move_construct_correct (hash : K → Nat) (equal : K → K → Bool) (A : UnorderedMap K V)
    (hbc : 0 < A._bucket_count) :
    (move_construct A).2.size = A.size ∧
    (move_construct A).2.bucket_count = A.bucket_count ∧
    (move_construct A).2._buckets = A._buckets ∧
    (move_construct A).2._head = A._head ∧
    (∀ fuel, (move_construct A).2.traverse hash fuel (move_construct A).2.begin =
      A.traverse hash fuel A.begin) ∧
    (move_construct A).1.size = 0 ∧
    (move_construct A).1._head = none ∧
    (move_construct A).1.bucket_count = A.bucket_count ∧
    (∀ n, (move_construct A).1.bucket_size n = 0) ∧
    Inv hash (move_construct A).1 ∧ I4 equal (move_construct A).1 ∧
    ∀ k v, equal k k = true →
      ∃ m1 a, (move_construct A).1.insert hash equal (k, v) = some (m1, some a, true) ∧
        m1.find hash equal k = some a ∧ m1.value_at (some a) = some (k, v) := by
  have hc := construct_inv (V := V) hash equal (fun _ => A._bucket_count) 0 hbc
  have he : (move_construct A).1 = construct (fun _ => A._bucket_count) 0 := rfl
  refine ⟨rfl, rfl, rfl, rfl, fun _ => rfl, rfl, rfl, rfl, ?_, he ▸ hc.1, he ▸ hc.2, ?_⟩
  · intro n
    simp only [bucket_size, move_construct, chain_moved_from, local_count]
  · intro k v hrefl
    have hinv : Inv hash (move_construct A).1 := he ▸ hc.1
    have hmiss : ∀ n ∈ (move_construct A).1.chain ((move_construct A).1._bucket hash k),
        equal n.key k = false := by
      intro n hn
      rw [move_construct, chain_moved_from] at hn
      cases hn
    obtain ⟨h2, hins, _, _⟩ :=
      insert_miss hash equal (move_construct A).1 k v hinv.1 hinv.2.1 hmiss
    have hb : (move_construct A).1._bucket hash k < (move_construct A).1._buckets.length := by
      rw [hinv.1.1]
      exact Nat.mod_lt _ hinv.2.1
    obtain ⟨f1, f2, _, _⟩ :=
      insert_miss_facts hash equal (move_construct A).1 k v (some h2) hb hrefl _ rfl
    refine ⟨_, _, hins, f1, ?_⟩
    simp only [value_at, f2, Option.map_some']

/-- C16: `clear()` on the sample container sets the size to 0 and the head to
null but does not write the bucket slots: `_buckets` is what it was, the slots
0 and 2 still hold the addresses of the deleted nodes, so not every bucket slot
is empty. -/
theorem clear_keeps_slots :
    (sampleMap.clear).size = 0 ∧ (sampleMap.clear)._head = none ∧
    (sampleMap.clear).bucket_count = sampleMap.bucket_count ∧
    (sampleMap.clear)._buckets = sampleMap._buckets ∧
    (sampleMap.clear).slotGet ⟨0, 0⟩ = some 2 ∧
    (sampleMap.clear).slotGet ⟨2, 0⟩ = some 3 ∧
    ¬ (∀ n, n < (sampleMap.clear).bucket_count → (sampleMap.clear).slotGet ⟨n, 0⟩ = none) := by
  refine ⟨by decide, by decide, by decide, by decide, by decide, by decide, ?_⟩
  intro h
  exact absurd (h 0 (by decide)) (by decide)

/-- C13: the self-assignment `m = m` of the sample container, which holds three
entries, leaves it with size 0 and every bucket empty: the guard does not
return, `clear()` deletes the entries and the loop then starts at a null
`cbegin()`. -/
theorem self_assign_empties :
    ∀ fuel, copy_assign sampleHash sampleEqual sampleMap none fuel =
      some ⟨5, [[], [], [], [], []], none, 0⟩ := by
  intro fuel
  cases fuel <;> rfl

/-! ## Copy construction -/

/-- What `find` returns and dereferences to, in terms of all stored nodes. -/
theorem find_global_cases (hash : K → Nat) (equal : K → K → Bool) (m : UnorderedMap K V)
    (k : K) (hv : Valid m) (hI1 : I1 hash m) (hc : HashCongr hash equal) :
    (m.find hash equal k = none ∧ ∀ n ∈ m.nodes, equal n.key k = false) ∨
    ∃ n ∈ m.nodes, equal n.key k = true ∧ m.find hash equal k = some n.addr ∧
      m.value_at (some n.addr) = some (n.key, n.val) := by
  rcases find_cases hash equal m k with ⟨h1, _, h3⟩ | ⟨pre, n, post, h1, _, _, h4, h5⟩
  · left
    refine ⟨h3, fun n hn => ?_⟩
    cases hq : equal n.key k with
    | false => rfl
    | true =>
      have := h1 n (mem_chain_of_equal hash equal m hI1 hc k n hn hq)
      rw [hq] at this
      cases this
  · right
    have hn : n ∈ m.nodes := mem_nodes_of_mem_chain m _ n (by rw [h1]; simp)
    refine ⟨n, hn, h4, h5, ?_⟩
    simp only [value_at, deref_of_mem m hv n hn, Option.map_some']

/-- Under I4 and an equivalence predicate two stored nodes whose keys both
equal `k` are the same node. -/
theorem I4_unique (equal : K → K → Bool) (m : UnorderedMap K V) (hI4 : I4 equal m)
    (hp : LawfulPred equal) (k : K) (x y : HashNode K V) (hx : x ∈ m.nodes) (hy : y ∈ m.nodes)
    (hxk : equal x.key k = true) (hyk : equal y.key k = true) : x = y := by
  by_contra hne
  have hsym : Symmetric (fun (a b : HashNode K V) =>
      equal a.key b.key = false ∧ equal b.key a.key = false) := fun a b h => ⟨h.2, h.1⟩
  have := (List.Pairwise.forall hsym hI4 hx hy hne).1
  rw [hp.trans _ _ _ hxk (hp.symm _ _ hyk)] at this
  cases this

/-- Two containers that store the same key/value pairs answer `find` alike. -/
theorem find_value_perm (hash : K → Nat) (equal : K → K → Bool) (c o : UnorderedMap K V)
    (hvc : Valid c) (hvo : Valid o) (hIc : I1 hash c) (hIo : I1 hash o) (hI4 : I4 equal o)
    (hc : HashCongr hash equal) (hp : LawfulPred equal)
    (hperm : (c.nodes.map (fun n => (n.key, n.val))).Perm
      (o.nodes.map (fun n => (n.key, n.val)))) (k : K) :
    c.value_at (c.find hash equal k) = o.value_at (o.find hash equal k) ∧
    (c.find hash equal k = none ↔ o.find hash equal k = none) := by
  have hto : ∀ x ∈ c.nodes, ∃ y ∈ o.nodes, (y.key, y.val) = (x.key, x.val) := by
    intro x hx
    have : (x.key, x.val) ∈ o.nodes.map (fun n => (n.key, n.val)) :=
      hperm.subset (List.mem_map.2 ⟨x, hx, rfl⟩)
    obtain ⟨y, hy, e⟩ := List.mem_map.1 this
    exact ⟨y, hy, e⟩
  have hfrom : ∀ y ∈ o.nodes, ∃ x ∈ c.nodes, (x.key, x.val) = (y.key, y.val) := by
    intro y hy
    have : (y.key, y.val) ∈ c.nodes.map (fun n => (n.key, n.val)) :=
      hperm.symm.subset (List.mem_map.2 ⟨y, hy, rfl⟩)
    obtain ⟨x, hx, e⟩ := List.mem_map.1 this
    exact ⟨x, hx, e⟩
  rcases find_global_cases hash equal c k hvc hIc hc with ⟨c1, c2⟩ | ⟨x, hx, hxk, c1, c2⟩ <;>
  rcases find_global_cases hash equal o k hvo hIo hc with ⟨o1, o2⟩ | ⟨n, hn, hnk, o1, o2⟩
  · rw [c1, o1]
    exact ⟨rfl, Iff.rfl⟩
  · obtain ⟨x, hx, e⟩ := hfrom n hn
    have hk : x.key = n.key := congrArg Prod.fst e
    have := c2 x hx
    rw [hk, hnk] at this
    cases this
  · obtain ⟨y, hy, e⟩ := hto x hx
    have hk : y.key = x.key := congrArg Prod.fst e
    have := o2 y hy
    rw [hk, hxk] at this
    cases this
  · obtain ⟨y, hy, e⟩ := hto x hx
    have hk : y.key = x.key := congrArg Prod.fst e
    have hyn : y = n := I4_unique equal o hI4 hp k y n hy hn (hk ▸ hxk) hnk
    rw [c1, o1, c2, o2, ← hyn, e]
    exact ⟨rfl, by simp⟩

/-- The copy loop from a node of an `other` with at most `INT_MAX` buckets on:
every remaining node is inserted, so the container being filled ends with the
key/value pairs of `other`. -/
theorem copy_loop_spec (hash : K → Nat) (equal : K → K → Bool) (other : UnorderedMap K V)
    (hv : Valid other) (hI1 : I1 hash other) (hI4 : I4 equal other)
    (hbound : other._bucket_count ≤ 2147483647) (post : List (HashNode K V)) :
    ∀ (pre : List (HashNode K V)) (fuel : Nat) (c : UnorderedMap K V),
      other.nodes = pre ++ post → post.length ≤ fuel → Inv hash c →
      (c.nodes.map (fun n => (n.key, n.val))).Perm (pre.map (fun n => (n.key, n.val))) →
      ∃ c1, copy_loop hash equal (some other) fuel (post.head?.map (fun x => x.addr)) c =
          some c1 ∧
        Inv hash c1 ∧ c1._bucket_count = c._bucket_count ∧
        (c1.nodes.map (fun n => (n.key, n.val))).Perm
          (other.nodes.map (fun n => (n.key, n.val))) := by
  induction post with
  | nil =>
    intro pre fuel c hn _ hinv hperm
    refine ⟨c, ?_, hinv, rfl, ?_⟩
    · cases fuel <;> rfl
    · rw [hn, List.append_nil]
      exact hperm
  | cons n post ih =>
    intro pre fuel c hn hf hinv hperm
    cases fuel with
    | zero => simp at hf
    | succ fuel =>
      obtain ⟨A, cpre, cpost, B, e1, _, _⟩ := flatten_split other._buckets pre n post hn
      have hd := deref_of_split other A B cpre cpost n e1 hv.2.1
      have hinc := increment_spec hash other hv hI1 hbound pre n post hn
      have hpre := (I4_around equal other hI4 pre n post hn).1
      have hmiss : ∀ x ∈ c.chain (c._bucket hash n.key), equal x.key n.key = false := by
        intro x hx
        have hxm : (x.key, x.val) ∈ pre.map (fun n => (n.key, n.val)) :=
          hperm.subset (List.mem_map.2 ⟨x, mem_nodes_of_mem_chain c _ x hx, rfl⟩)
        obtain ⟨y, hy, e⟩ := List.mem_map.1 hxm
        have hk : y.key = x.key := congrArg Prod.fst e
        rw [← hk]
        exact (hpre y hy).1
      obtain ⟨h2, hins, hh1, hh2⟩ := insert_miss hash equal c n.key n.val hinv.1 hinv.2.1 hmiss
      obtain ⟨g1, g2, g3, g4, P, Q, g5, g6⟩ :=
        insert_state_inv hash c n.key n.val h2 hinv.1 hinv.2.1 hinv.2.2.1 hinv.2.2.2.1
          hinv.2.2.2.2 hh1 hh2 _ rfl
      have hperm1 : ((UnorderedMap.mk c._bucket_count
          (c._buckets.set (c._bucket hash n.key)
            (⟨c.fresh, n.key, n.val⟩ :: c.chain (c._bucket hash n.key)))
          (some h2) (c._size + 1)).nodes.map (fun n => (n.key, n.val))).Perm
          ((pre ++ [n]).map (fun n => (n.key, n.val))) := by
        rw [g6, List.map_append, List.map_cons, List.map_append, List.map_singleton]
        refine List.perm_middle.trans ?_
        refine (List.Perm.cons _ ?_).trans (List.perm_append_singleton _ _).symm
        rw [← List.map_append, ← g5]
        exact hperm
      obtain ⟨c1, k1, k2, k3, k4⟩ := ih (pre ++ [n]) fuel _ (by simp [hn])
        (by simpa using hf) ⟨g1, hinv.2.1, g2, g3, g4⟩ hperm1
      refine ⟨c1, ?_, k2, k3, k4⟩
      simp only [List.head?_cons, Option.map_some', copy_loop, Option.getD_some, hd, hins, hinc]
      exact k1

/-- The copy constructor, run on a well-formed source with at most `INT_MAX`
buckets, ends (any fuel from the number of nodes on is enough) with a container
that has the bucket count and the size of the source, answers `find(k)` with
the same key/value pair as the source for every key (the end marker exactly
when the source gives it), and is well-formed: valid, with I1, I2, I3 (head at
the first entry of the lowest-indexed non-empty bucket) and I4. -/
theorem copy_construct_bounded (hash : K → Nat) (equal : K → K → Bool)
    (other : UnorderedMap K V) (hv : Valid other) (hbc : 0 < other._bucket_count)
    (hbound : other._bucket_count ≤ 2147483647)
    (hI1 : I1 hash other) (hI2 : I2 other) (hI3 : I3 other) (hI4 : I4 equal other)
    (hc : HashCongr hash equal) (hp : LawfulPred equal) (fuel : Nat)
    (hfuel : other.nodes.length ≤ fuel) :
    ∃ c, copy_construct hash equal other fuel = some c ∧
      c.bucket_count = other.bucket_count ∧ c.size = other.size ∧
      (∀ k, c.value_at (c.find hash equal k) = other.value_at (other.find hash equal k) ∧
        (c.find hash equal k = c.end ↔ other.find hash equal k = other.end)) ∧
      Valid c ∧ I1 hash c ∧ I2 c ∧ I3 c ∧ HeadLowest c ∧ I4 equal c := by
  have h0 := construct_inv (V := V) hash equal (fun _ => other._bucket_count) 0 hbc
  have hn0 : (construct (fun _ => other._bucket_count) 0 : UnorderedMap K V).nodes = [] :=
    flatten_replicate_nil _
  have hbegin : other.cbegin = other.nodes.head?.map (fun x => x.addr) := (I3_iff other).1 hI3
  obtain ⟨c, k1, k2, k3, k4⟩ := copy_loop_spec hash equal other hv hI1 hI4 hbound other.nodes []
    fuel (construct (fun _ => other._bucket_count) 0) rfl hfuel h0.1 (by rw [hn0])
  rw [← hbegin] at k1
  have hlen : c.nodes.length = other.nodes.length := by
    have := k4.length_eq
    simpa using this
  have hI4c : I4 equal c := by
    unfold I4 at hI4 ⊢
    have hsym : Symmetric (fun (a b : K × V) =>
        equal a.1 b.1 = false ∧ equal b.1 a.1 = false) := fun a b h => ⟨h.2, h.1⟩
    have h1 : (other.nodes.map (fun n => (n.key, n.val))).Pairwise
        (fun a b => equal a.1 b.1 = false ∧ equal b.1 a.1 = false) :=
      List.pairwise_map.2 hI4
    exact List.pairwise_map.1 ((k4.pairwise_iff (fun {a b} h => hsym h)).2 h1)
  refine ⟨c, k1, k3, ?_, ?_, k2.1, k2.2.2.1, k2.2.2.2.1, k2.2.2.2.2,
    headLowest_of_I3 c k2.1.1 k2.2.2.2.2, hI4c⟩
  · have h1 : c.size = c.nodes.length := k2.2.2.2.1
    have h2 : other.size = other.nodes.length := hI2
    rw [h1, h2, hlen]
  · intro k
    exact find_value_perm hash equal c other k2.1 hv k2.2.2.1 hI1 hI4 hc hp k4 k

/-! ## The example scenario -/

/-- The three insertions of the scenario: "a", "f", "k" into the empty
container with 5 buckets, under a hash with codes 0, 0, 2 modulo 5. -/
theorem scenario_inserts (hash : String → Nat) (va vf vk : V)
    (ha : hash "a" % 5 = 0) (hf : hash "f" % 5 = 0) (hk : hash "k" % 5 = 2) :
    (scenarioEmpty : UnorderedMap String V).insert hash scenarioEqual ("a", va) =
      some (⟨5, [[⟨1, "a", va⟩], [], [], [], []], some 1, 1⟩, some 1, true) ∧
    (UnorderedMap.mk 5 [[⟨1, "a", va⟩], [], [], [], []] (some 1) 1).insert hash scenarioEqual
        ("f", vf) =
      some (⟨5, [[⟨2, "f", vf⟩, ⟨1, "a", va⟩], [], [], [], []], some 2, 2⟩, some 2, true) ∧
    (UnorderedMap.mk 5 [[⟨2, "f", vf⟩, ⟨1, "a", va⟩], [], [], [], []] (some 2) 2).insert hash
        scenarioEqual ("k", vk) =
      some (⟨5, [[⟨2, "f", vf⟩, ⟨1, "a", va⟩], [], [⟨3, "k", vk⟩], [], []], some 2, 3⟩,
        some 3, true) := by
  refine ⟨?_, ?_, ?_⟩
  · simp [insert, _bucket_val, _bucket, _bucket_code, _find_in, chain, chainScan, slotGet,
      _insert_into_bucket, fresh, scenarioEmpty, ha, deref, cellAt, suffixAt]
  · simp [insert, _bucket_val, _bucket, _bucket_code, _find_in, chain, chainScan, slotGet,
      _insert_into_bucket, fresh, hf, ha, deref, cellAt, suffixAt, scenarioEqual]
  · simp [insert, _bucket_val, _bucket, _bucket_code, _find_in, chain, chainScan, slotGet,
      _insert_into_bucket, fresh, hf, ha, hk, deref, cellAt, suffixAt, scenarioEqual]

/-- The traversal and the erasure of "f" in the container of the scenario. -/
theorem scenario_state (hash : String → Nat) (va vf vk : V)
    (ha : hash "a" % 5 = 0) (hf : hash "f" % 5 = 0) (hk : hash "k" % 5 = 2) :
    (UnorderedMap.mk 5 [[⟨2, "f", vf⟩, ⟨1, "a", va⟩], [], [⟨3, "k", vk⟩], [], []] (some 2)
        3).traverse hash 3 (some 2) = some [2, 1, 3] ∧
    (UnorderedMap.mk 5 [[⟨2, "f", vf⟩, ⟨1, "a", va⟩], [], [⟨3, "k", vk⟩], [], []] (some 2)
        3).erase_key hash scenarioEqual "f" =
      some (⟨5, [[⟨1, "a", va⟩], [], [⟨3, "k", vk⟩], [], []], some 1, 2⟩, 1) ∧
    (UnorderedMap.mk 5 [[⟨1, "a", va⟩], [], [⟨3, "k", vk⟩], [], []] (some 1) 2).find hash
        scenarioEqual "a" = some 1 ∧
    (UnorderedMap.mk 5 [[⟨1, "a", va⟩], [], [⟨3, "k", vk⟩], [], []] (some 1) 2).find hash
        scenarioEqual "k" = some 3 ∧
    (UnorderedMap.mk 5 [[⟨1, "a", va⟩], [], [⟨3, "k", vk⟩], [], []] (some 1) 2).find hash
        scenarioEqual "f" = none := by
  have hv : Valid (UnorderedMap.mk 5 [[⟨2, "f", vf⟩, ⟨1, "a", va⟩], [], [⟨3, "k", vk⟩], [], []]
      (some 2) 3) := by
    simp [Valid, nodes]
  have hI1 : I1 hash (UnorderedMap.mk 5 [[⟨2, "f", vf⟩, ⟨1, "a", va⟩], [], [⟨3, "k", vk⟩],
      [], []] (some 2) 3) := by
    intro i hi n hn
    simp only [List.length_cons, List.length_nil] at hi
    interval_cases i <;> simp [chain] at hn
    · rcases hn with rfl | rfl
      · simp [_bucket, _bucket_code, hf]
      · simp [_bucket, _bucket_code, ha]
    · rw [hn]
      simp [_bucket, _bucket_code, hk]
  have hinc2 : (UnorderedMap.mk 5 [[⟨2, "f", vf⟩, ⟨1, "a", va⟩], [], [⟨3, "k", vk⟩], [], []]
      (some 2) 3).increment hash (some 2) = some (some 1) :=
    increment_spec hash _ hv hI1 (by show 5 ≤ 2147483647; decide) [] ⟨2, "f", vf⟩ [⟨1, "a", va⟩, ⟨3, "k", vk⟩] rfl
  have hinc1 : (UnorderedMap.mk 5 [[⟨2, "f", vf⟩, ⟨1, "a", va⟩], [], [⟨3, "k", vk⟩], [], []]
      (some 2) 3).increment hash (some 1) = some (some 3) :=
    increment_spec hash _ hv hI1 (by show 5 ≤ 2147483647; decide) [⟨2, "f", vf⟩] ⟨1, "a", va⟩ [⟨3, "k", vk⟩] rfl
  have hinc3 : (UnorderedMap.mk 5 [[⟨2, "f", vf⟩, ⟨1, "a", va⟩], [], [⟨3, "k", vk⟩], [], []]
      (some 2) 3).increment hash (some 3) = some none :=
    increment_spec hash _ hv hI1 (by show 5 ≤ 2147483647; decide) [⟨2, "f", vf⟩, ⟨1, "a", va⟩] ⟨3, "k", vk⟩ [] rfl
  refine ⟨?_, ?_, ?_, ?_, ?_⟩
  · simp [traverse, hinc2, hinc1, hinc3]
  · simp [erase_key, erase, find, _find, _find_in, slotGet, hinc2, deref, cellAt, suffixAt,
      _bucket, _bucket_code, chain, chainScan, scenarioEqual, ha, hf, hk]
  · simp [find, _find, _find_in, slotGet, _bucket, _bucket_code, chain, chainScan,
      scenarioEqual, ha]
  · simp [find, _find, _find_in, slotGet, _bucket, _bucket_code, chain, chainScan,
      scenarioEqual, hk]
  · simp [find, _find, _find_in, slotGet, _bucket, _bucket_code, chain, chainScan,
      scenarioEqual, hf]

/-- C14: in the empty container with 5 buckets, under a hash with the codes of
"a", "f", "k" congruent to 0, 0, 2 modulo 5, inserting "a", "f", "k" in that
order gives `bucket_size(0) == 2`, `bucket_size(2) == 1`, `size() == 3` and a
global iteration that visits the two entries of bucket 0 before the entry "k"
of bucket 2; `erase("f")` then returns 1 and leaves `bucket_size(0) == 1`,
`find("a")` and `find("k")` at their entries with their values, and `find("f")`
at the end marker. -/
theorem scenario_correct (hash : String → Nat) (va vf vk : V)
    (ha : hash "a" % 5 = 0) (hf : hash "f" % 5 = 0) (hk : hash "k" % 5 = 2) :
    ∃ m1 m2 m3 m4 pa pf pk,
      (scenarioEmpty : UnorderedMap String V).insert hash scenarioEqual ("a", va) =
        some (m1, some pa, true) ∧
      m1.insert hash scenarioEqual ("f", vf) = some (m2, some pf, true) ∧
      m2.insert hash scenarioEqual ("k", vk) = some (m3, some pk, true) ∧
      m3.bucket_size 0 = 2 ∧ m3.bucket_size 2 = 1 ∧ m3.size = 3 ∧
      m3.traverse hash 3 m3.begin = some [pf, pa, pk] ∧
      m3.erase_key hash scenarioEqual "f" = some (m4, 1) ∧
      m4.bucket_size 0 = 1 ∧
      m4.find hash scenarioEqual "a" = some pa ∧ m4.value_at (some pa) = some ("a", va) ∧
      m4.find hash scenarioEqual "k" = some pk ∧ m4.value_at (some pk) = some ("k", vk) ∧
      m4.find hash scenarioEqual "f" = m4.end := by
  obtain ⟨i1, i2, i3⟩ := scenario_inserts hash va vf vk ha hf hk
  obtain ⟨t1, t2, t3, t4, t5⟩ := scenario_state hash va vf vk ha hf hk
  exact ⟨_, _, _, _, 1, 2, 3, i1, i2, i3, rfl, rfl, rfl, t1, t2, rfl, t3, rfl, t4, rfl, t5⟩

/-- C15: in the scenario (empty container with 5 buckets; the codes of "a",
"f", "k" congruent to 0, 0, 2 modulo 5; inserted in that order) the global
iteration from `begin()` to `end()` visits the keys "f", "a", "k": the two
entries of bucket 0 in the reverse of the insertion order, then the entry of
bucket 2. -/
theorem scenario_order (hash : String → Nat) (va vf vk : V)
    (ha : hash "a" % 5 = 0) (hf : hash "f" % 5 = 0) (hk : hash "k" % 5 = 2) :
    scenarioKeys hash va vf vk = some ["f", "a", "k"] := by
  obtain ⟨i1, i2, i3⟩ := scenario_inserts hash va vf vk ha hf hk
  obtain ⟨t1, _, _, _, _⟩ := scenario_state hash va vf vk ha hf hk
  have hb : (UnorderedMap.mk 5 [[⟨2, "f", vf⟩, ⟨1, "a", va⟩], [], [⟨3, "k", vk⟩], [], []]
      (some 2) 3).begin = some 2 := rfl
  simp only [scenarioKeys, scenarioMap, i1, i2, i3, traverse_values, hb, t1]
  rfl

theorem scenario_order_witness :
    scenarioHash "a" % 5 = 0 ∧ scenarioHash "f" % 5 = 0 ∧ scenarioHash "k" % 5 = 2 ∧
    scenarioKeys scenarioHash 10 20 30 = some ["f", "a", "k"] :=
  ⟨by decide, by decide, by decide,
    scenario_order scenarioHash 10 20 30 (by decide) (by decide) (by decide)⟩

/-- With the hash `scenarioHash`, whose codes for "a", "f", "k" are 0, 5, 2, the
keys visited in the scenario are not "a", "f", "k". -/
theorem insertion_order_refuted :
    scenarioHash "a" % 5 = 0 ∧ scenarioHash "f" % 5 = 0 ∧ scenarioHash "k" % 5 = 2 ∧
    scenarioKeys scenarioHash 1 2 3 ≠ some ["a", "f", "k"] := by
  decide

theorem scenario_correct_witness :
    scenarioHash "a" % 5 = 0 ∧ scenarioHash "f" % 5 = 0 ∧ scenarioHash "k" % 5 = 2 ∧
    ∃ m1 m2 m3 m4 pa pf pk,
      (scenarioEmpty : UnorderedMap String Nat).insert scenarioHash scenarioEqual ("a", 1) =
        some (m1, some pa, true) ∧
      m1.insert scenarioHash scenarioEqual ("f", 2) = some (m2, some pf, true) ∧
      m2.insert scenarioHash scenarioEqual ("k", 3) = some (m3, some pk, true) ∧
      m3.bucket_size 0 = 2 ∧ m3.bucket_size 2 = 1 ∧ m3.size = 3 ∧
      m3.traverse scenarioHash 3 m3.begin = some [pf, pa, pk] ∧
      m3.erase_key scenarioHash scenarioEqual "f" = some (m4, 1) ∧
      m4.bucket_size 0 = 1 ∧
      m4.find scenarioHash scenarioEqual "a" = some pa ∧
      m4.value_at (some pa) = some ("a", 1) ∧
      m4.find scenarioHash scenarioEqual "k" = some pk ∧
      m4.value_at (some pk) = some ("k", 3) ∧
      m4.find scenarioHash scenarioEqual "f" = m4.end :=
  ⟨by decide, by decide, by decide,
    scenario_correct scenarioHash 1 2 3 (by decide) (by decide) (by decide)⟩

/-! ## The hash functions -/

theorem char_to_size_t_ascii (c : Nat) (hc : c < 128) : char_to_size_t c = c := by
  simp [char_to_size_t, hc]

/-- The running base power is `19 ^ i mod 3298534883309`, and multiplying it by
19 stays below `2 ^ 64`. -/
theorem base_power_eq (i : Nat) :
    base_power i = 19 ^ i % 3298534883309 ∧ base_power i * 19 < 2 ^ 64 := by
  induction i with
  | zero => exact ⟨by decide, by decide⟩
  | succ i ih =>
    have hlt : base_power (i + 1) < 3298534883309 := Nat.mod_lt _ (by decide)
    refine ⟨?_, by omega⟩
    simp only [base_power]
    rw [Nat.mod_eq_of_lt ih.2, ih.1, pow_succ, Nat.mod_mul_mod]

theorem sum_range_shift (f : Nat → Nat) (n : Nat) :
    ((List.range (n + 1)).map f).sum = f 0 + ((List.range n).map (fun i => f (i + 1))).sum := by
  rw [List.range_succ_eq_map, List.map_cons, List.sum_cons, List.map_map]
  rfl

/-- The loop from round `i` on, with the accumulated code `hash`. -/
theorem polynomial_loop_eq (s : List Nat) :
    ∀ (hash i : Nat), hash < 2 ^ 64 → (∀ c ∈ s, c < 128) →
      polynomial_loop s hash (base_power i) =
        (hash + ((List.range s.length).map
          (fun j => s.getD j 0 * (19 ^ (i + j) % 3298534883309))).sum) % 2 ^ 64 := by
  induction s with
  | nil =>
    intro hash i hh _
    simp only [polynomial_loop, List.length_nil, List.range_zero, List.map_nil, List.sum_nil,
      Nat.add_zero]
    exact (Nat.mod_eq_of_lt hh).symm
  | cons c rest ih =>
    intro hash i _ hs
    have hc : c < 128 := hs c (by simp)
    have hrest : ∀ x ∈ rest, x < 128 := fun x hx => hs x (List.mem_cons_of_mem _ hx)
    have hstep : polynomial_loop (c :: rest) hash (base_power i) =
        polynomial_loop rest ((hash + (c * base_power i) % 2 ^ 64) % 2 ^ 64)
          (base_power (i + 1)) := by
      simp only [polynomial_loop, char_to_size_t_ascii c hc, base_power]
    rw [hstep, List.length_cons, sum_range_shift]
    simp only [List.getD_cons_zero, List.getD_cons_succ, Nat.add_zero]
    rw [ih ((hash + (c * base_power i) % 2 ^ 64) % 2 ^ 64) (i + 1)
      (Nat.mod_lt _ (by decide)) hrest, (base_power_eq i).1]
    have e : ∀ j, i + 1 + j = i + (j + 1) := fun j => by omega
    simp only [e]
    omega

/-- C19: on a string of bytes below 128 `polynomial_rolling_hash` is the sum
over `i < |s|` of `s[i] * (19 ^ i mod 3298534883309)`, modulo `2 ^ 64`; the
running base power is `19 ^ i mod 3298534883309` in every round because its
product with 19 stays below `2 ^ 64`; the empty string hashes to 0. -/
theorem polynomial_rolling_hash_correct (s : List Nat) (hs : ∀ c ∈ s, c < 128) :
    polynomial_rolling_hash s = polynomial_sum s ∧
    (∀ i, base_power i = 19 ^ i % 3298534883309 ∧ base_power i * 19 < 2 ^ 64) ∧
    polynomial_rolling_hash [] = 0 := by
  refine ⟨?_, base_power_eq, rfl⟩
  unfold polynomial_rolling_hash polynomial_sum
  have h1 : (1 : Nat) = base_power 0 := rfl
  rw [h1, polynomial_loop_eq s 0 0 (by decide) hs]
  simp

theorem fnv1a_loop_eq (s : List Nat) :
    ∀ hash : Nat, (∀ c ∈ s, c < 128) →
      fnv1a_loop s hash =
        s.foldl (fun hash byte => ((hash ^^^ byte) * 0x100000001B3) % 2 ^ 64) hash := by
  induction s with
  | nil => intro hash _; rfl
  | cons c rest ih =>
    intro hash hs
    have hc : c < 128 := hs c (by simp)
    simp only [fnv1a_loop, List.foldl_cons, char_to_size_t_ascii c hc]
    exact ih _ (fun x hx => hs x (List.mem_cons_of_mem _ hx))

/-- C20: on a string of bytes below 128 `fnv1a_hash` is the left fold over the
bytes from the basis `0xCBF29CE484222325` with the step
`(hash XOR byte) * 0x100000001B3 mod 2 ^ 64`; the empty string hashes to the
basis and the string "a" to `0xAF63DC4C8601EC8C`. -/
theorem fnv1a_hash_correct (s : List Nat) (hs : ∀ c ∈ s, c < 128) :
    fnv1a_hash s = fnv1a_fold s ∧
    fnv1a_hash [] = 0xCBF29CE484222325 ∧
    fnv1a_hash [97] = 0xAF63DC4C8601EC8C := by
  refine ⟨fnv1a_loop_eq s _ hs, by decide, by decide⟩

theorem polynomial_rolling_hash_correct_witness :
    (∀ c ∈ [97, 102, 107], c < 128) ∧
    polynomial_rolling_hash [97, 102, 107] = polynomial_sum [97, 102, 107] ∧
    polynomial_rolling_hash [97, 102, 107] = 40662 :=
  ⟨by decide,
    (polynomial_rolling_hash_correct [97, 102, 107] (by decide)).1, by decide⟩

theorem fnv1a_hash_correct_witness :
    (∀ c ∈ [97, 102, 107], c < 128) ∧
    fnv1a_hash [97, 102, 107] = fnv1a_fold [97, 102, 107] :=
  ⟨by decide, (fnv1a_hash_correct [97, 102, 107] (by decide)).1⟩

/-! ## The later contracts on the sample container -/

theorem move_construct_correct_witness :
    0 < sampleMap._bucket_count ∧
    (move_construct sampleMap).2 = sampleMap ∧
    (move_construct sampleMap).1 = ⟨5, [[], [], [], [], []], none, 0⟩ ∧
    ∃ m1 a, (move_construct sampleMap).1.insert sampleHash sampleEqual (7, 70) =
        some (m1, some a, true) ∧
      m1.find sampleHash sampleEqual 7 = some a ∧ m1.value_at (some a) = some (7, 70) :=
  ⟨by decide, by decide, by decide,
    (move_construct_correct sampleHash sampleEqual sampleMap (by decide)).2.2.2.2.2.2.2.2.2.2.2
      7 70 (by decide)⟩

theorem copy_construct_bounded_witness :
    Valid sampleMap ∧ 0 < sampleMap._bucket_count ∧ sampleMap._bucket_count ≤ 2147483647 ∧
    I1 sampleHash sampleMap ∧ I2 sampleMap ∧
    I3 sampleMap ∧ I4 sampleEqual sampleMap ∧ HashCongr sampleHash sampleEqual ∧
    LawfulPred sampleEqual ∧ sampleMap.nodes.length ≤ 3 ∧
    ∃ c, copy_construct sampleHash sampleEqual sampleMap 3 = some c ∧
      c.bucket_count = sampleMap.bucket_count ∧ c.size = sampleMap.size ∧
      (∀ k, c.value_at (c.find sampleHash sampleEqual k) =
          sampleMap.value_at (sampleMap.find sampleHash sampleEqual k) ∧
        (c.find sampleHash sampleEqual k = c.end ↔
          sampleMap.find sampleHash sampleEqual k = sampleMap.end)) ∧
      Valid c ∧ I1 sampleHash c ∧ I2 c ∧ I3 c ∧ HeadLowest c ∧ I4 sampleEqual c :=
  ⟨by decide, by decide, by decide, by decide, by decide, by decide, by decide,
    sampleHash_congr, sampleEqual_lawful, by decide,
    copy_construct_bounded sampleHash sampleEqual sampleMap (by decide) (by decide) (by decide)
      (by decide) (by decide) (by decide) (by decide) sampleHash_congr sampleEqual_lawful 3
      (by decide)⟩

theorem head_cursor_bounded_witness :
    0 < next_greater_prime 4 ∧ next_greater_prime 4 ≤ 2147483647 ∧
    (construct next_greater_prime 4).run sampleHash sampleEqual sampleCalls = some sampleFinal ∧
    HeadLowest sampleFinal :=
  ⟨by decide, by decide, by decide,
    (head_cursor_bounded sampleHash sampleEqual next_greater_prime 4 (by decide) (by decide)
      sampleCalls sampleFinal (by decide)).1⟩

theorem bucket_placement_kept_witness :
    0 < next_greater_prime 4 ∧
    (construct next_greater_prime 4).run sampleHash sampleEqual sampleCalls = some sampleFinal ∧
    (∀ i, i < sampleFinal.bucket_count →
      ∀ n ∈ sampleFinal.chain i, sampleHash n.key % sampleFinal.bucket_count = i) ∧
    sampleFinal.bucket_count = next_greater_prime 4 ∧
    sampleFinal._buckets.length = sampleFinal.bucket_count :=
  ⟨by decide, by decide,
    bucket_placement_kept sampleHash sampleEqual next_greater_prime 4 (by decide) sampleCalls
      sampleFinal (by decide)⟩

/-! ## More than `INT_MAX` buckets -/

theorem bigFront_length : bigFront.length = 2147483647 := List.length_replicate _ _

theorem bigFront_flatten : bigFront.flatten = [] := flatten_replicate_nil _

theorem bigBack_flatten : bigBack.flatten = [] := flatten_replicate_nil _

/-- The nodes of a container whose buckets are `bigFront`, two chains and
`bigBack`. -/
theorem big_nodes (bc : Nat) (c1 c2 : List (HashNode Nat Nat)) (h : Ptr) (sz : Nat) :
    (UnorderedMap.mk bc (bigFront ++ c1 :: c2 :: bigBack) h sz).nodes = c1 ++ c2 := by
  simp only [nodes, List.flatten_append, List.flatten_cons, bigFront_flatten, bigBack_flatten,
    List.nil_append, List.append_nil]

/-- The two chains of such a container are its buckets `2 ^ 31 - 1` and
`2 ^ 31`. -/
theorem big_chain (bc : Nat) (c1 c2 : List (HashNode Nat Nat)) (h : Ptr) (sz : Nat) :
    (UnorderedMap.mk bc (bigFront ++ c1 :: c2 :: bigBack) h sz).chain 2147483647 = c1 ∧
    (UnorderedMap.mk bc (bigFront ++ c1 :: c2 :: bigBack) h sz).chain 2147483648 = c2 := by
  constructor
  · have := chain_of_split (UnorderedMap.mk bc (bigFront ++ c1 :: c2 :: bigBack) h sz)
      bigFront (c2 :: bigBack) c1 rfl
    rw [bigFront_length] at this
    exact this
  · have := chain_of_split (UnorderedMap.mk bc (bigFront ++ c1 :: c2 :: bigBack) h sz)
      (bigFront ++ [c1]) bigBack c2 (by simp)
    rw [List.length_append, bigFront_length] at this
    exact this

/-- Writing the slots `2 ^ 31 - 1` and `2 ^ 31` of such an array. -/
theorem big_set (c1 c2 c : List (HashNode Nat Nat)) :
    (bigFront ++ c1 :: c2 :: bigBack).set 2147483647 c = bigFront ++ c :: c2 :: bigBack ∧
    (bigFront ++ c1 :: c2 :: bigBack).set 2147483648 c = bigFront ++ c1 :: c :: bigBack := by
  constructor
  · have := set_of_split bigFront c1 c (c2 :: bigBack)
    rw [bigFront_length] at this
    exact this
  · have := set_of_split (bigFront ++ [c1]) c2 c bigBack
    rw [List.length_append, bigFront_length] at this
    simpa using this

/-- The constructor, when the sizing helper returns 2147483659, the smallest
prime from `2 ^ 31` on. -/
theorem big_construct :
    (construct (fun _ => 2147483659) 2147483648 : UnorderedMap Nat Nat) = bigEmpty := by
  have h : List.replicate 2147483659 ([] : List (HashNode Nat Nat)) =
      bigFront ++ [] :: [] :: bigBack := by
    have h1 : (2147483659 : Nat) = 2147483647 + 12 := by norm_num
    rw [h1, List.replicate_add]
    rfl
  simp only [bigEmpty, construct, h]

theorem bigEmpty_inv : Inv sampleHash bigEmpty := by
  rw [← big_construct]
  exact (construct_inv sampleHash sampleEqual (fun _ => 2147483659) 2147483648 (by decide)).1

theorem big_fresh (bc : Nat) (c1 c2 : List (HashNode Nat Nat)) (h : Ptr) (sz : Nat) :
    (UnorderedMap.mk bc (bigFront ++ c1 :: c2 :: bigBack) h sz).fresh =
      ((c1 ++ c2).map (fun n => n.addr)).foldr max 0 + 1 := by
  have := big_nodes bc c1 c2 h sz
  unfold nodes at this
  unfold fresh
  rw [this]

/-- Inserting the key `2 ^ 31 - 1` into the empty container. -/
theorem big_insert_first :
    bigEmpty.insert sampleHash sampleEqual (2147483647, 10) = some (bigOne, some 1, true) := by
  have hinv := bigEmpty_inv
  have hb : bigEmpty._bucket sampleHash 2147483647 = 2147483647 := by decide
  have hch : bigEmpty.chain 2147483647 = [] := (big_chain _ _ _ _ _).1
  obtain ⟨h2, hins, hh1, _⟩ := insert_miss sampleHash sampleEqual bigEmpty 2147483647 10
    hinv.1 hinv.2.1 (by rw [hb, hch]; intro n hn; cases hn)
  have hfresh : bigEmpty.fresh = 1 := big_fresh _ _ _ _ _
  rw [hins, hh1 rfl, hb, hch, hfresh]
  have hset : bigEmpty._buckets.set 2147483647 [⟨1, 2147483647, 10⟩] =
      bigFront ++ [bigFirst] :: [] :: bigBack := (big_set _ _ _).1
  rw [hset]
  rfl

theorem bigOne_base : InvBase sampleHash bigOne :=
  (insert_base sampleHash sampleEqual bigEmpty (inv_base _ _ bigEmpty_inv) 2147483647 10
    bigOne (some 1) true big_insert_first).1

theorem bigOne_deref : bigOne.deref 1 = [bigFirst] :=
  deref_of_split bigOne bigFront ([] :: bigBack) [] [] bigFirst rfl bigOne_base.1.2.1

/-- Inserting the key `2 ^ 31` next. -/
theorem big_insert_second :
    bigOne.insert sampleHash sampleEqual (2147483648, 20) = some (bigMap, some 2, true) := by
  have hinv := bigOne_base
  have hb : bigOne._bucket sampleHash 2147483648 = 2147483648 := by decide
  have hch : bigOne.chain 2147483648 = [] := (big_chain _ _ _ _ _).2
  obtain ⟨h2, hins, _, hh2⟩ := insert_miss sampleHash sampleEqual bigOne 2147483648 20
    hinv.1 hinv.2.1 (by rw [hb, hch]; intro n hn; cases hn)
  have hfresh : bigOne.fresh = 2 := big_fresh _ _ _ _ _
  have hh := hh2 1 bigFirst [] rfl bigOne_deref
  rw [hb] at hh
  have hh3 : h2 = 1 := by
    rw [hh]
    decide
  rw [hins, hh3, hb, hch, hfresh]
  have hset : bigOne._buckets.set 2147483648 [⟨2, 2147483648, 20⟩] =
      bigFront ++ [bigFirst] :: [bigSecond] :: bigBack := (big_set _ _ _).2
  rw [hset]
  rfl

/-- The two insertions give `bigMap`. -/
theorem big_run :
    (construct (fun _ => 2147483659) 2147483648).run sampleHash sampleEqual bigCalls =
      some bigMap := by
  rw [big_construct]
  unfold bigCalls
  rw [run, step, big_insert_first]
  simp only [Option.map_some']
  rw [run, step, big_insert_second]
  rfl

theorem bigMap_base : InvBase sampleHash bigMap :=
  (insert_base sampleHash sampleEqual bigOne bigOne_base 2147483648 20
    bigMap (some 2) true big_insert_second).1

theorem bigMap_nodes : bigMap.nodes = [bigFirst, bigSecond] := big_nodes _ _ _ _ _

theorem bigMap_I3 : I3 bigMap := by
  rw [I3_iff, bigMap_nodes]
  rfl

theorem bigMap_I4 : I4 sampleEqual bigMap := by
  unfold I4
  rw [bigMap_nodes]
  decide

theorem bigMap_deref : bigMap.deref 1 = [bigFirst] :=
  deref_of_split bigMap bigFront ([bigSecond] :: bigBack) [] [] bigFirst rfl bigMap_base.1.2.1

theorem increment_last (hash : K → Nat) (m : UnorderedMap K V) (a : Nat)
    (n : HashNode K V) (hd : m.deref a = [n]) :
    m.increment hash (some a) =
      some (m.scanBuckets (to_int (m._bucket hash n.key + 1))
        (2147483648 - to_int (m._bucket hash n.key + 1)).toNat) := by
  simp only [increment, hd]

theorem copy_loop_step (hash : K → Nat) (equal : K → K → Bool)
    (other this this1 : UnorderedMap K V) (fuel a : Nat) (n : HashNode K V)
    (rest : List (HashNode K V)) (p : Ptr) (b : Bool) (r : Ptr)
    (hd : other.deref a = n :: rest)
    (hi : this.insert hash equal (n.key, n.val) = some (this1, p, b))
    (hinc : other.increment hash (some a) = some r) :
    copy_loop hash equal (some other) (fuel + 1) (some a) this =
      copy_loop hash equal (some other) fuel r this1 := by
  simp only [copy_loop, Option.getD_some, hd, hi, hinc]

theorem copy_loop_end (hash : K → Nat) (equal : K → K → Bool)
    (other : Option (UnorderedMap K V)) (fuel : Nat) (this : UnorderedMap K V) :
    copy_loop hash equal other fuel none this = some this := by
  cases fuel <;> rfl

theorem traverse_end (hash : K → Nat) (m : UnorderedMap K V) (fuel : Nat) :
    m.traverse hash fuel none = some [] := by
  cases fuel <;> rfl

theorem traverse_step (hash : K → Nat) (m : UnorderedMap K V) (fuel a : Nat)
    (r : Ptr) (hinc : m.increment hash (some a) = some r) :
    m.traverse hash (fuel + 1) (some a) = (m.traverse hash fuel r).map (fun l => a :: l) := by
  simp only [traverse, hinc]

/-- In `bigMap` the increment at the entry of bucket `2 ^ 31 - 1` gives the end
marker: `index + 1 = 2 ^ 31` converts to the `int` `-2 ^ 31`, which fails the
loop test. -/
theorem big_increment : bigMap.increment sampleHash (some 1) = some none := by
  have hb : bigMap._bucket sampleHash bigFirst.key = 2147483647 := by decide
  have hi : to_int (2147483647 + 1) = -2147483648 := by decide
  rw [increment_last sampleHash bigMap 1 bigFirst bigMap_deref, hb, hi,
    scanBuckets_neg bigMap (-2147483648) (by decide)]

theorem big_traverse (fuel : Nat) :
    bigMap.traverse sampleHash (fuel + 1) bigMap.begin = some [1] := by
  have hbegin : bigMap.begin = some 1 := rfl
  rw [hbegin, traverse_step sampleHash bigMap fuel 1 none big_increment, traverse_end]
  rfl

theorem big_erase : bigMap.erase sampleHash sampleEqual (some 1) = some (bigErased, none) := by
  have hf : bigMap._find sampleHash sampleEqual bigFirst.key =
      ⟨bigFront.length, ([] : List (HashNode Nat Nat)).length⟩ := by
    have hb : bigMap._bucket sampleHash bigFirst.key = 2147483647 := by decide
    have hch : bigMap.chain 2147483647 = [bigFirst] := (big_chain _ _ _ _ _).1
    simp only [_find, _find_in, hb, hch, bigFront_length]
    rfl
  have := erase_at sampleHash sampleEqual bigMap 1 bigFirst [] bigMap_deref bigFront
    ([bigSecond] :: bigBack) [] [] bigFirst rfl hf none big_increment
  rw [this]
  rfl

theorem big_copy (fuel : Nat) :
    copy_construct sampleHash sampleEqual bigMap (fuel + 1) = some bigOne := by
  have h0 : (UnorderedMap.mk bigMap.bucket_count (List.replicate bigMap.bucket_count [])
      none 0 : UnorderedMap Nat Nat) = bigEmpty := big_construct
  have hbegin : bigMap.cbegin = some 1 := rfl
  rw [copy_construct, h0, hbegin,
    copy_loop_step sampleHash sampleEqual bigMap bigEmpty bigOne fuel 1 bigFirst [] (some 1)
      true none bigMap_deref big_insert_first big_increment, copy_loop_end]

/-- The container `bigMap` is well-formed: a valid memory image with I1 to I4. -/
theorem bigMap_wf :
    Valid bigMap ∧ I1 sampleHash bigMap ∧ I2 bigMap ∧ I3 bigMap ∧ I4 sampleEqual bigMap :=
  ⟨bigMap_base.1, bigMap_base.2.2.1, bigMap_base.2.2.2, bigMap_I3, bigMap_I4⟩

/-- C7: `bigMap`, the container two insertions leave from the constructor with
2147483659 buckets, is well-formed, with its two entries in the buckets
`2 ^ 31 - 1` (the head) and `2 ^ 31`.  `erase(begin())` there returns the end
marker although the next non-empty bucket, `2 ^ 31`, holds an entry, and it
sets `_head` to null with that entry still stored, so the container it leaves
does not satisfy I3. -/
theorem erase_skips_high_bucket :
    (construct (fun _ => 2147483659) 2147483648).run sampleHash sampleEqual bigCalls =
      some bigMap ∧
    Valid bigMap ∧ I1 sampleHash bigMap ∧ I2 bigMap ∧ I3 bigMap ∧ I4 sampleEqual bigMap ∧
    bigMap.begin = some 1 ∧ 1 ∈ bigMap.nodes.map (fun n => n.addr) ∧
    bigMap.chain 2147483648 = [bigSecond] ∧
    bigMap.erase sampleHash sampleEqual (some 1) = some (bigErased, bigMap.end) ∧
    bigErased._head = none ∧ bigErased.nodes = [bigSecond] ∧ ¬ I3 bigErased := by
  obtain ⟨h1, h2, h3, h4, h5⟩ := bigMap_wf
  refine ⟨big_run, h1, h2, h3, h4, h5, rfl, ?_, (big_chain _ _ _ _ _).2, big_erase, rfl,
    big_nodes _ _ _ _ _, ?_⟩
  · rw [bigMap_nodes]
    decide
  · intro h
    rw [I3_iff, show bigErased.nodes = [bigSecond] from big_nodes _ _ _ _ _] at h
    exact absurd h (by decide)

/-- C8: `bigMap`, the container two insertions leave from the constructor with
2147483659 buckets, is well-formed (valid, I1, I3), with its two entries in the
buckets `2 ^ 31 - 1` and `2 ^ 31`.  The traversal from `begin()` by `++`
reaches the end marker after the first entry, whatever the fuel: the entry of
bucket `2 ^ 31` is not visited. -/
theorem traversal_stops_early :
    (construct (fun _ => 2147483659) 2147483648).run sampleHash sampleEqual bigCalls =
      some bigMap ∧
    Valid bigMap ∧ I1 sampleHash bigMap ∧ I3 bigMap ∧
    bigMap._buckets.flatten.map (fun x => x.addr) = [1, 2] ∧
    ∀ fuel, bigMap.traverse sampleHash (fuel + 1) bigMap.begin = some [1] := by
  refine ⟨big_run, bigMap_base.1, bigMap_base.2.2.1, bigMap_I3, ?_, big_traverse⟩
  have h := bigMap_nodes
  unfold nodes at h
  rw [h]
  rfl

/-- C9: on the container constructed with 2147483659 buckets, the calls
`insert((2147483647, 10))` and `insert((2147483648, 20))` are defined and leave
`bigMap`, where `size()` is 2, two entries are reachable through the chains and
`empty()` is false, but the traversal from `begin()` to `end()` produces one
entry. -/
theorem size_exceeds_traversal :
    (construct (fun _ => 2147483659) 2147483648).run sampleHash sampleEqual bigCalls =
      some bigMap ∧
    bigMap.size = 2 ∧ bigMap._buckets.flatten.length = 2 ∧ bigMap.empty = false ∧
    ∀ fuel, bigMap.traverse sampleHash (fuel + 1) bigMap.begin = some [1] := by
  refine ⟨big_run, rfl, ?_, rfl, big_traverse⟩
  have h := bigMap_nodes
  unfold nodes at h
  rw [h]
  rfl

/-- C12: the copy constructor run on the well-formed `bigMap`, the container
two insertions leave from the constructor with 2147483659 buckets (entries in
the buckets `2 ^ 31 - 1` and `2 ^ 31`), ends, whatever the fuel, with the
container `bigOne`: its size is 1 where the source has 2, and
`find(2147483648)` is the end marker on the copy where the source finds the
entry. -/
theorem copy_loses_entry :
    (construct (fun _ => 2147483659) 2147483648).run sampleHash sampleEqual bigCalls =
      some bigMap ∧
    Valid bigMap ∧ I1 sampleHash bigMap ∧ I2 bigMap ∧ I3 bigMap ∧ I4 sampleEqual bigMap ∧
    (∀ fuel, copy_construct sampleHash sampleEqual bigMap (fuel + 1) = some bigOne) ∧
    bigOne.size = 1 ∧ bigMap.size = 2 ∧
    bigOne.find sampleHash sampleEqual 2147483648 = bigOne.end ∧
    bigMap.find sampleHash sampleEqual 2147483648 = some 2 := by
  obtain ⟨h1, h2, h3, h4, h5⟩ := bigMap_wf
  refine ⟨big_run, h1, h2, h3, h4, h5, big_copy, rfl, rfl, ?_, ?_⟩
  · have hb : bigOne._bucket sampleHash 2147483648 = 2147483648 := by decide
    have hch : bigOne.chain 2147483648 = [] := (big_chain _ _ _ _ _).2
    rw [find_eq_find?, hb, hch]
    rfl
  · have hb : bigMap._bucket sampleHash 2147483648 = 2147483648 := by decide
    have hch : bigMap.chain 2147483648 = [bigSecond] := (big_chain _ _ _ _ _).2
    rw [find_eq_find?, hb, hch]
    rfl

/-- C17: on the container constructed with 2147483659 buckets, the calls
`insert((2147483647, 10))`, `insert((2147483648, 20))` and `erase(begin())` are
defined; the erased entry is the head and has no chain successor.  They leave
`bigErased`, where `_head` is null although the bucket `2 ^ 31` holds an
entry: `_head` did not move to the first entry of the next non-empty bucket. -/
theorem head_lost_by_erase :
    (construct (fun _ => 2147483659) 2147483648).run sampleHash sampleEqual bigCalls =
      some bigMap ∧
    bigMap._head = some 1 ∧ bigMap.deref 1 = [bigFirst] ∧
    (construct (fun _ => 2147483659) 2147483648).run sampleHash sampleEqual
      (bigCalls ++ [Call.erase (some 1)]) = some bigErased ∧
    bigErased._head = none ∧ bigErased.chain 2147483648 = [bigSecond] ∧
    ¬ HeadLowest bigErased := by
  refine ⟨big_run, rfl, bigMap_deref, ?_, rfl, (big_chain _ _ _ _ _).2, ?_⟩
  · rw [big_construct]
    unfold bigCalls
    rw [List.cons_append, List.cons_append, List.nil_append, run, step, big_insert_first]
    simp only [Option.map_some']
    rw [run, step, big_insert_second]
    simp only [Option.map_some']
    rw [run, step, big_erase]
    rfl
  · intro h
    have h1 := h.1.1 rfl 2147483648 (by decide)
    have hch : bigErased.chain 2147483648 = [bigSecond] := (big_chain _ _ _ _ _).2
    rw [hch] at h1
    cases h1

end UnorderedMap
